import Mathlib

/-!
Monte Carlo Tree Search (`MCTS.h`, `main.cpp`): a shallow embedding

The C++ program keeps its search tree in manually managed memory: `rootNode`
is a member of `currentGame`, every other node is created by `new`, and nodes
refer to one another through raw pointers (`prevNode`, `parentState`,
`nextState`).  The embedding keeps that shape.

* Memory is a list of cells.  Cell `0` is `rootNode`; every `new node<S,A>`
  appends a cell; `delete` empties a cell.  A pointer is `NULL`, the address
  of a cell, or an indeterminate value (a pointer that was never assigned).
* Every operation returns `Except Err _`.  `Err.ub` stands for undefined
  behaviour of the C++ program (reading through a bad pointer, indexing a
  vector out of range, using a variable that was never assigned);
  `Err.diverge` stands for a loop that does not terminate.
* `int` counters are `Int` (they only count games, so they stay far below
  `2^31` for every `N` that `playNGames(int N)` can receive).
* A finite `double` is a rational number; the result of a division is a
  `Dbl`, which adds the IEEE values `NaN`, `+inf` and `-inf` that a division
  by zero produces.  Rounding is not modelled.
* The random source is an explicit argument: one natural number for each
  `std::random_shuffle` call and a stream of natural numbers for the draws of
  the default policy.
-/

namespace MCTS

/-! ## Values -/

/-- The ways a run can fail to produce a value. -/
inductive Err where
  | ub
  | diverge
  deriving DecidableEq, Repr

/-- The value of a `double` expression: a finite value or one of the IEEE
special values. -/
inductive Dbl where
  | nan
  | ninf
  | fin (q : ℚ)
  | pinf
  deriving DecidableEq

namespace Dbl

/-- The C++ comparison `x > y` on doubles: false whenever an operand is NaN. -/
def gt : Dbl → Dbl → Bool
  | nan, _ => false
  | _, nan => false
  | ninf, _ => false
  | fin _, ninf => true
  | fin x, fin y => decide (y < x)
  | fin _, pinf => false
  | pinf, pinf => false
  | pinf, _ => true

/-- The C++ division `x / n` of a finite double by an `int` converted to
double: `0/0` is NaN and a non-zero value over zero is an infinity. -/
def divInt (x : ℚ) (n : Int) : Dbl :=
  if n = 0 then
    if x = 0 then nan else if 0 < x then pinf else ninf
  else fin (x / (n : ℚ))

/-- The C++ sum `x + y` of two doubles. -/
def add : Dbl → Dbl → Dbl
  | nan, _ => nan
  | _, nan => nan
  | pinf, ninf => nan
  | ninf, pinf => nan
  | pinf, _ => pinf
  | _, pinf => pinf
  | ninf, _ => ninf
  | _, ninf => ninf
  | fin x, fin y => fin (x + y)

end Dbl

/-- A raw pointer to a node: `NULL`, the address of a memory cell, or the
indeterminate value of a pointer that was never assigned. -/
inductive Ptr where
  | null
  | addr (a : Nat)
  | wild
  deriving DecidableEq, Repr

/-- The struct `link`: an edge from `parentState` to `nextState`. -/
structure link where
  parentState : Ptr
  nextState : Ptr
  totReward : ℚ := 0
  nTotal : Int := 0
  deriving DecidableEq

/-- The struct `node`.  `prevAction` is `none` while it holds an indeterminate
value (it has no initialiser). -/
structure node (S A : Type) where
  gameState : S
  prevNode : Ptr
  prevAction : Option Nat
  availableActions : List A
  availableLinks : List link
  allActionsTried : Bool := false
  nVisits : Int := 0

/-- The game logic handed to `currentGame`: the six `std::function` members,
the default constructors `S()` and `A()` that `new node<S,A>` and `A maxMove;`
run, and the `plyrsGo` member of a state.  `getNextState` and `defaultPolicy`
may have undefined behaviour (an index out of range), so they return
`Except`; `defaultPolicy` also receives its random draw. -/
structure Game (S A : Type) where
  defaultState : S
  defaultAction : A
  plyrsGo : S → Nat
  getActions : S → List A
  getNextState : S → A → Except Err S
  defaultPolicy : Nat → S → List A → Except Err S
  selectionEvaluation : ℚ → Int → Int → Dbl
  isTerminal : S → Bool
  assignRewards : S → List ℚ

/-- The struct `currentGame`: memory (cell `0` is `rootNode`, `none` is a
deleted cell), `currentNode`, `nPlayers` and `gameRewards`. -/
structure currentGame (S A : Type) where
  mem : List (Option (node S A))
  currentNode : Ptr
  nPlayers : Int
  gameRewards : List ℚ

/-- The random input of one game of `playNGames`: the outcome of the
`random_shuffle` call of `expansion` and the draws of `defaultPolicy`. -/
structure Rand where
  shuffle : Nat
  draws : Nat → Nat

section Engine

variable {S A : Type}

/-! ## Memory -/

/-- The node stored at address `a`, when the cell exists and is live. -/
def cellAt (mem : List (Option (node S A))) (a : Nat) : Option (node S A) :=
  match mem[a]? with
  | some (some nd) => some nd
  | _ => none

/-- Read through a pointer, `*p`: undefined unless `p` is the address of a
live cell. -/
def readNode (mem : List (Option (node S A))) : Ptr → Except Err (node S A)
  | .addr a =>
    match cellAt mem a with
    | some nd => .ok nd
    | none => .error .ub
  | _ => .error .ub

/-- Overwrite the node stored in cell `a`. -/
def writeNode (mem : List (Option (node S A))) (a : Nat) (nd : node S A) :
    List (Option (node S A)) :=
  mem.set a (some nd)

/-- The node `new node<S,A>` creates: the state is default constructed,
`allActionsTried` and `nVisits` take their initialisers, both vectors are
empty, and `prevNode` and `prevAction` are left indeterminate. -/
def newNode (G : Game S A) : node S A :=
  { gameState := G.defaultState, prevNode := .wild, prevAction := none,
    availableActions := [], availableLinks := [] }

/-- The member `rootNode`. -/
def currentGame.rootNode (g : currentGame S A) : Except Err (node S A) :=
  readNode g.mem (.addr 0)

/-! ## Construction and set-up of the root -/

/-- The constructor `currentGame(S initState, int players)`.  `prevAction =
NULL` stores `0`; `currentNode` is not assigned. -/
def currentGame.construct (initState : S) (players : Int) : currentGame S A :=
  { mem := [some { gameState := initState, prevNode := .null, prevAction := some 0,
                   availableActions := [], availableLinks := [] }],
    currentNode := .wild, nPlayers := players, gameRewards := [] }

/-- One pass of the link-creating loop body shared by the set-up of the root and
`expansion`: allocate a node and push a link from cell `p` to it. -/
def pushLink (G : Game S A) (p : Nat) (mem : List (Option (node S A))) :
    Except Err (List (Option (node S A))) :=
  match readNode mem (.addr p) with
  | .error e => .error e
  | .ok nd =>
    .ok (writeNode mem p
          { nd with availableLinks :=
              nd.availableLinks ++ [{ parentState := .addr p, nextState := .addr mem.length }] }
        ++ [some (newNode G)])

/-- The loop `for (i = 0; i < availableActions.size(); i++)` of the set-up of
the root and of `expansion`, run for `k` passes. -/
def pushLinks (G : Game S A) (p : Nat) :
    Nat → List (Option (node S A)) → Except Err (List (Option (node S A)))
  | 0, mem => .ok mem
  | k + 1, mem =>
    match pushLink G p mem with
    | .error e => .error e
    | .ok mem1 => pushLinks G p k mem1

/-- The method that sets up the root node (its available actions and one link
and one fresh node for each of them); `initialize` is a reserved word, so the
method is named `initializeRoot` here. -/
def initializeRoot (G : Game S A) (g : currentGame S A) : Except Err (currentGame S A) :=
  match g.rootNode with
  | .error e => .error e
  | .ok root =>
    let acts := G.getActions root.gameState
    match pushLinks G 0 acts.length (writeNode g.mem 0 { root with availableActions := acts }) with
    | .error e => .error e
    | .ok mem1 => .ok { g with mem := mem1 }

/-! ## Selection -/

/-- The `for` loop of `selection` over the links of the current node, with its
variables `maxValue`, `maxInd` (`none` until assigned) and `counter`. -/
def selectionScan (G : Game S A) (mem : List (Option (node S A))) :
    List link → Dbl → Option Nat → Nat → Except Err (Option Nat)
  | [], _, maxInd, _ => .ok maxInd
  | nextLink :: rest, maxValue, maxInd, counter =>
    match readNode mem nextLink.parentState with
    | .error e => .error e
    | .ok par =>
      let moveValue := G.selectionEvaluation nextLink.totReward nextLink.nTotal par.nVisits
      if moveValue.gt maxValue then selectionScan G mem rest moveValue (some counter) (counter + 1)
      else selectionScan G mem rest maxValue maxInd (counter + 1)

/-- The `while` loop of `selection`, started with `currentNode = cur`; the
result is the final `currentNode`.  The first argument bounds the number of
passes. -/
def selectionLoop (G : Game S A) (mem : List (Option (node S A))) : Nat → Ptr → Except Err Ptr
  | 0, _ => .error .diverge
  | fuel + 1, cur =>
    match readNode mem cur with
    | .error e => .error e
    | .ok nd =>
      if nd.allActionsTried then
        match selectionScan G mem nd.availableLinks (.fin (-99999999999)) none 0 with
        | .error e => .error e
        | .ok none => .error .ub
        | .ok (some maxInd) =>
          match nd.availableLinks[maxInd]? with
          | none => .error .ub
          | some lnk =>
            match readNode mem lnk.nextState with
            | .error e => .error e
            | .ok nxt =>
              if G.isTerminal nxt.gameState then .ok lnk.nextState
              else selectionLoop G mem fuel lnk.nextState
      else .ok cur

/-- The method `selection()`.  The loop does not change memory, so a run of
more passes than there are cells has been at some node twice and never ends:
the loop is cut there and reported as `Err.diverge`. -/
def selection (G : Game S A) (g : currentGame S A) : Except Err (currentGame S A) :=
  match selectionLoop G g.mem (g.mem.length + 1) (.addr 0) with
  | .error e => .error e
  | .ok cur => .ok { g with currentNode := cur }

/-! ## Expansion -/

/-- The first loop of `expansion`: the indices of the links with `nTotal == 0`,
in increasing order. -/
def unTriedOf (links : List link) : List Nat :=
  (List.range links.length).filter (fun i =>
    match links[i]? with
    | some l => decide (l.nTotal = 0)
    | none => false)

/-- The call `std::random_shuffle(unTried.begin(), unTried.end())`.  Only the
size and the first element of the result are read afterwards; a rotation by
the random draw can bring every element to the front. -/
def random_shuffle (r : Nat) (xs : List Nat) : List Nat :=
  xs.rotate r

/-- The method `expansion()`, with the draw `r` of its shuffle. -/
def expansion (G : Game S A) (r : Nat) (g : currentGame S A) : Except Err (currentGame S A) :=
  match g.currentNode with
  | .addr c =>
    match readNode g.mem (.addr c) with
    | .error e => .error e
    | .ok cur =>
      let unTried := random_shuffle r (unTriedOf cur.availableLinks)
      let cur1 := if unTried.length = 1 then { cur with allActionsTried := true } else cur
      let mem1 := writeNode g.mem c cur1
      match unTried[0]? with
      | none => .error .ub
      | some actionTaken =>
        match cur1.availableActions[actionTaken]?, cur1.availableLinks[actionTaken]? with
        | some act, some lnk =>
          match G.getNextState cur1.gameState act with
          | .error e => .error e
          | .ok newState =>
            match lnk.nextState with
            | .addr n =>
              match readNode mem1 (.addr n) with
              | .error e => .error e
              | .ok nn =>
                let acts := G.getActions newState
                let mem2 := writeNode mem1 n
                  { nn with gameState := newState, prevNode := .addr c,
                            prevAction := some actionTaken, availableActions := acts }
                match pushLinks G n acts.length mem2 with
                | .error e => .error e
                | .ok mem3 => .ok { g with mem := mem3, currentNode := .addr n }
            | _ => .error .ub
        | _, _ => .error .ub
  | _ => .error .ub

/-! ## Simulation -/

/-- The `while` loop of `finishSimulation`; `k` counts the calls of
`defaultPolicy` made so far and selects the random draw. -/
def simulationLoop (G : Game S A) (draws : Nat → Nat) : Nat → Nat → S → Except Err S
  | 0, _, _ => .error .diverge
  | fuel + 1, k, currState =>
    if G.isTerminal currState then .ok currState
    else
      match G.defaultPolicy (draws k) currState (G.getActions currState) with
      | .error e => .error e
      | .ok s1 => simulationLoop G draws fuel (k + 1) s1

/-- The method `finishSimulation()`.  `fuel` bounds the passes of the loop. -/
def finishSimulation (G : Game S A) (fuel : Nat) (draws : Nat → Nat) (g : currentGame S A) :
    Except Err (currentGame S A) :=
  match readNode g.mem g.currentNode with
  | .error e => .error e
  | .ok cur =>
    match simulationLoop G draws fuel 0 cur.gameState with
    | .error e => .error e
    | .ok s => .ok { g with gameRewards := G.assignRewards s }

/-! ## Backpropagation -/

/-- The body of the `while` loop of `backpropagation`, entered at the node
`cur` with `cur.prevNode != NULL`: the new memory and the new `currentNode`. -/
def backpropStep (G : Game S A) (rewards : List ℚ) (mem : List (Option (node S A)))
    (cur : node S A) : Except Err (List (Option (node S A)) × Ptr) :=
  match cur.prevAction, cur.prevNode with
  | some pAction, .addr p =>
    match readNode mem (.addr p) with
    | .error e => .error e
    | .ok par =>
      match par.availableLinks[pAction]?, rewards[G.plyrsGo par.gameState]? with
      | some lnk, some r =>
        .ok (writeNode mem p
              { par with
                nVisits := par.nVisits + 1,
                availableLinks := par.availableLinks.set pAction
                  { lnk with nTotal := lnk.nTotal + 1, totReward := lnk.totReward + r } },
             .addr p)
      | _, _ => .error .ub
  | _, _ => .error .ub

/-- The `while` loop of `backpropagation`; the first argument bounds the
number of passes. -/
def backpropLoop (G : Game S A) (rewards : List ℚ) :
    Nat → List (Option (node S A)) → Ptr → Except Err (List (Option (node S A)) × Ptr)
  | 0, _, _ => .error .diverge
  | fuel + 1, mem, cur =>
    match readNode mem cur with
    | .error e => .error e
    | .ok nd =>
      match nd.prevNode with
      | .wild => .error .ub
      | .null => .ok (mem, cur)
      | .addr _ =>
        match backpropStep G rewards mem nd with
        | .error e => .error e
        | .ok (mem1, cur1) => backpropLoop G rewards fuel mem1 cur1

/-- The method `backpropagation()`.  The loop never changes a `prevNode`, so a
run of more passes than there are cells is on a cycle of `prevNode` pointers
and never ends: the loop is cut there and reported as `Err.diverge`. -/
def backpropagation (G : Game S A) (g : currentGame S A) : Except Err (currentGame S A) :=
  match backpropLoop G g.gameRewards (g.mem.length + 1) g.mem g.currentNode with
  | .error e => .error e
  | .ok (mem1, cur1) => .ok { g with mem := mem1, currentNode := cur1 }

/-! ## `playNGames` -/

/-- The part of the loop body of `playNGames` that precedes the call of
`backpropagation`. -/
def playBeforeBackprop (G : Game S A) (fuel : Nat) (ρ : Rand) (g : currentGame S A) :
    Except Err (currentGame S A) :=
  match selection G g with
  | .error e => .error e
  | .ok g1 =>
    match readNode g1.mem g1.currentNode with
    | .error e => .error e
    | .ok cur =>
      if !G.isTerminal cur.gameState then
        match expansion G ρ.shuffle g1 with
        | .error e => .error e
        | .ok g2 => finishSimulation G fuel ρ.draws g2
      else
        .ok { g1 with gameRewards := G.assignRewards cur.gameState }

/-- The body of the loop of `playNGames`: one game. -/
def playOneGame (G : Game S A) (fuel : Nat) (ρ : Rand) (g : currentGame S A) :
    Except Err (currentGame S A) :=
  match playBeforeBackprop G fuel ρ g with
  | .error e => .error e
  | .ok g3 => backpropagation G g3

/-- The loop of `playNGames`, for the games `i, i+1, ..., i+n-1`. -/
def playLoop (G : Game S A) (fuel : Nat) (rand : Nat → Rand) :
    Nat → Nat → currentGame S A → Except Err (currentGame S A)
  | 0, _, g => .ok g
  | n + 1, i, g =>
    match playOneGame G fuel (rand i) g with
    | .error e => .error e
    | .ok g1 => playLoop G fuel rand n (i + 1) g1

/-- The method `playNGames(int N)`.  `rand i` is the random input of game `i`
and `fuel` bounds the length of every simulation. -/
def playNGames (G : Game S A) (fuel : Nat) (rand : Nat → Rand) (N : Int)
    (g : currentGame S A) : Except Err (currentGame S A) :=
  playLoop G fuel rand N.toNat 0 g

/-! ## Decision and tree reuse -/

/-- The loop of `bestInitialAction` over the root links, from index `i` on,
with its variables `maxValue` and `maxMove`. -/
def bestScan (acts : List A) : List link → Nat → Dbl → A → Except Err A
  | [], _, _, maxMove => .ok maxMove
  | l :: rest, i, maxValue, maxMove =>
    let moveValue := Dbl.divInt l.totReward l.nTotal
    if moveValue.gt maxValue then
      match acts[i]? with
      | none => .error .ub
      | some a => bestScan acts rest (i + 1) moveValue a
    else bestScan acts rest (i + 1) maxValue maxMove

/-- The method `bestInitialAction()`.  `A maxMove;` is default constructed. -/
def bestInitialAction (G : Game S A) (g : currentGame S A) : Except Err A :=
  match g.rootNode with
  | .error e => .error e
  | .ok root =>
    bestScan root.availableActions root.availableLinks 0 (.fin (-9999999999999)) G.defaultAction

/-- Run `f` on the `nextState` of every link of a list in turn. -/
def forEachLink (f : Ptr → List (Option (node S A)) → Except Err (List (Option (node S A)))) :
    List link → List (Option (node S A)) → Except Err (List (Option (node S A)))
  | [], mem => .ok mem
  | l :: rest, mem =>
    match f l.nextState mem with
    | .error e => .error e
    | .ok mem1 => forEachLink f rest mem1

/-- The method `deleteNode(cNode)`.  The source writes
`cNode->availableLinks.nextState` in the recursive call, which names no member
of a vector; the embedding reads it as `cNode->availableLinks[i].nextState`.
The first argument bounds the depth of the recursion. -/
def deleteNode (G : Game S A) :
    Nat → Ptr → List (Option (node S A)) → Except Err (List (Option (node S A)))
  | 0, _, _ => .error .diverge
  | fuel + 1, cNode, mem =>
    match cNode with
    | .addr c =>
      match readNode mem cNode with
      | .error e => .error e
      | .ok nd =>
        match (if !G.isTerminal nd.gameState then
                 forEachLink (deleteNode G fuel) nd.availableLinks mem
               else .ok mem) with
        | .error e => .error e
        | .ok mem1 =>
          match readNode mem1 cNode with
          | .error e => .error e
          | .ok _ => .ok (mem1.set c none)
    | _ => .error .ub

/-- The first loop of `cleanUp` over the root links, from index `i` on, with
its variables `maxVal` and `maxInd` (`none` until assigned). -/
def cleanUpScan : List link → Nat → Dbl → Option Nat → Option Nat
  | [], _, _, maxInd => maxInd
  | l :: rest, i, maxVal, maxInd =>
    let val := Dbl.divInt l.totReward l.nTotal
    if val.gt maxVal then cleanUpScan rest (i + 1) val (some i)
    else cleanUpScan rest (i + 1) maxVal maxInd

/-- The second loop of `cleanUp`, from index `i` on: delete the subtree of
every root link but link `maxInd`. -/
def cleanUpDelete (G : Game S A) (maxInd : Nat) :
    List link → Nat → List (Option (node S A)) → Except Err (List (Option (node S A)))
  | [], _, mem => .ok mem
  | l :: rest, i, mem =>
    if i = maxInd then cleanUpDelete G maxInd rest (i + 1) mem
    else
      match deleteNode G (mem.length + 1) l.nextState mem with
      | .error e => .error e
      | .ok mem1 => cleanUpDelete G maxInd rest (i + 1) mem1

/-- The method `cleanUp()`.  A `maxInd` that was never assigned is read by the
second loop and by the final assignment, which is undefined behaviour. -/
def cleanUp (G : Game S A) (g : currentGame S A) : Except Err (currentGame S A) :=
  match g.rootNode with
  | .error e => .error e
  | .ok root =>
    match cleanUpScan root.availableLinks 0 (.fin (-99999999999999)) none with
    | none => .error .ub
    | some maxInd =>
      match cleanUpDelete G maxInd root.availableLinks 0 g.mem with
      | .error e => .error e
      | .ok mem1 =>
        match readNode mem1 (.addr 0) with
        | .error e => .error e
        | .ok root1 =>
          match root1.availableLinks[maxInd]? with
          | none => .error .ub
          | some lnk =>
            match readNode mem1 lnk.nextState with
            | .error e => .error e
            | .ok child => .ok { g with mem := writeNode mem1 0 child }

end Engine

/-! ## The tic-tac-toe game of `main.cpp` -/

namespace TicTacToe

/-- The struct `gameState`: whose go it is and the 3 by 3 board (`0` free,
`1` x, `2` o).  The constructor fixes the shape of the board and nothing
changes it afterwards, so the board is a function of two indices below 3. -/
structure gameState where
  plyrsGo : Nat
  board : Fin 3 → Fin 3 → Int

/-- The constructor `gameState()`: the empty board, player 0 to go. -/
def gameState.blank : gameState :=
  { plyrsGo := 0, board := fun _ _ => 0 }

/-- The struct `gameAction`: two indices. -/
structure gameAction where
  ind1 : Nat
  ind2 : Nat
  deriving DecidableEq, Repr

/-- The values `0, 1, 2` of a loop `for (int i = 0; i < 3; i++)`. -/
def idx3 : List (Fin 3) := [0, 1, 2]

/-- The function `getActions`: the free cells in row-major order. -/
def getActions (cState : gameState) : List gameAction :=
  idx3.flatMap (fun i =>
    idx3.filterMap (fun j =>
      if cState.board i j = 0 then some { ind1 := i.val, ind2 := j.val } else none))

/-- The function `getNextState`.  Writing `board[i][j]` is undefined for an
index outside the board. -/
def getNextState (cState : gameState) (action : gameAction) : Except Err gameState :=
  if h : action.ind1 < 3 ∧ action.ind2 < 3 then
    let value : Int := (cState.plyrsGo : Int) + 1
    .ok { board := fun a b =>
            if a = ⟨action.ind1, h.1⟩ ∧ b = ⟨action.ind2, h.2⟩ then value else cState.board a b,
          plyrsGo := if cState.plyrsGo = 0 then 1 else 0 }
  else .error .ub

/-- The function `defaultPolicy`: `r` is the random source behind
`uni(rng)`, which draws an index between `0` and `size - 1`.  With an empty
action list no index exists and the read is undefined. -/
def defaultPolicy (r : Nat) (cState : gameState) (possibleActions : List gameAction) :
    Except Err gameState :=
  match possibleActions[r % possibleActions.length]? with
  | none => .error .ub
  | some a => getNextState cState a

/-- The function `selectionEvaluation` (UCB1), `(totReward / nj) + sqrt(2 *
log(nTot) / nj)`.  The value of the `math.h` expression `sqrt(2 * log(nTot) /
nj)` is supplied by the argument `explore nTot nj`. -/
def selectionEvaluation (explore : Int → Int → Dbl) (totReward : ℚ) (nj nTot : Int) : Dbl :=
  (Dbl.divInt totReward nj).add (explore nTot nj)

/-- The function `isTerminal`. -/
def isTerminal (s : gameState) : Bool :=
  let test : Int := (idx3.flatMap (fun i => idx3.map (fun j => s.board i j))).foldl (· * ·) 1
  if test > 0 then true
  else if idx3.any (fun i =>
      s.board i 0 = s.board i 1 && s.board i 1 = s.board i 2 && decide (s.board i 0 > 0)) then true
  else if idx3.any (fun i =>
      s.board 0 i = s.board 1 i && s.board 1 i = s.board 2 i && decide (s.board 0 i > 0)) then true
  else if s.board 0 0 = s.board 1 1 ∧ s.board 1 1 = s.board 2 2 ∧ s.board 0 0 > 0 then true
  else if s.board 0 2 = s.board 1 1 ∧ s.board 1 1 = s.board 2 0 ∧ s.board 0 2 > 0 then true
  else false

/-- The four statements `winner = cell - 1; loser = winner == 0 ? 1 : 0;
rewards[winner] = 1.0; rewards[loser] = -1.0;` on the fresh vector
`rewards(2)`.  A mark other than 1 or 2 would write outside the vector; no
state of the game holds one. -/
def rewardsFor (cell : Int) : List ℚ :=
  let winner : Int := cell - 1
  let loser : Int := if winner = 0 then 1 else 0
  (([0, 0] : List ℚ).set winner.toNat 1).set loser.toNat (-1)

/-- The loop of `assignRewards` over `i`, which tests row `i` and then column
`i`; `none` when the loop ends without a `return`. -/
def lineRewards (s : gameState) : List (Fin 3) → Option (List ℚ)
  | [] => none
  | i :: rest =>
    if s.board i 0 = s.board i 1 ∧ s.board i 0 = s.board i 2 ∧ s.board i 0 > 0 then
      some (rewardsFor (s.board i 1))
    else if s.board 0 i = s.board 1 i ∧ s.board 1 i = s.board 2 i ∧ s.board 0 i > 0 then
      some (rewardsFor (s.board 1 i))
    else lineRewards s rest

/-- The function `assignRewards`. -/
def assignRewards (s : gameState) : List ℚ :=
  match lineRewards s idx3 with
  | some r => r
  | none =>
    if (s.board 0 0 = s.board 1 1 ∧ s.board 1 1 = s.board 2 2 ∧ s.board 0 0 > 0) ∨
       (s.board 0 2 = s.board 1 1 ∧ s.board 1 1 = s.board 2 0 ∧ s.board 2 0 > 0) then
      rewardsFor (s.board 1 1)
    else [0, 0]

/-- The callbacks `main` installs in `testGame`. -/
def game (explore : Int → Int → Dbl) : Game gameState gameAction :=
  { defaultState := gameState.blank
    defaultAction := { ind1 := 0, ind2 := 0 }
    plyrsGo := fun s => s.plyrsGo
    getActions := getActions
    getNextState := getNextState
    defaultPolicy := defaultPolicy
    selectionEvaluation := selectionEvaluation explore
    isTerminal := isTerminal
    assignRewards := assignRewards }

/-- A board given by its three rows. -/
def boardOf (r0 r1 r2 : Int × Int × Int) : Fin 3 → Fin 3 → Int :=
  fun i j =>
    let r := if i = 0 then r0 else if i = 1 then r1 else r2
    if j = 0 then r.1 else if j = 1 then r.2.1 else r.2.2

end TicTacToe

end MCTS

/-! ## Trees built by the engine: vocabulary for the statements -/

namespace MCTS

section Vocabulary

variable {S A : Type}

/-- The links the loop `pushLinks` adds to cell `p` when memory has `n` cells
at its start. -/
def freshLinks (p n k : Nat) : List link :=
  (List.range k).map (fun i => { parentState := .addr p, nextState := .addr (n + i) })

/-- Memory after the node `nd` has been stored in cell `n` and the loop
`pushLinks` has given it `k` links to `k` new cells. -/
def grow (G : Game S A) (mem : List (Option (node S A))) (n : Nat) (nd : node S A) (k : Nat) :
    List (Option (node S A)) :=
  writeNode mem n
    { nd with availableLinks := nd.availableLinks ++ freshLinks n mem.length k }
  ++ List.replicate k (some (newNode G))

/-- The node `expansion` stores in the cell of the new node. -/
def expandedNode (G : Game S A) (nn : node S A) (newState : S) (c j : Nat) : node S A :=
  { nn with gameState := newState, prevNode := .addr c, prevAction := some j,
            availableActions := G.getActions newState }

/-- The node `expansion` leaves in the cell of the current node. -/
def flaggedNode (r : Nat) (cur : node S A) : node S A :=
  if (random_shuffle r (unTriedOf cur.availableLinks)).length = 1 then
    { cur with allActionsTried := true }
  else cur

/-- The root node as the constructor leaves it. -/
def constructedRoot (initState : S) : node S A :=
  { gameState := initState, prevNode := .null, prevAction := some 0,
    availableActions := [], availableLinks := [] }

/-- The root node with its available actions, before its links are pushed. -/
def initialRoot (G : Game S A) (initState : S) : node S A :=
  { gameState := initState, prevNode := .null, prevAction := some 0,
    availableActions := G.getActions initState, availableLinks := [] }

/-- The memory of a session after the constructor and the set-up of the root. -/
def initialMem (G : Game S A) (initState : S) : List (Option (node S A)) :=
  grow G [some (constructedRoot initState)] 0 (initialRoot G initState)
    (G.getActions initState).length

/-- The session after the constructor and the set-up of the root. -/
def initialGame (G : Game S A) (initState : S) (players : Int) : currentGame S A :=
  { mem := initialMem G initState, currentNode := .wild, nPlayers := players,
    gameRewards := [] }

/-- The statements of one pass of `backpropagation` on the parent node `nd`
and its link `i`, with `r` the reward `gameRewards[nd.gameState.plyrsGo]`. -/
def bump (r : ℚ) (i : Nat) (nd : node S A) : node S A :=
  match nd.availableLinks[i]? with
  | some l =>
    { nd with
      nVisits := nd.nVisits + 1,
      availableLinks := nd.availableLinks.set i
        { l with nTotal := l.nTotal + 1, totReward := l.totReward + r } }
  | none => nd

/-- The path of tree links from a node up to the root, as `backpropagation`
walks it: `PathUp mem a path` lists, from the node at `a` upwards, the pairs
(address of the parent, index of the link in the parent) of the links
followed, and ends at a node whose `prevNode` is `NULL`. -/
inductive PathUp (mem : List (Option (node S A))) : Nat → List (Nat × Nat) → Prop where
  | stop {a : Nat} {nd : node S A} :
      cellAt mem a = some nd → nd.prevNode = .null → PathUp mem a []
  | step {a p i : Nat} {nd par : node S A} {l : link} {path : List (Nat × Nat)} :
      cellAt mem a = some nd → nd.prevNode = .addr p → nd.prevAction = some i →
      cellAt mem p = some par → par.availableLinks[i]? = some l → l.nextState = .addr a →
      p < a → PathUp mem p path → PathUp mem a ((p, i) :: path)

/-- Two nodes that differ at most in their counters and in the flag
`allActionsTried`: same state, same back pointers, same actions, and links
between the same nodes; a node that is still as `new` made it is unchanged. -/
def node.sameShape (x y : node S A) : Prop :=
  x.gameState = y.gameState ∧ x.prevNode = y.prevNode ∧ x.prevAction = y.prevAction ∧
  x.availableActions = y.availableActions ∧
  x.availableLinks.map (fun l => (l.parentState, l.nextState)) =
    y.availableLinks.map (fun l => (l.parentState, l.nextState)) ∧
  (x.prevNode = .wild → x = y)

/-- Two memories with the same cells, where corresponding nodes have the same
shape. -/
def SameShape (mem mem1 : List (Option (node S A))) : Prop :=
  mem.length = mem1.length ∧
  ∀ (a : Nat) (x : node S A), cellAt mem a = some x →
    ∃ y, cellAt mem1 a = some y ∧ x.sameShape y

/-- The effect of `backpropagation` along `path`: memory `mem1` has the cells
of `mem`; a node that is not a parent on the path is unchanged, and a parent
on the path has gone through the statements of one pass of the loop, for its
link on the path and the reward of its player. -/
def Bumped (G : Game S A) (rewards : List ℚ) (path : List (Nat × Nat))
    (mem mem1 : List (Option (node S A))) : Prop :=
  mem1.length = mem.length ∧
  ∀ (q : Nat) (nd : node S A), cellAt mem q = some nd →
    ((∀ j, (q, j) ∉ path) → cellAt mem1 q = some nd) ∧
    (∀ j, (q, j) ∈ path →
      ∃ r, rewards[G.plyrsGo nd.gameState]? = some r ∧ cellAt mem1 q = some (bump r j nd))

/-- The shape of the memory of a session: every cell is live, cell `0` is the
root, the links of a node point to later cells, no cell is the target of two
links, and every other node either is still as `new` made it or points back
to the one link that leads to it. -/
structure Shape (G : Game S A) (mem : List (Option (node S A))) : Prop where
  live : ∀ a, a < mem.length → ∃ nd, cellAt mem a = some nd
  root : ∃ nd, cellAt mem 0 = some nd ∧ nd.prevNode = .null
  link_up : ∀ (p : Nat) (nd : node S A) (i : Nat) (l : link), cellAt mem p = some nd → nd.availableLinks[i]? = some l →
    l.parentState = .addr p ∧ ∃ c, l.nextState = .addr c ∧ p < c ∧ c < mem.length
  link_inj : ∀ (p : Nat) (nd : node S A) (i : Nat) (l : link) (q : Nat) (nd' : node S A)
    (j : Nat) (l' : link), cellAt mem p = some nd → nd.availableLinks[i]? = some l →
    cellAt mem q = some nd' → nd'.availableLinks[j]? = some l' →
    l.nextState = l'.nextState → p = q ∧ i = j
  prev : ∀ (c : Nat) (nd : node S A), cellAt mem c = some nd → c ≠ 0 →
    nd = newNode G ∨
    ∃ (p i : Nat) (par : node S A) (l : link), nd.prevNode = .addr p ∧ nd.prevAction = some i ∧
      cellAt mem p = some par ∧ par.availableLinks[i]? = some l ∧ l.nextState = .addr c
  acts_len : ∀ (a : Nat) (nd : node S A), cellAt mem a = some nd →
    nd.availableLinks.length = nd.availableActions.length

/-- The average reward `totReward / nTotal` of a link, as a rational number
(meaningful when `nTotal` is not zero). -/
def link.average (l : link) : ℚ :=
  l.totReward / (l.nTotal : ℚ)

/-- Every link of every node has `|totReward| <= nTotal`. -/
def Bounded (mem : List (Option (node S A))) : Prop :=
  ∀ (p : Nat) (nd : node S A) (l : link), cellAt mem p = some nd → l ∈ nd.availableLinks →
    |l.totReward| ≤ (l.nTotal : ℚ)

/-- The states of the nodes that were given one: each is a state of the game,
the available actions of the node are the legal actions of its state, the
measure of the state is at most `μ0`, and the state of a child is the state
its parent's action leads to. -/
structure StateInv (G : Game S A) (okS : S → Prop) (μ : S → Nat) (μ0 : Nat)
    (mem : List (Option (node S A))) : Prop where
  state_ok : ∀ (a : Nat) (nd : node S A), cellAt mem a = some nd → nd.prevNode ≠ .wild →
    okS nd.gameState ∧ nd.availableActions = G.getActions nd.gameState ∧ μ nd.gameState ≤ μ0
  child_state : ∀ (p : Nat) (par : node S A) (i : Nat) (l : link) (c : Nat) (cn : node S A) (act : A),
    cellAt mem p = some par → par.availableLinks[i]? = some l → l.nextState = .addr c →
    cellAt mem c = some cn → cn.prevNode ≠ .wild → par.availableActions[i]? = some act →
    G.getNextState par.gameState act = .ok cn.gameState

/-- The statistics of the memory of a session.  Between two games `ex` is
`none`; between `expansion` and `backpropagation` it names the link that was
just expanded, whose counters still are zero. -/
structure Stats (ex : Option (Nat × Nat)) (mem : List (Option (node S A))) : Prop where
  nonneg : ∀ (p : Nat) (nd : node S A) (l : link), cellAt mem p = some nd →
    l ∈ nd.availableLinks → 0 ≤ l.nTotal
  tried_iff : ∀ (p : Nat) (nd : node S A) (i : Nat) (l : link) (c : Nat) (cn : node S A),
    cellAt mem p = some nd → nd.availableLinks[i]? = some l →
    l.nextState = .addr c → cellAt mem c = some cn → some (p, i) ≠ ex →
    (1 ≤ l.nTotal ↔ cn.prevNode ≠ .wild)
  ex_link : ∀ p i, ex = some (p, i) →
    ∃ (nd : node S A) (l : link) (c : Nat) (cn : node S A), cellAt mem p = some nd ∧ nd.availableLinks[i]? = some l ∧ l.nTotal = 0 ∧
      l.nextState = .addr c ∧ cellAt mem c = some cn ∧
      cn.prevNode = .addr p ∧ cn.prevAction = some i
  flag_tried : ∀ (p : Nat) (nd : node S A), cellAt mem p = some nd → nd.allActionsTried = true →
    nd.availableLinks ≠ [] ∧
    ∀ (i : Nat) (l : link), nd.availableLinks[i]? = some l → some (p, i) ≠ ex → 1 ≤ l.nTotal
  flag_untried : ∀ (p : Nat) (nd : node S A), cellAt mem p = some nd → nd.allActionsTried = false →
    nd.availableLinks ≠ [] →
    ∃ (i : Nat) (l : link), nd.availableLinks[i]? = some l ∧ l.nTotal = 0 ∧ some (p, i) ≠ ex
  le_visits : ∀ (p : Nat) (nd : node S A) (l : link), cellAt mem p = some nd → l ∈ nd.availableLinks → l.nTotal ≤ nd.nVisits

/-- The sessions a program can hold after the constructor on `initState`, the
set-up of the root and any number of games of `playNGames` (with any random input and any
bound on the length of a simulation). -/
inductive Reachable (G : Game S A) (initState : S) : currentGame S A → Prop where
  | init {players : Int} {g : currentGame S A} :
      initializeRoot G (currentGame.construct initState players) = .ok g →
      Reachable G initState g
  | game {fuel : Nat} {ρ : Rand} {g g1 : currentGame S A} :
      Reachable G initState g → playOneGame G fuel ρ g = .ok g1 → Reachable G initState g1

/-- What the engine asks of the game (the callback contract), for the states
`okS` the game can be in: a state that is not terminal has a legal action;
every legal action leads to a state of the game; one step of the default
policy leads to a state of the game and lowers the measure `μ`; every reward
vector has an entry for every player and its entries are at most 1 in
absolute value (the header's `|r| <= 1`); and the selection score of a link
that was tried, with rewards so bounded, is above the sentinel of
`selection`. -/
structure Contract (G : Game S A) (okS : S → Prop) (μ : S → Nat) : Prop where
  actions_nonempty : ∀ s, okS s → G.isTerminal s = false → G.getActions s ≠ []
  next_ok : ∀ s a, okS s → a ∈ G.getActions s →
    ∃ s1, G.getNextState s a = .ok s1 ∧ okS s1 ∧ μ s1 ≤ μ s
  policy_ok : ∀ r s, okS s → G.isTerminal s = false →
    ∃ s1, G.defaultPolicy r s (G.getActions s) = .ok s1 ∧ okS s1 ∧ μ s1 < μ s
  rewards_len : ∀ s t, okS s → okS t → G.plyrsGo s < (G.assignRewards t).length
  rewards_le : ∀ t x, okS t → x ∈ G.assignRewards t → |x| ≤ 1
  score_ok : ∀ (r : ℚ) (nj nTot : Int), 1 ≤ nj → 1 ≤ nTot → |r| ≤ nj →
    (G.selectionEvaluation r nj nTot).gt (.fin (-99999999999)) = true

/-- Memory `mem1` is memory `mem` with some cells deleted: the live cells of
`mem1` are cells of `mem` with the same node. -/
def Freed (mem mem1 : List (Option (node S A))) : Prop :=
  mem1.length = mem.length ∧
  ∀ (a : Nat) (nd : node S A), cellAt mem1 a = some nd → cellAt mem a = some nd

/-- No node of memory has `prevNode == NULL`. -/
def NoNull (mem : List (Option (node S A))) : Prop :=
  ∀ (a : Nat) (nd : node S A), cellAt mem a = some nd → nd.prevNode ≠ .null

/-- The nodes below a node: `Desc mem a d` when `d` is `a` or is reached from
`a` along links. -/
inductive Desc (mem : List (Option (node S A))) : Nat → Nat → Prop where
  | refl (a : Nat) : Desc mem a a
  | step {a p c i : Nat} {nd : node S A} {l : link} :
      Desc mem a p → cellAt mem p = some nd → nd.availableLinks[i]? = some l →
      l.nextState = .addr c → Desc mem a c

/-- Memory `mem` is memory `mem0` with exactly the cells in `F` deleted. -/
def DeletedIn (mem0 mem : List (Option (node S A))) (F : Nat → Prop) : Prop :=
  mem.length = mem0.length ∧
  ∀ a, (F a → cellAt mem a = none) ∧ (¬ F a → cellAt mem a = cellAt mem0 a)

/-- The invariants of a session whose game keeps the callback contract. -/
structure Good (G : Game S A) (okS : S → Prop) (μ : S → Nat) (μ0 : Nat)
    (g : currentGame S A) : Prop where
  shape : Shape G g.mem
  stats : Stats none g.mem
  states : StateInv G okS μ μ0 g.mem
  bounded : Bounded g.mem

end Vocabulary

end MCTS

namespace MCTS

namespace TicTacToe

/-- The states of tic-tac-toe: player 0 or player 1 is to go and every cell
holds `0`, `1` or `2`. -/
def validState (s : gameState) : Prop :=
  s.plyrsGo ≤ 1 ∧ ∀ i j, s.board i j = 0 ∨ s.board i j = 1 ∨ s.board i j = 2

/-- The number of free cells of a state. -/
def freeCells (s : gameState) : Nat :=
  (getActions s).length

/-- The exploration terms a selection score may use: for a link that was
tried, at a node that was visited, a finite value that is not negative (as
`sqrt(2 * log(nTot) / nj)` is). -/
def validExplore (explore : Int → Int → Dbl) : Prop :=
  ∀ (nTot nj : Int), 1 ≤ nj → 1 ≤ nTot → ∃ q : ℚ, 0 ≤ q ∧ explore nTot nj = .fin q

end TicTacToe

end MCTS

/-! ## Concrete inputs -/

namespace MCTS

/-- Equality of two results is decidable. -/
instance instDecidableEqExcept {ε α : Type} [DecidableEq ε] [DecidableEq α] :
    DecidableEq (Except ε α)
  | .ok a, .ok b =>
    if h : a = b then isTrue (by rw [h]) else isFalse (fun h1 => h (Except.ok.inj h1))
  | .error a, .error b =>
    if h : a = b then isTrue (by rw [h]) else isFalse (fun h1 => h (Except.error.inj h1))
  | .ok _, .error _ => isFalse (fun h => by cases h)
  | .error _, .ok _ => isFalse (fun h => by cases h)

/-- A random source: game `i` shuffles with the draw `i` and its simulation
draws `i, i+1, ...`. -/
def sampleRand : Nat → Rand :=
  fun i => { shuffle := i, draws := fun k => i + k }

namespace TicTacToe

/-- An exploration term that is constant. -/
def constExplore : Int → Int → Dbl :=
  fun _ _ => .fin 1

/-- Tic-tac-toe with the constant exploration term. -/
def sampleGame : Game gameState gameAction :=
  game constExplore

/-- Player 0 has completed the top row and four cells are free; player 1 is
to go. -/
def wonState : gameState :=
  { plyrsGo := 1, board := boardOf (1, 1, 1) (2, 2, 0) (0, 0, 0) }

/-- A full board without a completed line. -/
def drawnState : gameState :=
  { plyrsGo := 1, board := boardOf (1, 2, 1) (1, 2, 2) (2, 1, 1) }

/-- Four cells are free and player 1 is to go, after three moves of player 0
and two of player 1. -/
def midState : gameState :=
  { plyrsGo := 1, board := boardOf (1, 1, 0) (2, 2, 0) (1, 0, 0) }

/-- Two cells are free and player 1 is to go; the cell `(0, 0)` is taken. -/
def lateState : gameState :=
  { plyrsGo := 1, board := boardOf (1, 2, 1) (1, 2, 2) (0, 0, 1) }

end TicTacToe

end MCTS

/-! ## Concrete sessions -/

namespace MCTS

deriving instance DecidableEq for node
deriving instance DecidableEq for currentGame
deriving instance DecidableEq for TicTacToe.gameState

/-- The value of a result, or `d` when it is an error. -/
def resultOr {α : Type} (r : Except Err α) (d : α) : α :=
  match r with
  | .ok x => x
  | .error _ => d

namespace TicTacToe

/-- Three cells are free and player 0 is to go; no move completes a line. -/
def openState : gameState :=
  { plyrsGo := 0, board := boardOf (1, 2, 1) (1, 2, 0) (2, 0, 0) }

/-- Tic-tac-toe whose rewards are `-50000000000000` for both players,
whatever the final state. -/
def harshGame : Game gameState gameAction :=
  { sampleGame with assignRewards := fun _ => [-50000000000000, -50000000000000] }

/-- The session on `openState` after the set-up of the root. -/
def freshSession : currentGame gameState gameAction :=
  initialGame sampleGame openState 2

/-- The session on `openState` after `playNGames(3)`. -/
def playedSession : currentGame gameState gameAction :=
  resultOr (playNGames sampleGame 10 sampleRand 3 freshSession) freshSession

/-- The session on `openState` after `playNGames(3)` and `cleanUp()`. -/
def reusedSession : currentGame gameState gameAction :=
  resultOr (cleanUp sampleGame playedSession) playedSession

/-- The session of `harshGame` on `lateState` after `playNGames(2)`. -/
def harshSession : currentGame gameState gameAction :=
  resultOr (playNGames harshGame 10 sampleRand 2 (initialGame harshGame lateState 2))
    (initialGame harshGame lateState 2)

/-- The root node of `playedSession`. -/
def playedRoot : node gameState gameAction :=
  resultOr playedSession.rootNode (newNode sampleGame)

/-- The session on `lateState` after `playNGames(2)`. -/
def lateSession : currentGame gameState gameAction :=
  resultOr (playNGames sampleGame 10 sampleRand 2 (initialGame sampleGame lateState 2))
    (initialGame sampleGame lateState 2)

/-- The session `lateSession` after `selection()`. -/
def lateSelected : currentGame gameState gameAction :=
  resultOr (selection sampleGame lateSession) lateSession

/-- The node at which `selection()` ends in `lateSession`. -/
def lateCurrent : node gameState gameAction :=
  resultOr (readNode lateSelected.mem lateSelected.currentNode) (newNode sampleGame)

/-- The root node of the fresh session on `lateState`. -/
def lateFreshRoot : node gameState gameAction :=
  resultOr (initialGame sampleGame lateState 2).rootNode (newNode sampleGame)

end TicTacToe

end MCTS

/-! ## Vocabulary of the later claims -/

namespace MCTS

section LaterVocabulary

variable {S A : Type}

/-- A property of nodes that holds for the node of every live cell. -/
def NodeWise (P : node S A → Prop) (mem : List (Option (node S A))) : Prop :=
  ∀ (a : Nat) (nd : node S A), cellAt mem a = some nd → P nd

/-- The sum of `nTotal` over a list of links. -/
def sumTotals (links : List link) : Int :=
  (links.map (fun l => l.nTotal)).sum

/-- The arguments `(totReward, nTotal, parentState->nVisits)` of the calls of
`selectionEvaluation` that the `for` loop of `selection` makes over a list of
links, in order; the loop stops where reading `parentState` is undefined. -/
def selectionScanCalls (mem : List (Option (node S A))) : List link → List (ℚ × Int × Int)
  | [] => []
  | nextLink :: rest =>
    match readNode mem nextLink.parentState with
    | .error _ => []
    | .ok par => (nextLink.totReward, nextLink.nTotal, par.nVisits) :: selectionScanCalls mem rest

/-- The arguments of all calls of `selectionEvaluation` made by the `while`
loop of `selection` started at `cur`, in order. -/
def selectionLoopCalls (G : Game S A) (mem : List (Option (node S A))) :
    Nat → Ptr → List (ℚ × Int × Int)
  | 0, _ => []
  | fuel + 1, cur =>
    match readNode mem cur with
    | .error _ => []
    | .ok nd =>
      if nd.allActionsTried then
        selectionScanCalls mem nd.availableLinks ++
          (match selectionScan G mem nd.availableLinks (.fin (-99999999999)) none 0 with
           | .ok (some maxInd) =>
             match nd.availableLinks[maxInd]? with
             | none => []
             | some lnk =>
               match readNode mem lnk.nextState with
               | .error _ => []
               | .ok nxt =>
                 if G.isTerminal nxt.gameState then []
                 else selectionLoopCalls G mem fuel lnk.nextState
           | _ => [])
      else []

/-- The arguments of the calls of `selectionEvaluation` made by one call of
`selection()`. -/
def selectionCalls (G : Game S A) (g : currentGame S A) : List (ℚ × Int × Int) :=
  selectionLoopCalls G g.mem (g.mem.length + 1) (.addr 0)

/-- The arguments of the calls of `selectionEvaluation` made during the games
`i, i+1, ..., i+n-1` of the loop of `playNGames`. -/
def playLoopCalls (G : Game S A) (fuel : Nat) (rand : Nat → Rand) :
    Nat → Nat → currentGame S A → List (ℚ × Int × Int)
  | 0, _, _ => []
  | n + 1, i, g =>
    selectionCalls G g ++
      (match playOneGame G fuel (rand i) g with
       | .error _ => []
       | .ok g1 => playLoopCalls G fuel rand n (i + 1) g1)

/-- The arguments of the calls of `selectionEvaluation` made during
`playNGames(N)`. -/
def playNGamesCalls (G : Game S A) (fuel : Nat) (rand : Nat → Rand) (N : Int)
    (g : currentGame S A) : List (ℚ × Int × Int) :=
  playLoopCalls G fuel rand N.toNat 0 g

/-- The states and action lists with which the `while` loop of
`finishSimulation` calls `defaultPolicy`, in order. -/
def simulationCalls (G : Game S A) (draws : Nat → Nat) : Nat → Nat → S → List (S × List A)
  | 0, _, _ => []
  | fuel + 1, k, currState =>
    if G.isTerminal currState then []
    else
      (currState, G.getActions currState) ::
        (match G.defaultPolicy (draws k) currState (G.getActions currState) with
         | .error _ => []
         | .ok s1 => simulationCalls G draws fuel (k + 1) s1)

/-- The sessions a program can hold after the constructor, the set-up of the
root and any sequence of games of `playNGames` and calls of `cleanUp` that
returned. -/
inductive ReachableReuse (G : Game S A) (initState : S) : currentGame S A → Prop where
  | init {players : Int} {g : currentGame S A} :
      initializeRoot G (currentGame.construct initState players) = .ok g →
      ReachableReuse G initState g
  | game {fuel : Nat} {ρ : Rand} {g g1 : currentGame S A} :
      ReachableReuse G initState g → playOneGame G fuel ρ g = .ok g1 →
      ReachableReuse G initState g1
  | clean {g g1 : currentGame S A} :
      ReachableReuse G initState g → cleanUp G g = .ok g1 → ReachableReuse G initState g1

end LaterVocabulary

namespace TicTacToe

/-- The mark `m` fills a row, a column or a diagonal of the board (player `p`
has a completed line when the mark `p + 1` does). -/
def completedLine (s : gameState) (m : Int) : Prop :=
  (∃ i : Fin 3, s.board i 0 = m ∧ s.board i 1 = m ∧ s.board i 2 = m) ∨
  (∃ j : Fin 3, s.board 0 j = m ∧ s.board 1 j = m ∧ s.board 2 j = m) ∨
  (s.board 0 0 = m ∧ s.board 1 1 = m ∧ s.board 2 2 = m) ∨
  (s.board 0 2 = m ∧ s.board 1 1 = m ∧ s.board 2 0 = m)

instance instDecidableCompletedLine (s : gameState) (m : Int) : Decidable (completedLine s m) := by
  unfold completedLine
  infer_instance

/-- One cell is free and player 0 is to go; the last move completes no line. -/
def lastMoveState : gameState :=
  { plyrsGo := 0, board := boardOf (1, 2, 1) (1, 2, 2) (2, 0, 1) }

/-- The session on `lastMoveState` after `playNGames(1)`. -/
def lastMoveSession : currentGame gameState gameAction :=
  resultOr (playNGames sampleGame 10 sampleRand 1 (initialGame sampleGame lastMoveState 2))
    (initialGame sampleGame lastMoveState 2)

/-- The root node of `reusedSession`. -/
def reusedRoot : node gameState gameAction :=
  resultOr reusedSession.rootNode (newNode sampleGame)

end TicTacToe

end MCTS

/-! ## The engine over double arithmetic

`totReward` is a `double`: the statement `totReward += gameRewards[...]` of
`backpropagation` and the quotients `totReward / nTotal` of
`bestInitialAction` and `cleanUp` are double operations, which round.  The
definitions of this part take the double addition `add` and the double
division `div` as parameters; `addDouble` and `divDouble` are the operations
of IEEE 754 binary64 with rounding to nearest, ties to even.  The recursive
call of `deleteNode` (`cNode->availableLinks.nextState`) names no member of a
vector: `deleteNodeWith` takes the pointer that expression denotes as a
parameter `pick`, and `cleanUpWith` the routine that deletes a subtree as a
parameter `del`. -/

namespace MCTS

/-- The power `2 ^ e` for an integer exponent. -/
def pow2 (e : Int) : ℚ :=
  if 0 ≤ e then (2 : ℚ) ^ e.toNat else 1 / (2 : ℚ) ^ (-e).toNat

/-- The number of binary digits of `n` less one (`0` for `n < 2`); the first
argument bounds the recursion. -/
def log2Fuel : Nat → Nat → Nat
  | 0, _ => 0
  | fuel + 1, n => if 2 ≤ n then log2Fuel fuel (n / 2) + 1 else 0

/-- The largest integer `k` with `2 ^ k <= q`, for a rational `q > 0`. -/
def floorLog2 (q : ℚ) : Int :=
  let a := q.num.natAbs
  let b := q.den
  let k : Int := (log2Fuel a a : Int) - (log2Fuel b b : Int)
  if pow2 k ≤ q then k else k - 1

/-- The nearest integer to a rational `t >= 0`, the even one of the two when
`t` lies half way between them. -/
def roundHalfEven (t : ℚ) : Int :=
  let n : Int := t.floor
  let r : ℚ := t - n
  if r < 1 / 2 then n
  else if 1 / 2 < r then n + 1
  else if n % 2 = 0 then n else n + 1

/-- The binary64 value nearest to the rational `q` (ties to even): a multiple
`m * 2 ^ e` with `m < 2 ^ 53` and `e >= -1074`.  Values of `2 ^ 1024` and more,
where a double overflows, are not in the range of the model. -/
def roundDouble (q : ℚ) : ℚ :=
  if q = 0 then 0
  else
    let e : Int := max (floorLog2 |q| - 52) (-1074)
    let v : ℚ := (roundHalfEven (|q| / pow2 e) : ℚ) * pow2 e
    if q < 0 then -v else v

/-- The sum `x + y` of two finite doubles. -/
def addDouble (x y : ℚ) : ℚ :=
  roundDouble (x + y)

/-- The quotient `x / n` of a finite double by an `int` converted to double
(the conversion of an `int` is exact): `0/0` is NaN and a non-zero value over
zero is an infinity. -/
def divDouble (x : ℚ) (n : Int) : Dbl :=
  if n = 0 then
    if x = 0 then .nan else if 0 < x then .pinf else .ninf
  else .fin (roundDouble (x / (n : ℚ)))

section DoubleEngine

variable {S A : Type}

/-- The statements of one pass of `backpropagation` on the parent node `nd`
and its link `i`, with the double addition `add`. -/
def bumpWith (add : ℚ → ℚ → ℚ) (r : ℚ) (i : Nat) (nd : node S A) : node S A :=
  match nd.availableLinks[i]? with
  | some l =>
    { nd with
      nVisits := nd.nVisits + 1,
      availableLinks := nd.availableLinks.set i
        { l with nTotal := l.nTotal + 1, totReward := add l.totReward r } }
  | none => nd

/-- The effect of `backpropagation` along `path`, with the double addition
`add`: a node that is not a parent on the path is unchanged, and a parent on
the path has gone through the statements of one pass of the loop. -/
def BumpedWith (add : ℚ → ℚ → ℚ) (G : Game S A) (rewards : List ℚ) (path : List (Nat × Nat))
    (mem mem1 : List (Option (node S A))) : Prop :=
  mem1.length = mem.length ∧
  ∀ (q : Nat) (nd : node S A), cellAt mem q = some nd →
    ((∀ j, (q, j) ∉ path) → cellAt mem1 q = some nd) ∧
    (∀ j, (q, j) ∈ path →
      ∃ r, rewards[G.plyrsGo nd.gameState]? = some r ∧
        cellAt mem1 q = some (bumpWith add r j nd))

/-- The body of the `while` loop of `backpropagation`, with the double
addition `add` for `totReward += gameRewards[...]`. -/
def backpropStepWith (add : ℚ → ℚ → ℚ) (G : Game S A) (rewards : List ℚ)
    (mem : List (Option (node S A))) (cur : node S A) :
    Except Err (List (Option (node S A)) × Ptr) :=
  match cur.prevAction, cur.prevNode with
  | some pAction, .addr p =>
    match readNode mem (.addr p) with
    | .error e => .error e
    | .ok par =>
      match par.availableLinks[pAction]?, rewards[G.plyrsGo par.gameState]? with
      | some lnk, some r =>
        .ok (writeNode mem p
              { par with
                nVisits := par.nVisits + 1,
                availableLinks := par.availableLinks.set pAction
                  { lnk with nTotal := lnk.nTotal + 1, totReward := add lnk.totReward r } },
             .addr p)
      | _, _ => .error .ub
  | _, _ => .error .ub

/-- The `while` loop of `backpropagation` with the double addition `add`. -/
def backpropLoopWith (add : ℚ → ℚ → ℚ) (G : Game S A) (rewards : List ℚ) :
    Nat → List (Option (node S A)) → Ptr → Except Err (List (Option (node S A)) × Ptr)
  | 0, _, _ => .error .diverge
  | fuel + 1, mem, cur =>
    match readNode mem cur with
    | .error e => .error e
    | .ok nd =>
      match nd.prevNode with
      | .wild => .error .ub
      | .null => .ok (mem, cur)
      | .addr _ =>
        match backpropStepWith add G rewards mem nd with
        | .error e => .error e
        | .ok (mem1, cur1) => backpropLoopWith add G rewards fuel mem1 cur1

/-- The method `backpropagation()` with the double addition `add`. -/
def backpropagationWith (add : ℚ → ℚ → ℚ) (G : Game S A) (g : currentGame S A) :
    Except Err (currentGame S A) :=
  match backpropLoopWith add G g.gameRewards (g.mem.length + 1) g.mem g.currentNode with
  | .error e => .error e
  | .ok (mem1, cur1) => .ok { g with mem := mem1, currentNode := cur1 }

/-- The body of the loop of `playNGames` with the double addition `add`. -/
def playOneGameWith (add : ℚ → ℚ → ℚ) (G : Game S A) (fuel : Nat) (ρ : Rand)
    (g : currentGame S A) : Except Err (currentGame S A) :=
  match playBeforeBackprop G fuel ρ g with
  | .error e => .error e
  | .ok g3 => backpropagationWith add G g3

/-- The loop of `playNGames` with the double addition `add`, for the games
`i, i+1, ..., i+n-1`. -/
def playLoopWith (add : ℚ → ℚ → ℚ) (G : Game S A) (fuel : Nat) (rand : Nat → Rand) :
    Nat → Nat → currentGame S A → Except Err (currentGame S A)
  | 0, _, g => .ok g
  | n + 1, i, g =>
    match playOneGameWith add G fuel (rand i) g with
    | .error e => .error e
    | .ok g1 => playLoopWith add G fuel rand n (i + 1) g1

/-- The method `playNGames(int N)` with the double addition `add`. -/
def playNGamesWith (add : ℚ → ℚ → ℚ) (G : Game S A) (fuel : Nat) (rand : Nat → Rand) (N : Int)
    (g : currentGame S A) : Except Err (currentGame S A) :=
  playLoopWith add G fuel rand N.toNat 0 g

/-- The sessions a program can hold after the constructor on `initState`, the
set-up of the root and any number of games of `playNGames`, with the double
addition `add`. -/
inductive ReachableWith (add : ℚ → ℚ → ℚ) (G : Game S A) (initState : S) :
    currentGame S A → Prop where
  | init {players : Int} {g : currentGame S A} :
      initializeRoot G (currentGame.construct initState players) = .ok g →
      ReachableWith add G initState g
  | game {fuel : Nat} {ρ : Rand} {g g1 : currentGame S A} :
      ReachableWith add G initState g → playOneGameWith add G fuel ρ g = .ok g1 →
      ReachableWith add G initState g1

/-- The loop of `bestInitialAction` over the root links, with the double
division `div`. -/
def bestScanWith (div : ℚ → Int → Dbl) (acts : List A) :
    List link → Nat → Dbl → A → Except Err A
  | [], _, _, maxMove => .ok maxMove
  | l :: rest, i, maxValue, maxMove =>
    let moveValue := div l.totReward l.nTotal
    if moveValue.gt maxValue then
      match acts[i]? with
      | none => .error .ub
      | some a => bestScanWith div acts rest (i + 1) moveValue a
    else bestScanWith div acts rest (i + 1) maxValue maxMove

/-- The method `bestInitialAction()` with the double division `div`. -/
def bestInitialActionWith (div : ℚ → Int → Dbl) (G : Game S A) (g : currentGame S A) :
    Except Err A :=
  match g.rootNode with
  | .error e => .error e
  | .ok root =>
    bestScanWith div root.availableActions root.availableLinks 0 (.fin (-9999999999999))
      G.defaultAction

/-- The first loop of `cleanUp` over the root links, with the double division
`div`. -/
def cleanUpScanWith (div : ℚ → Int → Dbl) : List link → Nat → Dbl → Option Nat → Option Nat
  | [], _, _, maxInd => maxInd
  | l :: rest, i, maxVal, maxInd =>
    let val := div l.totReward l.nTotal
    if val.gt maxVal then cleanUpScanWith div rest (i + 1) val (some i)
    else cleanUpScanWith div rest (i + 1) maxVal maxInd

/-- The second loop of `cleanUp`, from index `i` on, with the routine `del`
for the calls `deleteNode(rootNode.availableLinks[i].nextState)`. -/
def cleanUpDeleteWith
    (del : Ptr → List (Option (node S A)) → Except Err (List (Option (node S A))))
    (maxInd : Nat) :
    List link → Nat → List (Option (node S A)) → Except Err (List (Option (node S A)))
  | [], _, mem => .ok mem
  | l :: rest, i, mem =>
    if i = maxInd then cleanUpDeleteWith del maxInd rest (i + 1) mem
    else
      match del l.nextState mem with
      | .error e => .error e
      | .ok mem1 => cleanUpDeleteWith del maxInd rest (i + 1) mem1

/-- The method `cleanUp()` with the double division `div` and the deleting
routine `del`. -/
def cleanUpWith (div : ℚ → Int → Dbl)
    (del : Ptr → List (Option (node S A)) → Except Err (List (Option (node S A))))
    (g : currentGame S A) : Except Err (currentGame S A) :=
  match g.rootNode with
  | .error e => .error e
  | .ok root =>
    match cleanUpScanWith div root.availableLinks 0 (.fin (-99999999999999)) none with
    | none => .error .ub
    | some maxInd =>
      match cleanUpDeleteWith del maxInd root.availableLinks 0 g.mem with
      | .error e => .error e
      | .ok mem1 =>
        match readNode mem1 (.addr 0) with
        | .error e => .error e
        | .ok root1 =>
          match root1.availableLinks[maxInd]? with
          | none => .error .ub
          | some lnk =>
            match readNode mem1 lnk.nextState with
            | .error e => .error e
            | .ok child => .ok { g with mem := writeNode mem1 0 child }

/-- The `for` loop of `deleteNode` over the `n` indices from `i` on.  The
argument of the recursive call, which the source writes
`cNode->availableLinks.nextState`, is `pick links i`: the pointer that
expression denotes for the vector `links` in pass `i`. -/
def deleteLinksWith
    (f : Ptr → List (Option (node S A)) → Except Err (List (Option (node S A))))
    (pick : List link → Nat → Ptr) (links : List link) :
    Nat → Nat → List (Option (node S A)) → Except Err (List (Option (node S A)))
  | 0, _, mem => .ok mem
  | n + 1, i, mem =>
    match f (pick links i) mem with
    | .error e => .error e
    | .ok mem1 => deleteLinksWith f pick links n (i + 1) mem1

/-- The method `deleteNode(cNode)` with the argument of its recursive call
left open as `pick`.  The first argument bounds the depth of the recursion. -/
def deleteNodeFuel (pick : List link → Nat → Ptr) (G : Game S A) :
    Nat → Ptr → List (Option (node S A)) → Except Err (List (Option (node S A)))
  | 0, _, _ => .error .diverge
  | fuel + 1, cNode, mem =>
    match cNode with
    | .addr c =>
      match readNode mem cNode with
      | .error e => .error e
      | .ok nd =>
        match (if !G.isTerminal nd.gameState then
                 deleteLinksWith (deleteNodeFuel pick G fuel) pick nd.availableLinks
                   nd.availableLinks.length 0 mem
               else .ok mem) with
        | .error e => .error e
        | .ok mem1 =>
          match readNode mem1 cNode with
          | .error e => .error e
          | .ok _ => .ok (mem1.set c none)
    | _ => .error .ub

/-- The method `deleteNode(cNode)` as `cleanUp` calls it, with the argument of
its recursive call left open as `pick`. -/
def deleteNodeWith (pick : List link → Nat → Ptr) (G : Game S A) (cNode : Ptr)
    (mem : List (Option (node S A))) : Except Err (List (Option (node S A))) :=
  deleteNodeFuel pick G (mem.length + 1) cNode mem

/-- The reading `cNode->availableLinks[i].nextState`. -/
def linkAt (links : List link) (i : Nat) : Ptr :=
  match links[i]? with
  | some l => l.nextState
  | none => .wild

end DoubleEngine

/-! ## Sessions over IEEE 754 arithmetic -/

namespace TicTacToe

/-- The double nearest to one third. -/
def third : ℚ := roundDouble (1 / 3)

/-- The double after `third`. -/
def thirdUp : ℚ := third + pow2 (-54)

/-- Tic-tac-toe whose player 1 is rewarded `thirdUp` when the cell `(2, 0)` is
free at the end and `third` otherwise, with the average reward in double
arithmetic as the score of `selection`. -/
def thirdsGame : Game gameState gameAction :=
  { sampleGame with
    assignRewards := fun s => if s.board 2 0 = 0 then [0, thirdUp] else [0, third]
    selectionEvaluation := fun tot nj _ => divDouble tot nj }

/-- The session of `thirdsGame` on `lateState` after the set-up of the root. -/
def thirdsFresh : currentGame gameState gameAction :=
  initialGame thirdsGame lateState 2

/-- The session of `thirdsGame` on `lateState` after `playNGames(3)`, in
double arithmetic. -/
def thirdsPlayed : currentGame gameState gameAction :=
  resultOr (playNGamesWith addDouble thirdsGame 10 sampleRand 3 thirdsFresh) thirdsFresh

/-- The session `thirdsPlayed` between `simulation` and `backpropagation` of
the next game. -/
def thirdsBefore : currentGame gameState gameAction :=
  resultOr (playBeforeBackprop thirdsGame 10 (sampleRand 3) thirdsPlayed) thirdsPlayed

/-- The session `thirdsPlayed` after one more game. -/
def thirdsFinal : currentGame gameState gameAction :=
  resultOr (playOneGameWith addDouble thirdsGame 10 (sampleRand 3) thirdsPlayed) thirdsPlayed

/-- The root node of `thirdsFinal`. -/
def thirdsRoot : node gameState gameAction :=
  resultOr thirdsFinal.rootNode (newNode thirdsGame)

end TicTacToe

end MCTS

/-! ## Memory lemmas -/

namespace MCTS

section MemoryLemmas

variable {S A : Type}

theorem readNode_eq_ok {mem : List (Option (node S A))} {p : Ptr} {nd : node S A} :
    readNode mem p = .ok nd ↔ ∃ a, p = .addr a ∧ cellAt mem a = some nd := by
  cases p with
  | addr a =>
    unfold readNode
    cases h : cellAt mem a <;> simp [h]
  | null => simp [readNode]
  | wild => simp [readNode]

theorem readNode_of_cellAt {mem : List (Option (node S A))} {a : Nat} {nd : node S A}
    (h : cellAt mem a = some nd) : readNode mem (.addr a) = .ok nd := by
  simp [readNode, h]

theorem cellAt_lt {mem : List (Option (node S A))} {a : Nat} {nd : node S A}
    (h : cellAt mem a = some nd) : a < mem.length := by
  unfold cellAt at h
  by_contra hc
  rw [List.getElem?_eq_none (by omega)] at h
  simp at h

theorem cellAt_write (mem : List (Option (node S A))) (a b : Nat) (nd : node S A) :
    cellAt (writeNode mem a nd) b =
      if a = b ∧ a < mem.length then some nd else cellAt mem b := by
  unfold cellAt writeNode
  by_cases hab : a = b
  · subst hab
    by_cases hlt : a < mem.length
    · simp [hlt, List.getElem?_set_self]
    · rw [List.set_eq_of_length_le (by omega)]
      simp [hlt]
  · simp [hab, List.getElem?_set_ne]

theorem length_writeNode (mem : List (Option (node S A))) (a : Nat) (nd : node S A) :
    (writeNode mem a nd).length = mem.length := by
  simp [writeNode]

theorem cellAt_append (mem ext : List (Option (node S A))) (a : Nat) :
    cellAt (mem ++ ext) a = if a < mem.length then cellAt mem a else cellAt ext (a - mem.length) := by
  unfold cellAt
  by_cases h : a < mem.length
  · simp [h, List.getElem?_append_left]
  · simp [h, List.getElem?_append_right (Nat.le_of_not_lt h)]

theorem freshLinks_succ (p n k : Nat) :
    freshLinks p n (k + 1) = { parentState := .addr p, nextState := .addr n } :: freshLinks p (n + 1) k := by
  simp [freshLinks, List.range_succ_eq_map, List.map_map, Function.comp_def]
  intro a _
  omega

theorem pushLinks_eq (G : Game S A) (p : Nat) :
    ∀ (k : Nat) (mem : List (Option (node S A))) (nd : node S A), cellAt mem p = some nd →
      pushLinks G p k mem =
        .ok (writeNode mem p { nd with availableLinks := nd.availableLinks ++ freshLinks p mem.length k }
              ++ List.replicate k (some (newNode G))) := by
  intro k
  induction k with
  | zero =>
    intro mem nd h
    have hlt := cellAt_lt h
    have : writeNode mem p nd = mem := by
      unfold writeNode
      unfold cellAt at h
      apply List.ext_getElem? 
      intro i
      by_cases hi : p = i
      · subst hi
        rw [List.getElem?_set_self hlt]
        rcases h2 : mem[p]? with _ | (_ | x) <;> simp [h2] at h
        simp [h]
      · simp [List.getElem?_set_ne hi]
    simp [pushLinks, freshLinks, this]
  | succ k ih =>
    intro mem nd h
    have hlt := cellAt_lt h
    simp only [pushLinks, pushLink, readNode, h]
    rw [ih _ { nd with availableLinks := nd.availableLinks ++ [{ parentState := .addr p, nextState := .addr mem.length }] }]
    · simp only [freshLinks_succ, List.length_append, length_writeNode, List.length_singleton,
        List.append_assoc, List.singleton_append]
      congr 1
      unfold writeNode
      rw [List.set_append_left _ _ (by simpa using hlt), List.set_set]
      simp [List.replicate_succ]
    · rw [cellAt_append, length_writeNode, if_pos hlt, cellAt_write]
      simp [hlt]

end MemoryLemmas

end MCTS

/-! ## The scans of `bestInitialAction` and `cleanUp` -/

namespace MCTS

section ScanLemmas

variable {S A : Type}

theorem divInt_of_pos (x : ℚ) (n : Int) (h : 1 ≤ n) : Dbl.divInt x n = .fin (x / (n : ℚ)) := by
  unfold Dbl.divInt
  rw [if_neg (by omega)]

theorem gt_fin_fin (x y : ℚ) : (Dbl.fin x).gt (.fin y) = decide (y < x) := rfl

/-- Once the running maximum is at least every remaining average, the scan of
`bestInitialAction` keeps its move. -/
theorem bestScan_done (acts : List A) :
    ∀ (links : List link) (k : Nat) (m : ℚ) (mv : A),
      (∀ l ∈ links, 1 ≤ l.nTotal) → (∀ l ∈ links, l.average ≤ m) →
      bestScan acts links k (.fin m) mv = .ok mv := by
  intro links
  induction links with
  | nil => intro k m mv _ _; rfl
  | cons h t ih =>
    intro k m mv ht hm
    have h1 : 1 ≤ h.nTotal := ht h (List.mem_cons_self _ _)
    have h2 : h.average ≤ m := hm h (List.mem_cons_self _ _)
    unfold link.average at h2
    simp only [bestScan, divInt_of_pos _ _ h1, gt_fin_fin]
    rw [if_neg (by simpa using h2)]
    exact ih _ _ _ (fun l hl => ht l (List.mem_cons_of_mem _ hl))
      (fun l hl => hm l (List.mem_cons_of_mem _ hl))

/-- The scan of `bestInitialAction` returns the action at the first index
whose average is the largest, when that average exceeds the running
maximum it starts from. -/
theorem bestScan_first_max (acts : List A) :
    ∀ (links : List link) (i k : Nat) (m : ℚ) (mv : A) (l : link),
      (∀ l' ∈ links, 1 ≤ l'.nTotal) → k + links.length ≤ acts.length →
      links[i]? = some l → (∀ l' ∈ links, l'.average ≤ l.average) →
      (∀ (j : Nat) (l' : link), j < i → links[j]? = some l' → l'.average < l.average) →
      m < l.average →
      ∃ a, acts[k + i]? = some a ∧ bestScan acts links k (.fin m) mv = .ok a := by
  intro links
  induction links with
  | nil => intro i k m mv l _ _ hi; simp at hi
  | cons h t ih =>
    intro i k m mv l ht hlen hi hmax hfirst hm
    have h1 : 1 ≤ h.nTotal := ht h (List.mem_cons_self _ _)
    have ht' : ∀ l' ∈ t, 1 ≤ l'.nTotal := fun l hl => ht l (List.mem_cons_of_mem _ hl)
    have hmax' : ∀ l' ∈ t, l'.average ≤ l.average := fun l hl => hmax l (List.mem_cons_of_mem _ hl)
    have hk : k < acts.length := by simp at hlen; omega
    simp only [bestScan, divInt_of_pos _ _ h1, gt_fin_fin]
    cases i with
    | zero =>
      simp at hi
      subst hi
      have : m < h.totReward / (h.nTotal : ℚ) := hm
      rw [if_pos (by simpa using this)]
      simp only [List.getElem?_eq_getElem hk, Nat.add_zero]
      exact ⟨_, rfl, bestScan_done acts t _ _ _ ht' hmax'⟩
    | succ i =>
      simp at hi
      have hlt : h.average < l.average := hfirst 0 h (by omega) (by simp)
      have hfirst' : ∀ (j : Nat) (l' : link), j < i → t[j]? = some l' → l'.average < l.average :=
        fun j l' hj hl' => hfirst (j + 1) l' (by omega) (by simpa using hl')
      have hlen' : k + 1 + t.length ≤ acts.length := by simp at hlen; omega
      have hidx : k + (i + 1) = k + 1 + i := by omega
      rw [hidx]
      by_cases hc : m < h.totReward / (h.nTotal : ℚ)
      · rw [if_pos (by simpa using hc)]
        simp only [List.getElem?_eq_getElem hk]
        exact ih i (k + 1) _ _ l ht' hlen' hi hmax' hfirst' hlt
      · rw [if_neg (by simpa using hc)]
        exact ih i (k + 1) _ _ l ht' hlen' hi hmax' hfirst' hm

/-- Once the running maximum is at least every remaining average, the first
scan of `cleanUp` keeps its index. -/
theorem cleanUpScan_done :
    ∀ (links : List link) (k : Nat) (m : ℚ) (mi : Option Nat),
      (∀ l ∈ links, 1 ≤ l.nTotal) → (∀ l ∈ links, l.average ≤ m) →
      cleanUpScan links k (.fin m) mi = mi := by
  intro links
  induction links with
  | nil => intro k m mi _ _; rfl
  | cons h t ih =>
    intro k m mi ht hm
    have h1 : 1 ≤ h.nTotal := ht h (List.mem_cons_self _ _)
    have h2 : h.average ≤ m := hm h (List.mem_cons_self _ _)
    unfold link.average at h2
    simp only [cleanUpScan, divInt_of_pos _ _ h1, gt_fin_fin]
    rw [if_neg (by simpa using h2)]
    exact ih _ _ _ (fun l hl => ht l (List.mem_cons_of_mem _ hl))
      (fun l hl => hm l (List.mem_cons_of_mem _ hl))

/-- The first scan of `cleanUp` returns the first index whose average is the
largest, when that average exceeds the running maximum it starts from. -/
theorem cleanUpScan_first_max :
    ∀ (links : List link) (i k : Nat) (m : ℚ) (mi : Option Nat) (l : link),
      (∀ l' ∈ links, 1 ≤ l'.nTotal) →
      links[i]? = some l → (∀ l' ∈ links, l'.average ≤ l.average) →
      (∀ (j : Nat) (l' : link), j < i → links[j]? = some l' → l'.average < l.average) →
      m < l.average →
      cleanUpScan links k (.fin m) mi = some (k + i) := by
  intro links
  induction links with
  | nil => intro i k m mi l _ hi; simp at hi
  | cons h t ih =>
    intro i k m mi l ht hi hmax hfirst hm
    have h1 : 1 ≤ h.nTotal := ht h (List.mem_cons_self _ _)
    have ht' : ∀ l' ∈ t, 1 ≤ l'.nTotal := fun l hl => ht l (List.mem_cons_of_mem _ hl)
    have hmax' : ∀ l' ∈ t, l'.average ≤ l.average := fun l hl => hmax l (List.mem_cons_of_mem _ hl)
    simp only [cleanUpScan, divInt_of_pos _ _ h1, gt_fin_fin]
    cases i with
    | zero =>
      simp at hi
      subst hi
      have : m < h.totReward / (h.nTotal : ℚ) := hm
      rw [if_pos (by simpa using this)]
      exact cleanUpScan_done t _ _ _ ht' hmax'
    | succ i =>
      simp at hi
      have hlt : h.average < l.average := hfirst 0 h (by omega) (by simp)
      have hfirst' : ∀ (j : Nat) (l' : link), j < i → t[j]? = some l' → l'.average < l.average :=
        fun j l' hj hl' => hfirst (j + 1) l' (by omega) (by simpa using hl')
      have hidx : k + (i + 1) = k + 1 + i := by omega
      rw [hidx]
      by_cases hc : m < h.totReward / (h.nTotal : ℚ)
      · rw [if_pos (by simpa using hc)]
        exact ih i (k + 1) _ _ l ht' hi hmax' hfirst' hlt
      · rw [if_neg (by simpa using hc)]
        exact ih i (k + 1) _ _ l ht' hi hmax' hfirst' hm

/-- A non-empty list of links has a first index of largest average. -/
theorem exists_first_max :
    ∀ (links : List link), links ≠ [] →
      ∃ (i : Nat) (l : link), links[i]? = some l ∧ (∀ l' ∈ links, l'.average ≤ l.average) ∧
        ∀ (j : Nat) (l' : link), j < i → links[j]? = some l' → l'.average < l.average := by
  intro links
  induction links with
  | nil => intro h; exact absurd rfl h
  | cons h t ih =>
    intro _
    by_cases ht : t = []
    · subst ht
      refine ⟨0, h, by simp, by simp, ?_⟩
      intro j l' hj; omega
    · obtain ⟨i, l, hi, hmax, hfirst⟩ := ih ht
      by_cases hc : h.average < l.average
      · refine ⟨i + 1, l, by simpa using hi, ?_, ?_⟩
        · intro l' hl'
          rcases List.mem_cons.1 hl' with rfl | hl'
          · exact le_of_lt hc
          · exact hmax l' hl'
        · intro j l' hj hl'
          cases j with
          | zero => simp at hl'; subst hl'; exact hc
          | succ j => exact hfirst j l' (by omega) (by simpa using hl')
      · refine ⟨0, h, by simp, ?_, ?_⟩
        · intro l' hl'
          rcases List.mem_cons.1 hl' with rfl | hl'
          · exact le_refl _
          · exact le_trans (hmax l' hl') (not_lt.1 hc)
        · intro j l' hj; omega

end ScanLemmas

end MCTS

/-! ## Memories of the same shape -/

namespace MCTS

section ShapeLemmas

variable {S A : Type}

theorem node.sameShape_refl (x : node S A) : x.sameShape x :=
  ⟨rfl, rfl, rfl, rfl, rfl, fun _ => rfl⟩

theorem node.sameShape_trans {x y z : node S A} (h1 : x.sameShape y) (h2 : y.sameShape z) :
    x.sameShape z := by
  obtain ⟨a1, a2, a3, a4, a5, a6⟩ := h1
  obtain ⟨b1, b2, b3, b4, b5, b6⟩ := h2
  refine ⟨a1.trans b1, a2.trans b2, a3.trans b3, a4.trans b4, a5.trans b5, ?_⟩
  intro hw
  have := a6 hw
  subst this
  exact b6 hw

theorem SameShape.refl_shape (mem : List (Option (node S A))) : SameShape mem mem :=
  ⟨rfl, fun _ x h => ⟨x, h, node.sameShape_refl x⟩⟩

theorem SameShape.trans_shape {m1 m2 m3 : List (Option (node S A))} (h1 : SameShape m1 m2)
    (h2 : SameShape m2 m3) : SameShape m1 m3 := by
  refine ⟨h1.1.trans h2.1, ?_⟩
  intro a x hx
  obtain ⟨y, hy, hxy⟩ := h1.2 a x hx
  obtain ⟨z, hz, hyz⟩ := h2.2 a y hy
  exact ⟨z, hz, node.sameShape_trans hxy hyz⟩

/-- Links at the same index of two nodes of the same shape join the same
nodes. -/
theorem node.sameShape_link {x y : node S A} (h : x.sameShape y) {i : Nat} {l : link}
    (hl : x.availableLinks[i]? = some l) :
    ∃ l1, y.availableLinks[i]? = some l1 ∧ l1.parentState = l.parentState ∧
      l1.nextState = l.nextState := by
  have hmap := h.2.2.2.2.1
  have h1 : (x.availableLinks.map (fun l => (l.parentState, l.nextState)))[i]? =
      some (l.parentState, l.nextState) := by simp [hl]
  rw [hmap] at h1
  simp only [List.getElem?_map, Option.map_eq_some'] at h1
  obtain ⟨l1, hl1, heq⟩ := h1
  simp only [Prod.mk.injEq] at heq
  exact ⟨l1, hl1, heq.1, heq.2⟩

theorem node.sameShape_symm_link {x y : node S A} (h : x.sameShape y) {i : Nat} {l1 : link}
    (hl : y.availableLinks[i]? = some l1) :
    ∃ l, x.availableLinks[i]? = some l ∧ l1.parentState = l.parentState ∧
      l1.nextState = l.nextState := by
  have hmap := h.2.2.2.2.1
  have h1 : (y.availableLinks.map (fun l => (l.parentState, l.nextState)))[i]? =
      some (l1.parentState, l1.nextState) := by simp [hl]
  rw [← hmap] at h1
  simp only [List.getElem?_map, Option.map_eq_some'] at h1
  obtain ⟨l, hl2, heq⟩ := h1
  simp only [Prod.mk.injEq] at heq
  exact ⟨l, hl2, heq.1.symm, heq.2.symm⟩

theorem node.sameShape_length {x y : node S A} (h : x.sameShape y) :
    x.availableLinks.length = y.availableLinks.length := by
  have := congrArg List.length h.2.2.2.2.1
  simpa using this

/-- A cell of the second of two memories of the same shape comes from a cell
of the first, when every cell of the first is live. -/
theorem SameShape.back {mem mem1 : List (Option (node S A))} (h : SameShape mem mem1)
    (hlive : ∀ a, a < mem.length → ∃ nd, cellAt mem a = some nd) {a : Nat} {y : node S A}
    (hy : cellAt mem1 a = some y) : ∃ x, cellAt mem a = some x ∧ x.sameShape y := by
  have hlt : a < mem.length := by rw [h.1]; exact cellAt_lt hy
  obtain ⟨x, hx⟩ := hlive a hlt
  obtain ⟨y1, hy1, hxy⟩ := h.2 a x hx
  rw [hy] at hy1
  cases hy1
  exact ⟨x, hx, hxy⟩

theorem newNode_links (G : Game S A) : (newNode G).availableLinks = [] := rfl

theorem newNode_prevNode (G : Game S A) : (newNode G).prevNode = .wild := rfl

/-- The shape invariant only depends on the shape. -/
theorem Shape.congr_shape {G : Game S A} {mem mem1 : List (Option (node S A))} (hs : Shape G mem)
    (h : SameShape mem mem1) : Shape G mem1 := by
  have hback := fun {a : Nat} {y : node S A} (hy : cellAt mem1 a = some y) => h.back hs.live hy
  constructor
  · intro a ha
    obtain ⟨x, hx⟩ := hs.live a (by rw [h.1]; exact ha)
    obtain ⟨y, hy, _⟩ := h.2 a x hx
    exact ⟨y, hy⟩
  · obtain ⟨x, hx, hnull⟩ := hs.root
    obtain ⟨y, hy, hxy⟩ := h.2 0 x hx
    exact ⟨y, hy, by rw [← hxy.2.1]; exact hnull⟩
  · intro p y i l1 hy hl1
    obtain ⟨x, hx, hxy⟩ := hback hy
    obtain ⟨l, hl, hp, hn⟩ := node.sameShape_symm_link hxy hl1
    obtain ⟨hpar, c, hc, hpc, hclt⟩ := hs.link_up p x i l hx hl
    exact ⟨by rw [hp]; exact hpar, c, by rw [hn]; exact hc, hpc, by rw [← h.1]; exact hclt⟩
  · intro p y i l1 q y' j l1' hy hl1 hy' hl1' heq
    obtain ⟨x, hx, hxy⟩ := hback hy
    obtain ⟨x', hx', hxy'⟩ := hback hy'
    obtain ⟨l, hl, _, hn⟩ := node.sameShape_symm_link hxy hl1
    obtain ⟨l', hl', _, hn'⟩ := node.sameShape_symm_link hxy' hl1'
    exact hs.link_inj p x i l q x' j l' hx hl hx' hl' (by rw [← hn, ← hn']; exact heq)
  · intro c y hy hc
    obtain ⟨x, hx, hxy⟩ := hback hy
    rcases hs.prev c x hx hc with hnew | ⟨p, i, par, l, h1, h2, h3, h4, h5⟩
    · left
      have : x = y := hxy.2.2.2.2.2 (by rw [hnew]; rfl)
      rw [← this]; exact hnew
    · right
      obtain ⟨par1, hpar1, hpp⟩ := h.2 p par h3
      obtain ⟨l1, hl1, _, hn⟩ := node.sameShape_link hpp h4
      exact ⟨p, i, par1, l1, by rw [← hxy.2.1]; exact h1, by rw [← hxy.2.2.1]; exact h2,
        hpar1, hl1, by rw [hn]; exact h5⟩
  · intro a y hy
    obtain ⟨x, hx, hxy⟩ := hback hy
    rw [← node.sameShape_length hxy, ← hxy.2.2.2.1]
    exact hs.acts_len a x hx

/-- The path from a node up to the root only depends on the shape. -/
theorem PathUp.congr_path {mem mem1 : List (Option (node S A))} (h : SameShape mem mem1)
    {a : Nat} {path : List (Nat × Nat)} (hp : PathUp mem a path) : PathUp mem1 a path := by
  induction hp with
  | stop hx hnull =>
    obtain ⟨y, hy, hxy⟩ := h.2 _ _ hx
    exact PathUp.stop hy (by rw [← hxy.2.1]; exact hnull)
  | step hx hprev hact hpar hl hnext hlt _ ih =>
    obtain ⟨y, hy, hxy⟩ := h.2 _ _ hx
    obtain ⟨par1, hpar1, hpp⟩ := h.2 _ _ hpar
    obtain ⟨l1, hl1, _, hn⟩ := node.sameShape_link hpp hl
    exact PathUp.step hy (by rw [← hxy.2.1]; exact hprev) (by rw [← hxy.2.2.1]; exact hact)
      hpar1 hl1 (by rw [hn]; exact hnext) hlt ih

/-- The invariant on game states only depends on the shape. -/
theorem StateInv.congr_states {G : Game S A} {okS : S → Prop} {μ : S → Nat} {μ0 : Nat}
    {mem mem1 : List (Option (node S A))} (hs : StateInv G okS μ μ0 mem)
    (hlive : ∀ a, a < mem.length → ∃ nd, cellAt mem a = some nd)
    (h : SameShape mem mem1) : StateInv G okS μ μ0 mem1 := by
  have hback := fun {a : Nat} {y : node S A} (hy : cellAt mem1 a = some y) => h.back hlive hy
  constructor
  · intro a y hy hw
    obtain ⟨x, hx, hxy⟩ := hback hy
    have := hs.state_ok a x hx (by rw [hxy.2.1]; exact hw)
    rw [← hxy.1, ← hxy.2.2.2.1]
    exact this
  · intro p par1 i l1 c cn1 act hpar1 hl1 hn hcn1 hw hact
    obtain ⟨par, hpar, hpp⟩ := hback hpar1
    obtain ⟨cn, hcn, hcc⟩ := hback hcn1
    obtain ⟨l, hl, _, hnn⟩ := node.sameShape_symm_link hpp hl1
    have := hs.child_state p par i l c cn act hpar hl (by rw [← hnn]; exact hn) hcn
      (by rw [hcc.2.1]; exact hw) (by rw [hpp.2.2.2.1]; exact hact)
    rw [← hpp.1, ← hcc.1]
    exact this

end ShapeLemmas

end MCTS

/-! ## Backpropagation -/

namespace MCTS

section BackpropLemmas

variable {S A : Type}

theorem bump_sameShape (r : ℚ) (i : Nat) (nd : node S A) (hw : nd.prevNode ≠ .wild) :
    nd.sameShape (bump r i nd) := by
  unfold bump
  cases hl : nd.availableLinks[i]? with
  | none => exact node.sameShape_refl nd
  | some l =>
    refine ⟨rfl, rfl, rfl, rfl, ?_, fun h => absurd h hw⟩
    simp only
    apply List.ext_getElem?
    intro k
    simp only [List.getElem?_map, List.getElem?_set]
    by_cases hk : i = k
    · subst hk
      simp only [if_true, hl, Option.map_some']
      have hlt : i < nd.availableLinks.length := by
        by_contra hc
        rw [List.getElem?_eq_none (by omega)] at hl
        cases hl
      simp [hlt]
    · simp [hk]

theorem SameShape.write {mem : List (Option (node S A))} {p : Nat} {x y : node S A}
    (hx : cellAt mem p = some x) (hxy : x.sameShape y) : SameShape mem (writeNode mem p y) := by
  refine ⟨(length_writeNode _ _ _).symm, ?_⟩
  intro a z hz
  rw [cellAt_write]
  by_cases h : p = a
  · subst h
    rw [hx] at hz
    cases hz
    exact ⟨y, by simp [cellAt_lt hx], hxy⟩
  · exact ⟨z, by simp [h, hz], node.sameShape_refl z⟩

theorem backpropStep_eq (G : Game S A) (rewards : List ℚ) (mem : List (Option (node S A)))
    {nd par : node S A} {p i : Nat} {l : link} {r : ℚ}
    (hprev : nd.prevNode = .addr p) (hact : nd.prevAction = some i)
    (hpar : cellAt mem p = some par) (hl : par.availableLinks[i]? = some l)
    (hr : rewards[G.plyrsGo par.gameState]? = some r) :
    backpropStep G rewards mem nd = .ok (writeNode mem p (bump r i par), .addr p) := by
  simp only [backpropStep, hprev, hact, readNode, hpar, hl, hr, bump]

theorem PathUp.parent_lt {mem : List (Option (node S A))} {a : Nat} {path : List (Nat × Nat)}
    (hp : PathUp mem a path) : ∀ q j, (q, j) ∈ path → q < a := by
  induction hp with
  | stop _ _ => intro q j h; cases h
  | step _ _ _ _ _ _ hlt _ ih =>
    intro q j h
    rcases List.mem_cons.1 h with h | h
    · cases h; exact hlt
    · exact Nat.lt_trans (ih q j h) hlt

/-- The node a path starts from was given a `prevNode`. -/
theorem PathUp.start_set {mem : List (Option (node S A))} {a : Nat} {path : List (Nat × Nat)}
    (hp : PathUp mem a path) : ∃ nd, cellAt mem a = some nd ∧ nd.prevNode ≠ .wild := by
  cases hp with
  | stop hx hnull => exact ⟨_, hx, by rw [hnull]; simp⟩
  | step hx hprev _ _ _ _ _ _ => exact ⟨_, hx, by rw [hprev]; simp⟩

/-- Every pair on a path is a link of a parent to a node that points back to
it. -/
theorem PathUp.mem_info {mem : List (Option (node S A))} {a : Nat} {path : List (Nat × Nat)}
    (hp : PathUp mem a path) : ∀ q j, (q, j) ∈ path →
      ∃ (c : Nat) (cn par : node S A) (l : link), cellAt mem c = some cn ∧
        cn.prevNode = .addr q ∧ cn.prevAction = some j ∧ cellAt mem q = some par ∧
        par.prevNode ≠ .wild ∧ par.availableLinks[j]? = some l ∧ l.nextState = .addr c := by
  induction hp with
  | stop _ _ => intro q j h; cases h
  | step hx hprev hact hpar hl hnext _ hrest ih =>
    intro q j h
    rcases List.mem_cons.1 h with h | h
    · cases h
      obtain ⟨par1, hpar1, hw⟩ := hrest.start_set
      rw [hpar] at hpar1
      cases hpar1
      exact ⟨_, _, _, _, hx, hprev, hact, hpar, hw, hl, hnext⟩
    · exact ih q j h

theorem PathUp.index_unique {mem : List (Option (node S A))} {a : Nat} {path : List (Nat × Nat)}
    (hp : PathUp mem a path) : ∀ q i j, (q, i) ∈ path → (q, j) ∈ path → i = j := by
  induction hp with
  | stop _ _ => intro q i j h; cases h
  | step _ _ _ _ _ _ _ hrest ih =>
    intro q i j hi hj
    rcases List.mem_cons.1 hi with hi | hi <;> rcases List.mem_cons.1 hj with hj | hj
    · cases hi; cases hj; rfl
    · cases hi
      exact absurd (hrest.parent_lt _ _ hj) (Nat.lt_irrefl _)
    · cases hj
      exact absurd (hrest.parent_lt _ _ hi) (Nat.lt_irrefl _)
    · exact ih q i j hi hj

theorem PathUp.length_le {mem : List (Option (node S A))} {a : Nat} {path : List (Nat × Nat)}
    (hp : PathUp mem a path) : path.length ≤ a := by
  induction hp with
  | stop _ _ => simp
  | step _ _ _ _ _ _ hlt _ ih => simp only [List.length_cons]; omega

/-- The loop of `backpropagation`, started at a node with a path up to a node
without `prevNode`, ends at that node and has bumped the parents on the
path. -/
theorem backpropLoop_spec (G : Game S A) (rewards : List ℚ) :
    ∀ (path : List (Nat × Nat)) (mem : List (Option (node S A))) (a : Nat),
      PathUp mem a path →
      (∀ q j nd, (q, j) ∈ path → cellAt mem q = some nd →
        G.plyrsGo nd.gameState < rewards.length) →
      ∀ fuel, path.length < fuel →
        ∃ mem1 e, backpropLoop G rewards fuel mem (.addr a) = .ok (mem1, .addr e) ∧
          Bumped G rewards path mem mem1 ∧
          (∃ nd, cellAt mem e = some nd ∧ nd.prevNode = .null) ∧
          (path = [] → e = a) ∧ (path ≠ [] → e < a) := by
  intro path
  induction path with
  | nil =>
    intro mem a hp _ fuel hfuel
    cases hp with
    | stop hx hnull =>
      obtain ⟨f, rfl⟩ : ∃ f, fuel = f + 1 := ⟨fuel - 1, by simp at hfuel; omega⟩
      refine ⟨mem, a, ?_, ⟨rfl, fun q nd hq => ⟨fun _ => hq, fun j hj => by cases hj⟩⟩,
        ⟨_, hx, hnull⟩, fun _ => rfl, fun h => absurd rfl h⟩
      simp only [backpropLoop, readNode, hx, hnull]
  | cons hd rest ih =>
    intro mem a hp hrew fuel hfuel
    cases hp with
    | step hx hprev hact hpar hl hnext hlt hrest =>
      rename_i p i nd par l
      obtain ⟨f, rfl⟩ : ∃ f, fuel = f + 1 := ⟨fuel - 1, by simp at hfuel; omega⟩
      have hrlt := hrew p i par (List.mem_cons_self _ _) hpar
      obtain ⟨r, hr⟩ : ∃ r, rewards[G.plyrsGo par.gameState]? = some r :=
        ⟨_, List.getElem?_eq_getElem hrlt⟩
      obtain ⟨par1, hpar1, hw⟩ := hrest.start_set
      rw [hpar] at hpar1
      cases hpar1
      have hsame : SameShape mem (writeNode mem p (bump r i par)) :=
        SameShape.write hpar (bump_sameShape r i par hw)
      have hrest1 := hrest.congr_path hsame
      have hnot : ∀ j, (p, j) ∉ rest := fun j hj =>
        absurd (hrest.parent_lt _ _ hj) (Nat.lt_irrefl _)
      have hrew1 : ∀ q j nd1, (q, j) ∈ rest →
          cellAt (writeNode mem p (bump r i par)) q = some nd1 →
          G.plyrsGo nd1.gameState < rewards.length := by
        intro q j nd1 hq hnd1
        have hne : p ≠ q := fun h => hnot j (h ▸ hq)
        rw [cellAt_write] at hnd1
        simp only [hne, false_and, if_false] at hnd1
        exact hrew q j nd1 (List.mem_cons_of_mem _ hq) hnd1
      obtain ⟨mem1, e, hloop, hb, ⟨en, hen, henull⟩, he1, he2⟩ :=
        ih _ p hrest1 hrew1 f (by simp at hfuel; omega)
      have hple : e ≤ p := by
        by_cases hre : rest = []
        · exact le_of_eq (he1 hre)
        · exact le_of_lt (he2 hre)
      refine ⟨mem1, e, ?_, ?_, ?_, (fun h => by cases h), (fun _ => by omega)⟩
      · simp only [backpropLoop, readNode, hx, hprev]
        rw [backpropStep_eq G rewards mem hprev hact hpar hl hr]
        exact hloop
      · refine ⟨by rw [hb.1, length_writeNode], ?_⟩
        intro q nd1 hq
        by_cases hqp : p = q
        · subst hqp
          rw [hpar] at hq
          cases hq
          have hcell : cellAt (writeNode mem p (bump r i par)) p = some (bump r i par) := by
            rw [cellAt_write]; simp [cellAt_lt hpar]
          have := (hb.2 p _ hcell).1 hnot
          refine ⟨fun h => absurd (List.mem_cons_self _ _) (h i), ?_⟩
          intro j hj
          rcases List.mem_cons.1 hj with hj | hj
          · cases hj
            exact ⟨r, hr, this⟩
          · exact absurd hj (hnot j)
        · have hcell : cellAt (writeNode mem p (bump r i par)) q = some nd1 := by
            rw [cellAt_write]; simp [hqp, hq]
          obtain ⟨h1, h2⟩ := hb.2 q nd1 hcell
          refine ⟨fun h => h1 (fun j hj => h j (List.mem_cons_of_mem _ hj)), ?_⟩
          intro j hj
          rcases List.mem_cons.1 hj with hj | hj
          · cases hj; exact absurd rfl hqp
          · exact h2 j hj
      · by_cases hep : p = e
        · subst hep
          refine ⟨par, hpar, ?_⟩
          rw [cellAt_write] at hen
          simp only [cellAt_lt hpar, and_self, if_true] at hen
          cases hen
          rw [(bump_sameShape r i par hw).2.1]
          exact henull
        · rw [cellAt_write] at hen
          simp only [hep, false_and, if_false] at hen
          exact ⟨en, hen, henull⟩

end BackpropLemmas

end MCTS

/-! ## The invariants through `backpropagation` -/

namespace MCTS

section BumpLemmas

variable {S A : Type}

theorem bump_of_link (r : ℚ) (i : Nat) (nd : node S A) {l : link}
    (hl : nd.availableLinks[i]? = some l) :
    bump r i nd = { nd with
      nVisits := nd.nVisits + 1,
      availableLinks := nd.availableLinks.set i
        { l with nTotal := l.nTotal + 1, totReward := l.totReward + r } } := by
  simp only [bump, hl]

theorem bump_flag (r : ℚ) (i : Nat) (nd : node S A) :
    (bump r i nd).allActionsTried = nd.allActionsTried := by
  unfold bump
  cases nd.availableLinks[i]? <;> rfl

/-- A link of a bumped node: the link on the path has counted one more game
and one more reward, every other link is unchanged. -/
theorem bump_link (r : ℚ) (j : Nat) (nd : node S A) {lj : link}
    (hj : nd.availableLinks[j]? = some lj) {i : Nat} {l1 : link}
    (hl1 : (bump r j nd).availableLinks[i]? = some l1) :
    ∃ l, nd.availableLinks[i]? = some l ∧ l1.nextState = l.nextState ∧
      l1.parentState = l.parentState ∧
      ((i = j ∧ l1.nTotal = l.nTotal + 1 ∧ l1.totReward = l.totReward + r) ∨
       (i ≠ j ∧ l1 = l)) := by
  rw [bump_of_link r j nd hj] at hl1
  simp only [List.getElem?_set] at hl1
  by_cases h : j = i
  · subst h
    have hlt : j < nd.availableLinks.length := by
      by_contra hc
      rw [List.getElem?_eq_none (by omega)] at hj
      cases hj
    simp only [if_true, hlt] at hl1
    cases hl1
    exact ⟨lj, hj, rfl, rfl, Or.inl ⟨rfl, rfl, rfl⟩⟩
  · simp only [h, if_false] at hl1
    exact ⟨l1, hl1, rfl, rfl, Or.inr ⟨fun h1 => h h1.symm, rfl⟩⟩

theorem bump_link_other (r : ℚ) (j : Nat) (nd : node S A) {i : Nat} (hij : i ≠ j) :
    (bump r j nd).availableLinks[i]? = nd.availableLinks[i]? := by
  unfold bump
  cases hj : nd.availableLinks[j]? with
  | none => rfl
  | some lj =>
    simp only [List.getElem?_set]
    rw [if_neg (fun h : j = i => hij h.symm)]

theorem bump_nVisits (r : ℚ) (j : Nat) (nd : node S A) {lj : link}
    (hj : nd.availableLinks[j]? = some lj) : (bump r j nd).nVisits = nd.nVisits + 1 := by
  rw [bump_of_link r j nd hj]

/-- A cell after `backpropagation` is the cell before it, bumped when it is a
parent on the path. -/
theorem Bumped.cases {G : Game S A} {rewards : List ℚ} {path : List (Nat × Nat)}
    {mem mem1 : List (Option (node S A))} (hb : Bumped G rewards path mem mem1)
    (hlive : ∀ a, a < mem.length → ∃ nd, cellAt mem a = some nd) {q : Nat} {y : node S A}
    (hy : cellAt mem1 q = some y) :
    ∃ x, cellAt mem q = some x ∧
      (((∀ j, (q, j) ∉ path) ∧ y = x) ∨
       ∃ j r, (q, j) ∈ path ∧ rewards[G.plyrsGo x.gameState]? = some r ∧ y = bump r j x) := by
  have hlt : q < mem.length := by rw [← hb.1]; exact cellAt_lt hy
  obtain ⟨x, hx⟩ := hlive q hlt
  refine ⟨x, hx, ?_⟩
  obtain ⟨h1, h2⟩ := hb.2 q x hx
  by_cases hp : ∃ j, (q, j) ∈ path
  · obtain ⟨j, hj⟩ := hp
    obtain ⟨r, hr, hc⟩ := h2 j hj
    rw [hy] at hc
    cases hc
    exact Or.inr ⟨j, r, hj, hr, rfl⟩
  · have hn : ∀ j, (q, j) ∉ path := fun j hj => hp ⟨j, hj⟩
    have hc := h1 hn
    rw [hy] at hc
    cases hc
    exact Or.inl ⟨hn, rfl⟩

theorem Bumped.sameShape {G : Game S A} {rewards : List ℚ} {path : List (Nat × Nat)}
    {mem mem1 : List (Option (node S A))} {a : Nat} (hb : Bumped G rewards path mem mem1)
    (hp : PathUp mem a path) : SameShape mem mem1 := by
  refine ⟨hb.1.symm, ?_⟩
  intro q x hx
  obtain ⟨h1, h2⟩ := hb.2 q x hx
  by_cases hq : ∃ j, (q, j) ∈ path
  · obtain ⟨j, hj⟩ := hq
    obtain ⟨r, _, hc⟩ := h2 j hj
    obtain ⟨_, _, par, _, _, _, _, hpar, hw, _, _⟩ := hp.mem_info q j hj
    rw [hx] at hpar
    cases hpar
    exact ⟨_, hc, bump_sameShape r j x hw⟩
  · exact ⟨x, h1 (fun j hj => hq ⟨j, hj⟩), node.sameShape_refl x⟩

/-- A non-empty path reaches a parent without `prevNode`. -/
theorem PathUp.top {mem : List (Option (node S A))} {a : Nat} {path : List (Nat × Nat)}
    (hp : PathUp mem a path) (hne : path ≠ []) :
    ∃ q j nd, (q, j) ∈ path ∧ cellAt mem q = some nd ∧ nd.prevNode = .null := by
  induction hp with
  | stop _ _ => exact absurd rfl hne
  | @step a p i nd par l rest _ _ _ hpar _ _ _ hrest ih =>
    by_cases hr : rest = []
    · subst hr
      cases hrest with
      | stop hx hnull =>
        rw [hpar] at hx
        cases hx
        exact ⟨_, _, _, List.mem_cons_self _ _, hpar, hnull⟩
    · obtain ⟨q, j, nd, hq, hc, hn⟩ := ih hr
      exact ⟨q, j, nd, List.mem_cons_of_mem _ hq, hc, hn⟩

/-- In the memory of a session only the root has a `NULL` `prevNode`. -/
theorem Shape.null_root {G : Game S A} {mem : List (Option (node S A))} (hs : Shape G mem)
    {a : Nat} {nd : node S A} (hx : cellAt mem a = some nd) (hnull : nd.prevNode = .null) :
    a = 0 := by
  by_contra ha
  rcases hs.prev a nd hx ha with h | ⟨p, _, _, _, h, _⟩
  · rw [h] at hnull
    cases hnull
  · rw [h] at hnull
    cases hnull

/-- In the memory of a session every node that was given a `prevNode` has a
path up to the root. -/
theorem Shape.pathUp {G : Game S A} {mem : List (Option (node S A))} (hs : Shape G mem) :
    ∀ (a : Nat) (nd : node S A), cellAt mem a = some nd → nd.prevNode ≠ .wild →
      ∃ path, PathUp mem a path := by
  intro a
  induction a using Nat.strong_induction_on with
  | _ a ih =>
    intro nd hx hw
    by_cases ha : a = 0
    · subst ha
      obtain ⟨rt, hrt, hnull⟩ := hs.root
      exact ⟨[], PathUp.stop hrt hnull⟩
    · rcases hs.prev a nd hx ha with h | ⟨p, i, par, l, h1, h2, h3, h4, h5⟩
      · rw [h] at hw
        exact absurd rfl hw
      · obtain ⟨_, c, hc, hpc, _⟩ := hs.link_up p par i l h3 h4
        rw [h5] at hc
        cases hc
        have hparw : par.prevNode ≠ .wild := by
          by_cases hp0 : p = 0
          · subst hp0
            obtain ⟨rt, hrt, hnull⟩ := hs.root
            rw [h3] at hrt
            cases hrt
            rw [hnull]
            simp
          · rcases hs.prev p par h3 hp0 with h | ⟨_, _, _, _, h, _⟩
            · rw [h] at h4
              simp [newNode] at h4
            · rw [h]
              simp
        obtain ⟨path, hpath⟩ := ih p hpc par h3 hparw
        exact ⟨(p, i) :: path, PathUp.step hx h1 h2 h3 h4 h5 hpc hpath⟩

end BumpLemmas

end MCTS

/-! ## The statistics through `backpropagation` -/

namespace MCTS

section StatsBackprop

variable {S A : Type}

/-- A link after `backpropagation`, related to the same link before it. -/
theorem Bumped.of_link {G : Game S A} {rewards : List ℚ} {path : List (Nat × Nat)}
    {mem mem1 : List (Option (node S A))} {a : Nat} (hb : Bumped G rewards path mem mem1)
    (hlive : ∀ a, a < mem.length → ∃ nd, cellAt mem a = some nd) (hp : PathUp mem a path)
    {q i : Nat} {y : node S A} {l1 : link}
    (hy : cellAt mem1 q = some y) (hl1 : y.availableLinks[i]? = some l1) :
    ∃ x l, cellAt mem q = some x ∧ x.availableLinks[i]? = some l ∧
      l1.nextState = l.nextState ∧ y.allActionsTried = x.allActionsTried ∧
      x.nVisits ≤ y.nVisits ∧
      (((q, i) ∈ path ∧ l1.nTotal = l.nTotal + 1 ∧ y.nVisits = x.nVisits + 1 ∧
          ∃ r, rewards[G.plyrsGo x.gameState]? = some r ∧ l1.totReward = l.totReward + r) ∨
       ((q, i) ∉ path ∧ l1 = l)) := by
  obtain ⟨x, hx, hc⟩ := hb.cases hlive hy
  rcases hc with ⟨hn, rfl⟩ | ⟨j, r, hj, hr, rfl⟩
  · exact ⟨y, l1, hx, hl1, rfl, rfl, le_refl _, Or.inr ⟨hn i, rfl⟩⟩
  · obtain ⟨_, _, par, lj, _, _, _, hpar, _, hlj, _⟩ := hp.mem_info q j hj
    rw [hx] at hpar
    cases hpar
    obtain ⟨l, hl, hn, _, hcase⟩ := bump_link r j x hlj hl1
    have hv := bump_nVisits r j x hlj
    refine ⟨x, l, hx, hl, hn, bump_flag r j x, by rw [hv]; omega, ?_⟩
    rcases hcase with ⟨hij, h1, h2⟩ | ⟨hij, h1⟩
    · subst hij
      exact Or.inl ⟨hj, h1, hv, r, hr, h2⟩
    · refine Or.inr ⟨?_, h1⟩
      intro hi
      exact hij (hp.index_unique q i j hi hj)

/-- A link off the path is still there after `backpropagation`. -/
theorem Bumped.off_path {G : Game S A} {rewards : List ℚ} {path : List (Nat × Nat)}
    {mem mem1 : List (Option (node S A))} (hb : Bumped G rewards path mem mem1)
    {q i : Nat} {x : node S A} {l : link}
    (hx : cellAt mem q = some x) (hl : x.availableLinks[i]? = some l) (hoff : (q, i) ∉ path) :
    ∃ y, cellAt mem1 q = some y ∧ y.availableLinks[i]? = some l := by
  obtain ⟨h1, h2⟩ := hb.2 q x hx
  by_cases hq : ∃ j, (q, j) ∈ path
  · obtain ⟨j, hj⟩ := hq
    obtain ⟨r, _, hc⟩ := h2 j hj
    have hij : i ≠ j := fun h => hoff (h ▸ hj)
    exact ⟨_, hc, by rw [bump_link_other r j x hij]; exact hl⟩
  · exact ⟨x, h1 (fun j hj => hq ⟨j, hj⟩), hl⟩

/-- `backpropagation` along a path that starts with the link just expanded (or
after a game that expanded nothing) restores the invariant on the statistics. -/
theorem Stats.bumped_stats {G : Game S A} {rewards : List ℚ} {ex : Option (Nat × Nat)}
    {path : List (Nat × Nat)} {mem mem1 : List (Option (node S A))} {a : Nat}
    (hst : Stats ex mem) (hlive : ∀ a, a < mem.length → ∃ nd, cellAt mem a = some nd)
    (hp : PathUp mem a path) (hex : ∀ p i, ex = some (p, i) → (p, i) ∈ path)
    (hb : Bumped G rewards path mem mem1) : Stats none mem1 := by
  have hsame := hb.sameShape hp
  have hoffex : ∀ q i, (q, i) ∉ path → some (q, i) ≠ ex := fun q i hoff h =>
    hoff (hex q i h.symm)
  constructor
  · intro q y l1 hy hmem
    obtain ⟨i, hl1⟩ := List.getElem?_of_mem hmem
    obtain ⟨x, l, hx, hl, _, _, _, hc⟩ := hb.of_link hlive hp hy hl1
    have := hst.nonneg q x l hx (List.getElem?_mem hl)
    rcases hc with ⟨_, h, _⟩ | ⟨_, rfl⟩
    · omega
    · exact this
  · intro q y i l1 c cn1 hy hl1 hnext hcn1 _
    obtain ⟨x, l, hx, hl, hn, _, _, hc⟩ := hb.of_link hlive hp hy hl1
    obtain ⟨cn, hcn, hcc⟩ := hsame.back hlive hcn1
    rw [← hcc.2.1]
    rw [hn] at hnext
    rcases hc with ⟨hon, h, _⟩ | ⟨hoff, rfl⟩
    · obtain ⟨c0, cn0, par, l0, hcn0, hprev0, _, hpar, _, hl0, hnext0⟩ := hp.mem_info q i hon
      rw [hx] at hpar
      cases hpar
      rw [hl] at hl0
      cases hl0
      rw [hnext] at hnext0
      cases hnext0
      rw [hcn] at hcn0
      cases hcn0
      have := hst.nonneg q x l hx (List.getElem?_mem hl)
      constructor
      · intro _; rw [hprev0]; simp
      · intro _; omega
    · exact hst.tried_iff q x i l1 c cn hx hl hnext hcn (hoffex q i hoff)
  · intro p i h
    cases h
  · intro q y hy hflag
    obtain ⟨x, hx, hxy⟩ := hsame.back hlive hy
    have hfx : x.allActionsTried = true := by
      obtain ⟨x1, hx1, hc⟩ := hb.cases hlive hy
      rw [hx] at hx1
      cases hx1
      rcases hc with ⟨_, rfl⟩ | ⟨j, r, _, _, rfl⟩
      · exact hflag
      · rw [bump_flag] at hflag; exact hflag
    obtain ⟨hne, hall⟩ := hst.flag_tried q x hx hfx
    constructor
    · intro h
      apply hne
      have := node.sameShape_length hxy
      rw [h] at this
      exact List.length_eq_zero.1 this
    · intro i l1 hl1 _
      obtain ⟨x1, l, hx1, hl, _, _, _, hc⟩ := hb.of_link hlive hp hy hl1
      rw [hx] at hx1
      cases hx1
      rcases hc with ⟨_, h, _⟩ | ⟨hoff, rfl⟩
      · have := hst.nonneg q x l hx (List.getElem?_mem hl)
        omega
      · exact hall i l1 hl (hoffex q i hoff)
  · intro q y hy hflag hne
    obtain ⟨x, hx, hxy⟩ := hsame.back hlive hy
    have hfx : x.allActionsTried = false := by
      obtain ⟨x1, hx1, hc⟩ := hb.cases hlive hy
      rw [hx] at hx1
      cases hx1
      rcases hc with ⟨_, rfl⟩ | ⟨j, r, _, _, rfl⟩
      · exact hflag
      · rw [bump_flag] at hflag; exact hflag
    have hnex : x.availableLinks ≠ [] := by
      intro h
      apply hne
      have := node.sameShape_length hxy
      rw [h] at this
      exact List.length_eq_zero.1 this.symm
    obtain ⟨i, l, hl, hz, hnex1⟩ := hst.flag_untried q x hx hfx hnex
    have hoff : (q, i) ∉ path := by
      intro hon
      obtain ⟨c0, cn0, par, l0, hcn0, hprev0, _, hpar, _, hl0, hnext0⟩ := hp.mem_info q i hon
      rw [hx] at hpar
      cases hpar
      rw [hl] at hl0
      cases hl0
      have := (hst.tried_iff q x i l c0 cn0 hx hl hnext0 hcn0 hnex1).2 (by rw [hprev0]; simp)
      omega
    obtain ⟨y1, hy1, hl1⟩ := hb.off_path hx hl hoff
    rw [hy] at hy1
    cases hy1
    exact ⟨i, l, hl1, hz, by simp⟩
  · intro q y l1 hy hmem
    obtain ⟨i, hl1⟩ := List.getElem?_of_mem hmem
    obtain ⟨x, l, hx, hl, _, _, hle, hc⟩ := hb.of_link hlive hp hy hl1
    have := hst.le_visits q x l hx (List.getElem?_mem hl)
    rcases hc with ⟨_, h, hv, _⟩ | ⟨_, rfl⟩
    · omega
    · omega

/-- `backpropagation` with rewards of absolute value at most 1 keeps
`|totReward| <= nTotal`. -/
theorem Bounded.bumped_bounded {G : Game S A} {rewards : List ℚ} {path : List (Nat × Nat)}
    {mem mem1 : List (Option (node S A))} {a : Nat}
    (hbd : Bounded mem) (hlive : ∀ a, a < mem.length → ∃ nd, cellAt mem a = some nd)
    (hp : PathUp mem a path) (hr : ∀ r ∈ rewards, |r| ≤ 1)
    (hb : Bumped G rewards path mem mem1) : Bounded mem1 := by
  intro q y l1 hy hmem
  obtain ⟨i, hl1⟩ := List.getElem?_of_mem hmem
  obtain ⟨x, l, hx, hl, _, _, _, hc⟩ := hb.of_link hlive hp hy hl1
  have := hbd q x l hx (List.getElem?_mem hl)
  rcases hc with ⟨_, h, _, r, hrr, ht⟩ | ⟨_, rfl⟩
  · rw [h, ht]
    have h1 := hr r (List.getElem?_mem hrr)
    have h2 := abs_add l.totReward r
    push_cast
    linarith
  · exact this

end StatsBackprop

end MCTS

/-! ## Growing the tree -/

namespace MCTS

section GrowLemmas

variable {S A : Type}

theorem length_grow (G : Game S A) (mem : List (Option (node S A))) (n : Nat) (nd : node S A)
    (k : Nat) : (grow G mem n nd k).length = mem.length + k := by
  simp [grow, length_writeNode]

theorem cellAt_replicate (G : Game S A) (k a : Nat) :
    cellAt (List.replicate k (some (newNode G))) a = if a < k then some (newNode G) else none := by
  unfold cellAt
  by_cases h : a < k
  · simp [h, List.getElem?_replicate]
  · simp [h, List.getElem?_replicate]

/-- The cells of grown memory. -/
theorem cellAt_grow (G : Game S A) (mem : List (Option (node S A))) (n : Nat) (nd : node S A)
    (k a : Nat) (hn : n < mem.length) :
    cellAt (grow G mem n nd k) a =
      if a = n then
        some { nd with availableLinks := nd.availableLinks ++ freshLinks n mem.length k }
      else if a < mem.length then cellAt mem a
      else if a < mem.length + k then some (newNode G) else none := by
  unfold grow
  rw [cellAt_append, length_writeNode, cellAt_write, cellAt_replicate]
  by_cases h1 : a = n
  · subst h1
    simp [hn]
  · have h2 : ¬ n = a := fun h => h1 h.symm
    by_cases h3 : a < mem.length
    · simp [h1, h2, h3]
    · simp only [h1, h3, if_false]
      by_cases h4 : a < mem.length + k
      · rw [if_pos (by omega), if_pos h4]
      · rw [if_neg (by omega), if_neg h4]

theorem pushLinks_grow (G : Game S A) (mem : List (Option (node S A))) (n : Nat) (nd : node S A)
    (k : Nat) (hn : n < mem.length) :
    pushLinks G n k (writeNode mem n nd) = .ok (grow G mem n nd k) := by
  have hc : cellAt (writeNode mem n nd) n = some nd := by
    rw [cellAt_write]; simp [hn]
  rw [pushLinks_eq G n k _ nd hc]
  simp only [grow, writeNode, List.set_set, List.length_set]

theorem freshLinks_get {p n k i : Nat} {l : link} (h : (freshLinks p n k)[i]? = some l) :
    i < k ∧ l = { parentState := .addr p, nextState := .addr (n + i) } := by
  unfold freshLinks at h
  have hi : i < k := by
    by_contra hc
    rw [List.getElem?_eq_none (by simp; omega)] at h
    cases h
  rw [List.getElem?_map, List.getElem?_range hi] at h
  simp only [Option.map_some', Option.some.injEq] at h
  exact ⟨hi, h.symm⟩

theorem freshLinks_length (p n k : Nat) : (freshLinks p n k).length = k := by
  simp [freshLinks]

end GrowLemmas

end MCTS

namespace MCTS

section GrowShape

variable {S A : Type}

/-- A cell of grown memory is the grown node, an old cell or a new cell. -/
theorem grow_cases {G : Game S A} {mem : List (Option (node S A))} {n : Nat} {nd : node S A}
    {k a : Nat} {y : node S A} (hn : n < mem.length) (hl : nd.availableLinks = [])
    (hy : cellAt (grow G mem n nd k) a = some y) :
    (a = n ∧ y = { nd with availableLinks := freshLinks n mem.length k }) ∨
    (a ≠ n ∧ a < mem.length ∧ cellAt mem a = some y) ∨
    (a ≠ n ∧ mem.length ≤ a ∧ a < mem.length + k ∧ y = newNode G) := by
  rw [cellAt_grow G mem n nd k a hn] at hy
  by_cases h1 : a = n
  · left
    simp only [h1, if_true, hl, List.nil_append, Option.some.injEq] at hy
    exact ⟨h1, hy.symm⟩
  · right
    simp only [h1, if_false] at hy
    by_cases h2 : a < mem.length
    · left
      simp only [h2, if_true] at hy
      exact ⟨h1, h2, hy⟩
    · right
      simp only [h2, if_false] at hy
      by_cases h3 : a < mem.length + k
      · simp only [h3, if_true, Option.some.injEq] at hy
        exact ⟨h1, by omega, h3, hy.symm⟩
      · simp [h3] at hy

theorem cellAt_grow_old {G : Game S A} {mem : List (Option (node S A))} {n : Nat} {nd : node S A}
    {k a : Nat} {y : node S A} (hn : n < mem.length) (ha : a ≠ n) (hy : cellAt mem a = some y) :
    cellAt (grow G mem n nd k) a = some y := by
  rw [cellAt_grow G mem n nd k a hn]
  simp [ha, cellAt_lt hy, hy]

theorem cellAt_grow_self {G : Game S A} {mem : List (Option (node S A))} {n : Nat}
    {nd : node S A} {k : Nat} (hn : n < mem.length) (hl : nd.availableLinks = []) :
    cellAt (grow G mem n nd k) n =
      some { nd with availableLinks := freshLinks n mem.length k } := by
  rw [cellAt_grow G mem n nd k n hn]
  simp [hl]

/-- Giving a node without links its state and its links keeps the shape
invariant. -/
theorem Shape.grow {G : Game S A} {mem : List (Option (node S A))} (hs : Shape G mem)
    {n : Nat} {nd0 nd : node S A} {k : Nat}
    (h0 : cellAt mem n = some nd0) (h0l : nd0.availableLinks = [])
    (hl : nd.availableLinks = []) (hk : nd.availableActions.length = k)
    (hroot : n = 0 → nd.prevNode = .null)
    (hprev : n ≠ 0 → ∃ (p i : Nat) (par : node S A) (l : link), nd.prevNode = .addr p ∧
      nd.prevAction = some i ∧ cellAt mem p = some par ∧ par.availableLinks[i]? = some l ∧
      l.nextState = .addr n) :
    Shape G (MCTS.grow G mem n nd k) := by
  have hn := cellAt_lt h0
  constructor
  · intro a ha
    rw [length_grow] at ha
    rw [cellAt_grow G mem n nd k a hn]
    by_cases h1 : a = n
    · simp [h1]
    · by_cases h2 : a < mem.length
      · simp only [h1, h2, if_false, if_true]
        exact hs.live a h2
      · simp [h1, h2, ha]
  · by_cases h1 : n = 0
    · subst h1
      exact ⟨_, cellAt_grow_self hn hl, hroot rfl⟩
    · obtain ⟨rt, hrt, hnull⟩ := hs.root
      exact ⟨rt, cellAt_grow_old hn (fun h => h1 h.symm) hrt, hnull⟩
  · intro p y i l hy hli
    rw [length_grow]
    rcases grow_cases hn hl hy with ⟨rfl, rfl⟩ | ⟨_, _, hold⟩ | ⟨_, _, _, rfl⟩
    · obtain ⟨hik, rfl⟩ := freshLinks_get hli
      exact ⟨rfl, _, rfl, by omega, by omega⟩
    · obtain ⟨hp, c, hc, hpc, hcl⟩ := hs.link_up p y i l hold hli
      exact ⟨hp, c, hc, hpc, by omega⟩
    · simp [newNode] at hli
  · intro p y i l q y' j l' hy hli hy' hlj heq
    rcases grow_cases hn hl hy with ⟨rfl, rfl⟩ | ⟨_, _, hold⟩ | ⟨_, _, _, rfl⟩
    · rcases grow_cases hn hl hy' with ⟨rfl, rfl⟩ | ⟨_, _, hold'⟩ | ⟨_, _, _, rfl⟩
      · obtain ⟨_, rfl⟩ := freshLinks_get hli
        obtain ⟨_, rfl⟩ := freshLinks_get hlj
        simp only [Ptr.addr.injEq] at heq
        exact ⟨rfl, by omega⟩
      · obtain ⟨_, rfl⟩ := freshLinks_get hli
        obtain ⟨_, c, hc, _, hcl⟩ := hs.link_up q y' j l' hold' hlj
        rw [hc] at heq
        simp only [Ptr.addr.injEq] at heq
        omega
      · simp [newNode] at hlj
    · rcases grow_cases hn hl hy' with ⟨rfl, rfl⟩ | ⟨_, _, hold'⟩ | ⟨_, _, _, rfl⟩
      · obtain ⟨_, rfl⟩ := freshLinks_get hlj
        obtain ⟨_, c, hc, _, hcl⟩ := hs.link_up p y i l hold hli
        rw [hc] at heq
        simp only [Ptr.addr.injEq] at heq
        omega
      · exact hs.link_inj p y i l q y' j l' hold hli hold' hlj heq
      · simp [newNode] at hlj
    · simp [newNode] at hli
  · intro c y hy hc0
    rcases grow_cases hn hl hy with ⟨rfl, rfl⟩ | ⟨hcn, _, hold⟩ | ⟨_, _, _, rfl⟩
    · right
      obtain ⟨p, i, par, l, h1, h2, h3, h4, h5⟩ := hprev hc0
      obtain ⟨_, c1, hc1, hpc, _⟩ := hs.link_up p par i l h3 h4
      rw [h5] at hc1
      cases hc1
      exact ⟨p, i, par, l, h1, h2, cellAt_grow_old hn (by omega) h3, h4, h5⟩
    · rcases hs.prev c y hold hc0 with h | ⟨p, i, par, l, h1, h2, h3, h4, h5⟩
      · exact Or.inl h
      · right
        have hpn : p ≠ n := by
          intro h
          subst h
          rw [h0] at h3
          cases h3
          rw [h0l] at h4
          simp at h4
        exact ⟨p, i, par, l, h1, h2, cellAt_grow_old hn hpn h3, h4, h5⟩
    · exact Or.inl rfl
  · intro a y hy
    rcases grow_cases hn hl hy with ⟨rfl, rfl⟩ | ⟨_, _, hold⟩ | ⟨_, _, _, rfl⟩
    · simp [freshLinks_length, hk]
    · exact hs.acts_len a y hold
    · rfl

end GrowShape

end MCTS

/-! ## Expansion -/

namespace MCTS

section ExpansionLemmas

variable {S A : Type}

theorem mem_unTriedOf {links : List link} {i : Nat} :
    i ∈ unTriedOf links ↔ ∃ l, links[i]? = some l ∧ l.nTotal = 0 := by
  unfold unTriedOf
  simp only [List.mem_filter, List.mem_range]
  constructor
  · rintro ⟨hi, h⟩
    rw [List.getElem?_eq_getElem hi] at h
    exact ⟨links[i], List.getElem?_eq_getElem hi, by simpa using h⟩
  · rintro ⟨l, hl, hz⟩
    have hi : i < links.length := by
      by_contra hc
      rw [List.getElem?_eq_none (by omega)] at hl
      cases hl
    refine ⟨hi, ?_⟩
    rw [hl]
    simpa using hz

theorem nodup_unTriedOf (links : List link) : (unTriedOf links).Nodup := by
  unfold unTriedOf
  exact List.Nodup.filter _ (List.nodup_range _)

theorem random_shuffle_length (r : Nat) (xs : List Nat) :
    (random_shuffle r xs).length = xs.length := by
  simp [random_shuffle]

theorem random_shuffle_head {r : Nat} {xs : List Nat} {j : Nat}
    (h : (random_shuffle r xs)[0]? = some j) : j ∈ xs := by
  have := List.getElem?_mem h
  unfold random_shuffle at this
  exact List.mem_rotate.1 this

/-- The shuffled list has a first element when the list is not empty. -/
theorem random_shuffle_head_exists (r : Nat) {xs : List Nat} (h : xs ≠ []) :
    ∃ j, (random_shuffle r xs)[0]? = some j := by
  have hlen : 0 < (random_shuffle r xs).length := by
    rw [random_shuffle_length]
    exact List.length_pos.2 h
  exact ⟨_, List.getElem?_eq_getElem hlen⟩

/-- In a list without repetition of length other than 1 that holds `j`, some
other element stands. -/
theorem exists_ne_of_nodup {xs : List Nat} (hnd : xs.Nodup) {j : Nat} (hj : j ∈ xs)
    (hlen : xs.length ≠ 1) : ∃ i ∈ xs, i ≠ j := by
  match xs, hnd, hj, hlen with
  | [], _, hj, _ => cases hj
  | [_], _, _, hlen => exact absurd rfl hlen
  | a :: b :: t, hnd, _, _ =>
    have hab : a ≠ b := by
      intro h
      rw [h] at hnd
      simp at hnd
    by_cases h : a = j
    · exact ⟨b, by simp, fun hb => hab (h.trans hb.symm)⟩
    · exact ⟨a, by simp, h⟩

theorem eq_of_length_one {xs : List Nat} {i j : Nat} (hlen : xs.length = 1) (hi : i ∈ xs)
    (hj : j ∈ xs) : i = j := by
  match xs, hlen, hi, hj with
  | [a], _, hi, hj =>
    simp at hi hj
    rw [hi, hj]

/-- What a successful `expansion` did. -/
theorem expansion_inv {G : Game S A} {r : Nat} {g g2 : currentGame S A}
    (h : expansion G r g = .ok g2) :
    ∃ (c j n : Nat) (cur nn : node S A) (act : A) (lnk : link) (newState : S),
      g.currentNode = .addr c ∧ cellAt g.mem c = some cur ∧
      (random_shuffle r (unTriedOf cur.availableLinks))[0]? = some j ∧
      cur.availableActions[j]? = some act ∧ cur.availableLinks[j]? = some lnk ∧
      G.getNextState cur.gameState act = .ok newState ∧ lnk.nextState = .addr n ∧
      cellAt (writeNode g.mem c (flaggedNode r cur)) n = some nn ∧
      g2 = { g with
        mem := grow G (writeNode g.mem c (flaggedNode r cur)) n (expandedNode G nn newState c j)
                (G.getActions newState).length,
        currentNode := .addr n } := by
  unfold expansion at h
  split at h
  · rename_i c hcur
    split at h
    · cases h
    · rename_i cur hread
      simp only at h
      split at h
      · cases h
      · rename_i j hj
        split at h
        · rename_i act lnk hact hlnk
          split at h
          · cases h
          · rename_i newState hnext
            split at h
            · rename_i n hn
              split at h
              · cases h
              · rename_i nn hnn
                have hflag : (if (random_shuffle r (unTriedOf cur.availableLinks)).length = 1 then
                    { cur with allActionsTried := true } else cur) = flaggedNode r cur := rfl
                rw [hflag] at hnn hact hlnk hnext h
                have hfa : (flaggedNode r cur).availableActions = cur.availableActions := by
                  unfold flaggedNode; split <;> rfl
                have hfl : (flaggedNode r cur).availableLinks = cur.availableLinks := by
                  unfold flaggedNode; split <;> rfl
                have hfs : (flaggedNode r cur).gameState = cur.gameState := by
                  unfold flaggedNode; split <;> rfl
                rw [hfa] at hact
                rw [hfl] at hlnk
                rw [hfs] at hnext
                obtain ⟨c1, hc1, hcell⟩ := readNode_eq_ok.1 hread
                cases hc1
                obtain ⟨n1, hn1, hncell⟩ := readNode_eq_ok.1 hnn
                cases hn1
                have hnlt : n < (writeNode g.mem c (flaggedNode r cur)).length := cellAt_lt hncell
                have hpush := pushLinks_grow G (writeNode g.mem c (flaggedNode r cur)) n
                  (expandedNode G nn newState c j) (G.getActions newState).length hnlt
                unfold expandedNode at hpush
                rw [hpush] at h
                simp only [Except.ok.injEq] at h
                exact ⟨c, j, n, cur, nn, act, lnk, newState, hcur, hcell, hj, hact, hlnk, hnext,
                  hn, hncell, h.symm⟩
            · cases h
        · cases h
  · cases h

end ExpansionLemmas

end MCTS

/-! ## The invariants through `expansion` -/

namespace MCTS

section ExpansionInvariants

variable {S A : Type}

theorem flaggedNode_sameShape (r : Nat) (cur : node S A) (hw : cur.prevNode ≠ .wild) :
    cur.sameShape (flaggedNode r cur) := by
  unfold flaggedNode
  split
  · exact ⟨rfl, rfl, rfl, rfl, rfl, fun h => absurd h hw⟩
  · exact node.sameShape_refl cur

theorem flaggedNode_links (r : Nat) (cur : node S A) :
    (flaggedNode r cur).availableLinks = cur.availableLinks := by
  unfold flaggedNode; split <;> rfl

theorem flaggedNode_actions (r : Nat) (cur : node S A) :
    (flaggedNode r cur).availableActions = cur.availableActions := by
  unfold flaggedNode; split <;> rfl

theorem flaggedNode_state (r : Nat) (cur : node S A) :
    (flaggedNode r cur).gameState = cur.gameState := by
  unfold flaggedNode; split <;> rfl

theorem flaggedNode_prevNode (r : Nat) (cur : node S A) :
    (flaggedNode r cur).prevNode = cur.prevNode := by
  unfold flaggedNode; split <;> rfl

theorem flaggedNode_nVisits (r : Nat) (cur : node S A) :
    (flaggedNode r cur).nVisits = cur.nVisits := by
  unfold flaggedNode; split <;> rfl

theorem flaggedNode_flag (r : Nat) (cur : node S A) (hf : cur.allActionsTried = false) :
    (flaggedNode r cur).allActionsTried =
      decide ((random_shuffle r (unTriedOf cur.availableLinks)).length = 1) := by
  unfold flaggedNode
  split
  · rename_i h; simp [h]
  · rename_i h; simp [h, hf]

/-- A node with a link was given a `prevNode`. -/
theorem Shape.set_of_link {G : Game S A} {mem : List (Option (node S A))} (hs : Shape G mem)
    {p i : Nat} {nd : node S A} {l : link} (hx : cellAt mem p = some nd)
    (hl : nd.availableLinks[i]? = some l) : nd.prevNode ≠ .wild := by
  by_cases hp0 : p = 0
  · subst hp0
    obtain ⟨rt, hrt, hnull⟩ := hs.root
    rw [hx] at hrt
    cases hrt
    rw [hnull]
    simp
  · rcases hs.prev p nd hx hp0 with h | ⟨_, _, _, _, h, _⟩
    · rw [h] at hl
      simp [newNode] at hl
    · rw [h]
      simp

/-- The facts about the node `expansion` works on and the node it fills. -/
theorem expand_setup {G : Game S A} {mem : List (Option (node S A))} (hs : Shape G mem)
    (hst : Stats none mem) {r c j n : Nat} {cur nn : node S A} {lnk : link}
    (hc : cellAt mem c = some cur)
    (hj : (random_shuffle r (unTriedOf cur.availableLinks))[0]? = some j)
    (hl : cur.availableLinks[j]? = some lnk) (hn : lnk.nextState = .addr n)
    (hnn : cellAt (writeNode mem c (flaggedNode r cur)) n = some nn) :
    lnk.nTotal = 0 ∧ cur.allActionsTried = false ∧ cur.prevNode ≠ .wild ∧ c < n ∧
      n < mem.length ∧ nn = newNode G ∧ cellAt mem n = some nn := by
  have hz : lnk.nTotal = 0 := by
    obtain ⟨l, hl1, hz⟩ := mem_unTriedOf.1 (random_shuffle_head hj)
    rw [hl] at hl1
    cases hl1
    exact hz
  have hflag : cur.allActionsTried = false := by
    cases hf : cur.allActionsTried with
    | false => rfl
    | true =>
      have := (hst.flag_tried c cur hc hf).2 j lnk hl (by simp)
      omega
  have hw := hs.set_of_link hc hl
  obtain ⟨_, n1, hn1, hcn, hnlt⟩ := hs.link_up c cur j lnk hc hl
  rw [hn] at hn1
  cases hn1
  have hnn1 : cellAt mem n = some nn := by
    rw [cellAt_write] at hnn
    simpa [show c ≠ n by omega] using hnn
  have hwild : nn.prevNode = .wild := by
    by_contra hne
    have := (hst.tried_iff c cur j lnk n nn hc hl hn hnn1 (by simp)).2 hne
    omega
  have hnew : nn = newNode G := by
    rcases hs.prev n nn hnn1 (by omega) with h | ⟨_, _, _, _, h, _⟩
    · exact h
    · rw [h] at hwild
      cases hwild
  exact ⟨hz, hflag, hw, hcn, hnlt, hnew, hnn1⟩

/-- A cell after `expansion`: the new node, the expanded node, another old
cell or a fresh cell. -/
theorem expand_cases {G : Game S A} {mem : List (Option (node S A))} {c n k a : Nat}
    {fl nd y : node S A} (hcl : c < mem.length) (hn : n < mem.length)
    (hl : nd.availableLinks = [])
    (hy : cellAt (grow G (writeNode mem c fl) n nd k) a = some y) :
    (a = n ∧ y = { nd with availableLinks := freshLinks n mem.length k }) ∨
    (a = c ∧ y = fl) ∨
    (a ≠ n ∧ a ≠ c ∧ cellAt mem a = some y) ∨
    (a ≠ n ∧ a ≠ c ∧ mem.length ≤ a ∧ a < mem.length + k ∧ y = newNode G) := by
  have hn1 : n < (writeNode mem c fl).length := by rw [length_writeNode]; exact hn
  rcases grow_cases hn1 hl hy with ⟨h1, h2⟩ | ⟨h1, h2, h3⟩ | ⟨h1, h2, h3, h4⟩
  · rw [length_writeNode] at h2
    exact Or.inl ⟨h1, h2⟩
  · rw [cellAt_write] at h3
    by_cases hca : c = a
    · subst hca
      simp only [hcl, and_self, if_true, Option.some.injEq] at h3
      exact Or.inr (Or.inl ⟨rfl, h3.symm⟩)
    · simp only [hca, false_and, if_false] at h3
      exact Or.inr (Or.inr (Or.inl ⟨h1, fun h => hca h.symm, h3⟩))
  · rw [length_writeNode] at h2 h3
    exact Or.inr (Or.inr (Or.inr ⟨h1, by omega, h2, h3, h4⟩))

theorem cellAt_expand_new {G : Game S A} {mem : List (Option (node S A))} {c n k : Nat}
    {f nd : node S A} (hn : n < mem.length) (hl : nd.availableLinks = []) :
    cellAt (grow G (writeNode mem c f) n nd k) n =
      some { nd with availableLinks := freshLinks n mem.length k } := by
  have hn1 : n < (writeNode mem c f).length := by rw [length_writeNode]; exact hn
  rw [cellAt_grow_self hn1 hl, length_writeNode]

theorem cellAt_expand_cur {G : Game S A} {mem : List (Option (node S A))} {c n k : Nat}
    {fl nd : node S A} (hcl : c < mem.length) (hne : c ≠ n) (hn : n < mem.length) :
    cellAt (grow G (writeNode mem c fl) n nd k) c = some fl := by
  have hn1 : n < (writeNode mem c fl).length := by rw [length_writeNode]; exact hn
  apply cellAt_grow_old hn1 hne
  rw [cellAt_write]
  simp [hcl]

theorem cellAt_expand_old {G : Game S A} {mem : List (Option (node S A))} {c n k a : Nat}
    {fl nd y : node S A} (hn : n < mem.length) (han : a ≠ n) (hac : a ≠ c)
    (hy : cellAt mem a = some y) :
    cellAt (grow G (writeNode mem c fl) n nd k) a = some y := by
  have hn1 : n < (writeNode mem c fl).length := by rw [length_writeNode]; exact hn
  apply cellAt_grow_old hn1 han
  rw [cellAt_write, if_neg (fun h => hac h.1.symm)]
  exact hy

/-- `expansion` keeps the shape invariant. -/
theorem Shape.expand_shape {G : Game S A} {mem : List (Option (node S A))} (hs : Shape G mem)
    (hst : Stats none mem) {r c j n : Nat} {cur nn : node S A} {lnk : link} (newState : S)
    (hc : cellAt mem c = some cur)
    (hj : (random_shuffle r (unTriedOf cur.availableLinks))[0]? = some j)
    (hl : cur.availableLinks[j]? = some lnk) (hn : lnk.nextState = .addr n)
    (hnn : cellAt (writeNode mem c (flaggedNode r cur)) n = some nn) :
    Shape G (MCTS.grow G (writeNode mem c (flaggedNode r cur)) n
      (expandedNode G nn newState c j) (G.getActions newState).length) := by
  obtain ⟨hz, hflag, hw, hcn, hnlt, hnew, hnn1⟩ := expand_setup hs hst hc hj hl hn hnn
  have hsame : SameShape mem (writeNode mem c (flaggedNode r cur)) :=
    SameShape.write hc (flaggedNode_sameShape r cur hw)
  have hs1 := hs.congr_shape hsame
  have hnl : nn.availableLinks = [] := by rw [hnew]; rfl
  have hel : (expandedNode G nn newState c j).availableLinks = [] := hnl
  have hek : (expandedNode G nn newState c j).availableActions.length =
      (G.getActions newState).length := rfl
  apply Shape.grow hs1 hnn hnl hel hek (fun h => by omega)
  intro _
  refine ⟨c, j, flaggedNode r cur, lnk, rfl, rfl, ?_, by rw [flaggedNode_links]; exact hl, hn⟩
  rw [cellAt_write]
  simp [cellAt_lt hc]

end ExpansionInvariants

end MCTS

/-! ## The statistics through `expansion` -/

namespace MCTS

section ExpansionStats

variable {S A : Type}

theorem freshLinks_nTotal {p n k : Nat} {l : link} (h : l ∈ freshLinks p n k) :
    l.nTotal = 0 ∧ l.totReward = 0 := by
  obtain ⟨i, hi⟩ := List.getElem?_of_mem h
  obtain ⟨_, rfl⟩ := freshLinks_get hi
  exact ⟨rfl, rfl⟩

/-- After `expansion` the invariant on the statistics holds but for the
link that was expanded. -/
theorem Stats.expand_stats {G : Game S A} {mem : List (Option (node S A))} (hs : Shape G mem)
    (hst : Stats none mem) {r c j n : Nat} {cur nn : node S A} {lnk : link} (newState : S)
    (hc : cellAt mem c = some cur)
    (hj : (random_shuffle r (unTriedOf cur.availableLinks))[0]? = some j)
    (hl : cur.availableLinks[j]? = some lnk) (hn : lnk.nextState = .addr n)
    (hnn : cellAt (writeNode mem c (flaggedNode r cur)) n = some nn) :
    Stats (some (c, j)) (MCTS.grow G (writeNode mem c (flaggedNode r cur)) n
      (expandedNode G nn newState c j) (G.getActions newState).length) := by
  obtain ⟨hz, hflag, hw, hcn, hnlt, hnew, hnn1⟩ := expand_setup hs hst hc hj hl hn hnn
  have hcl : c < mem.length := cellAt_lt hc
  have hel : (expandedNode G nn newState c j).availableLinks = [] := by rw [hnew]; rfl
  have hjU := random_shuffle_head hj
  constructor
  · intro p y l hy hmem
    rcases expand_cases hcl hnlt hel hy with ⟨_, rfl⟩ | ⟨_, rfl⟩ | ⟨_, _, hold⟩ | ⟨_, _, _, _, rfl⟩
    · have := (freshLinks_nTotal hmem).1
      omega
    · rw [flaggedNode_links] at hmem
      exact hst.nonneg c cur l hc hmem
    · exact hst.nonneg p y l hold hmem
    · simp [newNode] at hmem
  · intro p y i l c1 cn hy hli hnext hcn1 hex
    rcases expand_cases hcl hnlt hel hy with ⟨rfl, rfl⟩ | ⟨rfl, rfl⟩ | ⟨hpn, hpc, hold⟩ |
      ⟨_, _, _, _, rfl⟩
    · obtain ⟨hik, rfl⟩ := freshLinks_get hli
      simp only [Ptr.addr.injEq] at hnext
      subst hnext
      rcases expand_cases hcl hnlt hel hcn1 with ⟨h1, _⟩ | ⟨h1, _⟩ | ⟨_, _, h1⟩ | ⟨_, _, _, _, rfl⟩
      · omega
      · omega
      · have := cellAt_lt h1
        omega
      · simp [newNode]
    · rw [flaggedNode_links] at hli
      have hij : i ≠ j := fun h => hex (by rw [h])
      obtain ⟨_, c2, hc2, hpc2, _⟩ := hs.link_up p cur i l hc hli
      rw [hnext] at hc2
      cases hc2
      rcases expand_cases hcl hnlt hel hcn1 with ⟨rfl, _⟩ | ⟨h1, _⟩ | ⟨_, _, h1⟩ | ⟨_, _, h1, _⟩
      · exact absurd (hs.link_inj p cur i l p cur j lnk hc hli hc hl (by rw [hnext, hn])).2 hij
      · omega
      · exact hst.tried_iff p cur i l c1 cn hc hli hnext h1 (by simp)
      · omega
    · obtain ⟨_, c2, hc2, hpc2, hc2l⟩ := hs.link_up p y i l hold hli
      rw [hnext] at hc2
      cases hc2
      rcases expand_cases hcl hnlt hel hcn1 with ⟨rfl, _⟩ | ⟨rfl, rfl⟩ | ⟨_, _, h1⟩ | ⟨_, _, h1, _⟩
      · exact absurd (hs.link_inj p y i l c cur j lnk hold hli hc hl (by rw [hnext, hn])).1 hpc
      · rw [flaggedNode_prevNode]
        exact hst.tried_iff p y i l c1 cur hold hli hnext hc (by simp)
      · exact hst.tried_iff p y i l c1 cn hold hli hnext h1 (by simp)
      · omega
    · simp [newNode] at hli
  · intro p i hpi
    cases hpi
    refine ⟨flaggedNode r cur, lnk, n, _, cellAt_expand_cur hcl (by omega) hnlt,
      by rw [flaggedNode_links]; exact hl, hz, hn, cellAt_expand_new hnlt hel, rfl, rfl⟩
  · intro p y hy hf
    rcases expand_cases hcl hnlt hel hy with ⟨_, rfl⟩ | ⟨rfl, rfl⟩ | ⟨_, hpc, hold⟩ |
      ⟨_, _, _, _, rfl⟩
    · rw [hnew] at hf
      cases hf
    · rw [flaggedNode_flag r cur hflag] at hf
      have hlen : (unTriedOf cur.availableLinks).length = 1 := by
        rw [← random_shuffle_length r]
        simpa using hf
      rw [flaggedNode_links]
      constructor
      · intro h
        rw [h] at hl
        simp at hl
      · intro i l hli hex
        have hij : i ≠ j := fun h => hex (by rw [h])
        have h0 := hst.nonneg p cur l hc (List.getElem?_mem hli)
        by_contra hlt
        have hzero : l.nTotal = 0 := by omega
        exact hij (eq_of_length_one hlen (mem_unTriedOf.2 ⟨l, hli, hzero⟩) hjU)
    · obtain ⟨h1, h2⟩ := hst.flag_tried p y hold hf
      exact ⟨h1, fun i l hli _ => h2 i l hli (by simp)⟩
    · cases hf
  · intro p y hy hf hne
    rcases expand_cases hcl hnlt hel hy with ⟨rfl, rfl⟩ | ⟨rfl, rfl⟩ | ⟨_, hpc, hold⟩ |
      ⟨_, _, _, _, rfl⟩
    · simp only at hne
      have hk : 0 < (G.getActions newState).length := by
        by_contra hc0
        have : (G.getActions newState).length = 0 := by omega
        apply hne
        simp [freshLinks, this]
      refine ⟨0, { parentState := .addr p, nextState := .addr (mem.length + 0) }, ?_, rfl, ?_⟩
      · simp only [freshLinks, List.getElem?_map, List.getElem?_range hk, Option.map_some']
      · intro h
        simp only [Option.some.injEq, Prod.mk.injEq] at h
        omega
    · rw [flaggedNode_flag r cur hflag] at hf
      have hlen : (unTriedOf cur.availableLinks).length ≠ 1 := by
        rw [← random_shuffle_length r]
        simpa using hf
      obtain ⟨i, hi, hij⟩ := exists_ne_of_nodup (nodup_unTriedOf _) hjU hlen
      obtain ⟨l, hli, hzero⟩ := mem_unTriedOf.1 hi
      refine ⟨i, l, by rw [flaggedNode_links]; exact hli, hzero, ?_⟩
      intro h
      simp only [Option.some.injEq, Prod.mk.injEq] at h
      exact hij h.2
    · obtain ⟨i, l, hli, hzero, _⟩ := hst.flag_untried p y hold hf hne
      refine ⟨i, l, hli, hzero, ?_⟩
      intro h
      simp only [Option.some.injEq, Prod.mk.injEq] at h
      exact hpc h.1
    · exact absurd rfl hne
  · intro p y l hy hmem
    rcases expand_cases hcl hnlt hel hy with ⟨_, rfl⟩ | ⟨_, rfl⟩ | ⟨_, _, hold⟩ | ⟨_, _, _, _, rfl⟩
    · have := (freshLinks_nTotal hmem).1
      rw [this, hnew]
      simp [expandedNode, newNode]
    · rw [flaggedNode_links] at hmem
      rw [flaggedNode_nVisits]
      exact hst.le_visits c cur l hc hmem
    · exact hst.le_visits p y l hold hmem
    · simp [newNode] at hmem

/-- `expansion` keeps `|totReward| <= nTotal`. -/
theorem Bounded.expand_bounded {G : Game S A} {mem : List (Option (node S A))} (hbd : Bounded mem)
    {c n k : Nat} {cur nd : node S A} {r : Nat} (hc : cellAt mem c = some cur)
    (hn : n < mem.length) (hl : nd.availableLinks = []) :
    Bounded (grow G (writeNode mem c (flaggedNode r cur)) n nd k) := by
  intro p y l hy hmem
  rcases expand_cases (cellAt_lt hc) hn hl hy with ⟨_, rfl⟩ | ⟨_, rfl⟩ | ⟨_, _, hold⟩ |
    ⟨_, _, _, _, rfl⟩
  · obtain ⟨h1, h2⟩ := freshLinks_nTotal hmem
    rw [h1, h2]
    simp
  · rw [flaggedNode_links] at hmem
    exact hbd c cur l hc hmem
  · exact hbd p y l hold hmem
  · simp [newNode] at hmem

end ExpansionStats

end MCTS

/-! ## The invariants of every session -/

namespace MCTS

section SessionInvariants

variable {S A : Type}

theorem construct_mem (initState : S) (players : Int) :
    (currentGame.construct (A := A) initState players).mem = [some (constructedRoot initState)] :=
  rfl

theorem construct_root (initState : S) :
    cellAt [some (constructedRoot (A := A) initState)] 0 = some (constructedRoot initState) := rfl

/-- The set-up of the root after the constructor always succeeds, and gives
the root its actions, one link for each and one new cell for each. -/
theorem initializeRoot_construct (G : Game S A) (initState : S) (players : Int) :
    initializeRoot G (currentGame.construct initState players) =
      .ok (initialGame G initState players) := by
  unfold initializeRoot currentGame.rootNode
  rw [construct_mem, readNode_of_cellAt (construct_root initState)]
  simp only
  have := pushLinks_grow G [some (constructedRoot (A := A) initState)] 0 (initialRoot G initState)
    (G.getActions initState).length (by simp)
  unfold initialRoot at this
  unfold constructedRoot
  unfold constructedRoot at this
  rw [this]
  rfl

theorem Shape.construct (G : Game S A) (initState : S) :
    Shape G [some (constructedRoot initState)] := by
  have hcell : ∀ a (y : node S A), cellAt [some (constructedRoot (A := A) initState)] a
      = some y → a = 0 ∧ y = constructedRoot initState := by
    intro a y hy
    have hlt := cellAt_lt hy
    simp only [List.length_singleton] at hlt
    have ha : a = 0 := by omega
    subst ha
    rw [construct_root] at hy
    cases hy
    exact ⟨rfl, rfl⟩
  constructor
  · intro a ha
    simp only [List.length_singleton] at ha
    have ha0 : a = 0 := by omega
    subst ha0
    exact ⟨_, construct_root initState⟩
  · exact ⟨_, construct_root initState, rfl⟩
  · intro p nd i l hx hl
    obtain ⟨_, rfl⟩ := hcell p nd hx
    simp [constructedRoot] at hl
  · intro p nd i l q nd' j l' hx hl
    obtain ⟨_, rfl⟩ := hcell p nd hx
    simp [constructedRoot] at hl
  · intro c nd hx hc
    exact absurd (hcell c nd hx).1 hc
  · intro a nd hx
    obtain ⟨_, rfl⟩ := hcell a nd hx
    rfl

/-- The memory of a session after the set-up of the root satisfies the shape
invariant and the invariant on the statistics. -/
theorem init_invariants (G : Game S A) (initState : S) :
    Shape G (initialMem G initState) ∧ Stats none (initialMem G initState) := by
  unfold initialMem
  have hn : 0 < [some (constructedRoot (A := A) initState)].length := by simp
  have hlen : [some (constructedRoot (A := A) initState)].length = 1 := rfl
  have hil : (initialRoot G initState).availableLinks = [] := rfl
  constructor
  · exact (Shape.construct G initState).grow (construct_root initState) rfl hil
      rfl (fun _ => rfl) (fun h => absurd rfl h)
  · constructor
    · intro p y l hy hmem
      rcases grow_cases hn hil hy with ⟨_, rfl⟩ | ⟨h1, h2, _⟩ | ⟨_, _, _, rfl⟩
      · have := (freshLinks_nTotal hmem).1
        omega
      · omega
      · simp [newNode] at hmem
    · intro p y i l c cn hy hli hnext hcn _
      rcases grow_cases hn hil hy with ⟨_, rfl⟩ | ⟨h1, h2, _⟩ | ⟨_, _, _, rfl⟩
      · obtain ⟨_, rfl⟩ := freshLinks_get hli
        simp only [Ptr.addr.injEq] at hnext
        subst hnext
        rcases grow_cases hn hil hcn with ⟨h1, _⟩ | ⟨_, h1, _⟩ | ⟨_, _, _, rfl⟩
        · omega
        · omega
        · simp [newNode]
      · omega
      · simp [newNode] at hli
    · intro p i h
      cases h
    · intro p y hy hf
      rcases grow_cases hn hil hy with ⟨_, rfl⟩ | ⟨h1, h2, _⟩ | ⟨_, _, _, rfl⟩
      · cases hf
      · omega
      · cases hf
    · intro p y hy hf hne
      rcases grow_cases hn hil hy with ⟨rfl, rfl⟩ | ⟨h1, h2, _⟩ | ⟨_, _, _, rfl⟩
      · simp only at hne
        have hk : 0 < (G.getActions initState).length := by
          by_contra hc0
          have : (G.getActions initState).length = 0 := by omega
          apply hne
          simp [freshLinks, this]
        refine ⟨0, { parentState := .addr 0, nextState := .addr (1 + 0) }, ?_, rfl, by simp⟩
        simp only [freshLinks, hlen, List.getElem?_map, List.getElem?_range hk, Option.map_some']
      · omega
      · exact absurd rfl hne
    · intro p y l hy hmem
      rcases grow_cases hn hil hy with ⟨_, rfl⟩ | ⟨h1, h2, _⟩ | ⟨_, _, _, rfl⟩
      · have := (freshLinks_nTotal hmem).1
        rw [this]
        exact le_refl _
      · omega
      · simp [newNode] at hmem

end SessionInvariants

end MCTS

/-! ## One game keeps the invariants -/

namespace MCTS

section GameInvariants

variable {S A : Type}

/-- A run of the loop of `backpropagation` that ends had enough passes and
found a reward for the player of every parent on the path. -/
theorem backpropLoop_valid (G : Game S A) (rewards : List ℚ) :
    ∀ (path : List (Nat × Nat)) (mem : List (Option (node S A))) (a fuel : Nat)
      (res : List (Option (node S A)) × Ptr),
      PathUp mem a path → backpropLoop G rewards fuel mem (.addr a) = .ok res →
      path.length < fuel ∧
      ∀ q j nd, (q, j) ∈ path → cellAt mem q = some nd →
        G.plyrsGo nd.gameState < rewards.length := by
  intro path
  induction path with
  | nil =>
    intro mem a fuel res _ h
    cases fuel with
    | zero => simp [backpropLoop] at h
    | succ f => exact ⟨by simp, fun q j nd hq => by cases hq⟩
  | cons hd rest ih =>
    intro mem a fuel res hp h
    cases hp with
    | @step _ p i nd par l _ hx hprev hact hpar hl hnext hlt hrest =>
      cases fuel with
      | zero => simp [backpropLoop] at h
      | succ f =>
        simp only [backpropLoop, readNode, hx, hprev] at h
        cases hr : rewards[G.plyrsGo par.gameState]? with
        | none =>
          simp [backpropStep, hprev, hact, readNode, hpar, hl, hr] at h
        | some r =>
          rw [backpropStep_eq G rewards mem hprev hact hpar hl hr] at h
          simp only at h
          obtain ⟨par1, hpar1, hw⟩ := hrest.start_set
          rw [hpar] at hpar1
          cases hpar1
          have hsame : SameShape mem (writeNode mem p (bump r i par)) :=
            SameShape.write hpar (bump_sameShape r i par hw)
          obtain ⟨hlen, hval⟩ := ih _ p f res (hrest.congr_path hsame) h
          refine ⟨by simp only [List.length_cons]; omega, ?_⟩
          intro q j nd1 hq hnd1
          rcases List.mem_cons.1 hq with hq | hq
          · cases hq
            rw [hpar] at hnd1
            cases hnd1
            by_contra hc
            rw [List.getElem?_eq_none (by omega)] at hr
            cases hr
          · have hne : p ≠ q := fun h1 =>
              absurd (hrest.parent_lt _ _ (h1 ▸ hq)) (Nat.lt_irrefl _)
            apply hval q j nd1 hq
            rw [cellAt_write]
            simp [hne, hnd1]

/-- What a successful run of the loop of `backpropagation` did, in the memory
of a session: it walked the path from its start up to the root and bumped the
parents on it. -/
theorem backpropLoop_inv {G : Game S A} {rewards : List ℚ} {mem mem1 : List (Option (node S A))}
    (hs : Shape G mem) {fuel : Nat} {cur cur1 : Ptr}
    (h : backpropLoop G rewards fuel mem cur = .ok (mem1, cur1)) :
    ∃ a path, cur = .addr a ∧ PathUp mem a path ∧ Bumped G rewards path mem mem1 ∧
      cur1 = .addr 0 ∧ (path = [] → a = 0) := by
  cases fuel with
  | zero => simp [backpropLoop] at h
  | succ f =>
    have h0 := h
    unfold backpropLoop at h0
    split at h0
    · cases h0
    · rename_i nd hread
      obtain ⟨a, rfl, hx⟩ := readNode_eq_ok.1 hread
      have hw : nd.prevNode ≠ .wild := by
        intro hw
        rw [hw] at h0
        simp at h0
      obtain ⟨path, hp⟩ := hs.pathUp a nd hx hw
      obtain ⟨hlen, hval⟩ := backpropLoop_valid G rewards path mem a (f + 1) _ hp h
      obtain ⟨mem2, e, hloop, hb, ⟨en, hen, henull⟩, he1, _⟩ :=
        backpropLoop_spec G rewards path mem a hp hval (f + 1) hlen
      rw [h] at hloop
      simp only [Except.ok.injEq, Prod.mk.injEq] at hloop
      obtain ⟨rfl, rfl⟩ := hloop
      have he0 := hs.null_root hen henull
      subst he0
      exact ⟨a, path, rfl, hp, hb, rfl, fun hnil => (he1 hnil).symm⟩

/-- The steps of one successful game before `backpropagation`. -/
theorem playBeforeBackprop_inv {G : Game S A} {fuel : Nat} {ρ : Rand} {g g3 : currentGame S A}
    (h : playBeforeBackprop G fuel ρ g = .ok g3) :
    ∃ cur nd, selectionLoop G g.mem (g.mem.length + 1) (.addr 0) = .ok cur ∧
      readNode g.mem cur = .ok nd ∧
      ((G.isTerminal nd.gameState = true ∧
          g3 = { g with currentNode := cur, gameRewards := G.assignRewards nd.gameState }) ∨
       (G.isTerminal nd.gameState = false ∧
          ∃ g2 nd2 s, expansion G ρ.shuffle { g with currentNode := cur } = .ok g2 ∧
            readNode g2.mem g2.currentNode = .ok nd2 ∧
            simulationLoop G ρ.draws fuel 0 nd2.gameState = .ok s ∧
            g3 = { g2 with gameRewards := G.assignRewards s })) := by
  unfold playBeforeBackprop selection at h
  cases hsel : selectionLoop G g.mem (g.mem.length + 1) (.addr 0) with
  | error e => simp [hsel] at h
  | ok cur =>
    simp only [hsel] at h
    cases hread : readNode g.mem cur with
    | error e => simp [hread] at h
    | ok nd =>
      simp only [hread] at h
      refine ⟨cur, nd, (by first | exact rfl | assumption), (by first | exact rfl | assumption), ?_⟩
      cases hterm : G.isTerminal nd.gameState with
      | true =>
        simp only [hterm, Bool.not_true, Bool.false_eq_true, if_false, Except.ok.injEq] at h
        exact Or.inl ⟨rfl, h.symm⟩
      | false =>
        simp only [hterm, Bool.not_false, if_true] at h
        right
        refine ⟨rfl, ?_⟩
        cases hexp : expansion G ρ.shuffle { g with currentNode := cur } with
        | error e => simp [hexp] at h
        | ok g2 =>
          simp only [hexp] at h
          unfold finishSimulation at h
          cases hr2 : readNode g2.mem g2.currentNode with
          | error e => simp [hr2] at h
          | ok nd2 =>
            simp only [hr2] at h
            cases hsim : simulationLoop G ρ.draws fuel 0 nd2.gameState with
            | error e => simp [hsim] at h
            | ok s =>
              simp only [hsim, Except.ok.injEq] at h
              exact ⟨g2, nd2, s, (by first | exact rfl | assumption), (by first | exact rfl | assumption), (by first | exact rfl | assumption), h.symm⟩

theorem playOneGame_inv {G : Game S A} {fuel : Nat} {ρ : Rand} {g g1 : currentGame S A}
    (h : playOneGame G fuel ρ g = .ok g1) :
    ∃ g3 mem1 cur1, playBeforeBackprop G fuel ρ g = .ok g3 ∧
      backpropLoop G g3.gameRewards (g3.mem.length + 1) g3.mem g3.currentNode = .ok (mem1, cur1) ∧
      g1 = { g3 with mem := mem1, currentNode := cur1 } := by
  unfold playOneGame at h
  cases hb : playBeforeBackprop G fuel ρ g with
  | error e => simp [hb] at h
  | ok g3 =>
    simp only [hb] at h
    unfold backpropagation at h
    cases hl : backpropLoop G g3.gameRewards (g3.mem.length + 1) g3.mem g3.currentNode with
    | error e => simp [hl] at h
    | ok res =>
      obtain ⟨mem1, cur1⟩ := res
      simp only [hl, Except.ok.injEq] at h
      exact ⟨g3, mem1, cur1, (by first | exact rfl | assumption), (by first | exact rfl | assumption), h.symm⟩

/-- One game keeps the shape invariant and the invariant on the statistics. -/
theorem playOneGame_invariants {G : Game S A} {fuel : Nat} {ρ : Rand} {g g1 : currentGame S A}
    (hs : Shape G g.mem) (hst : Stats none g.mem) (h : playOneGame G fuel ρ g = .ok g1) :
    Shape G g1.mem ∧ Stats none g1.mem := by
  obtain ⟨g3, mem1, cur1, hbefore, hloop, rfl⟩ := playOneGame_inv h
  obtain ⟨cur, nd, _, _, hcase⟩ := playBeforeBackprop_inv hbefore
  rcases hcase with ⟨_, rfl⟩ | ⟨_, g2, nd2, s, hexp, _, _, rfl⟩
  · obtain ⟨a, path, _, hp, hb, _, _⟩ := backpropLoop_inv hs hloop
    exact ⟨hs.congr_shape (hb.sameShape hp),
      hst.bumped_stats hs.live hp (fun p i hex => by cases hex) hb⟩
  · obtain ⟨c, j, n, cur0, nn, act, lnk, newState, hcur, hc, hj, hact, hl, hnext, hn, hnn, rfl⟩ :=
      expansion_inv hexp
    simp only at hc hnn hloop
    have hs2 := hs.expand_shape hst newState hc hj hl hn hnn
    have hst2 := hst.expand_stats hs newState hc hj hl hn hnn
    obtain ⟨a, path, ha, hp, hb, _, _⟩ := backpropLoop_inv hs2 hloop
    cases ha
    obtain ⟨_, _, _, _, hnlt, hnew, _⟩ := expand_setup hs hst hc hj hl hn hnn
    have hel : (expandedNode G nn newState c j).availableLinks = [] := by rw [hnew]; rfl
    have hcell := cellAt_expand_new (G := G) (c := c) (f := flaggedNode ρ.shuffle cur0)
      (k := (G.getActions newState).length) hnlt hel
    refine ⟨hs2.congr_shape (hb.sameShape hp), hst2.bumped_stats hs2.live hp ?_ hb⟩
    intro p i hex
    cases hex
    cases hp with
    | stop hx hnull =>
      rw [hcell] at hx
      cases hx
      cases hnull
    | step hx hprev hact1 _ _ _ _ _ =>
      rw [hcell] at hx
      cases hx
      cases hprev
      cases hact1
      exact List.mem_cons_self _ _

/-- Every session satisfies the shape invariant and the invariant on the
statistics. -/
theorem Reachable.invariants {G : Game S A} {initState : S} {g : currentGame S A}
    (h : Reachable G initState g) : Shape G g.mem ∧ Stats none g.mem := by
  induction h with
  | init hinit =>
    rw [initializeRoot_construct] at hinit
    cases hinit
    exact init_invariants G initState
  | game _ hgame ih => exact playOneGame_invariants ih.1 ih.2 hgame

end GameInvariants

end MCTS

/-! ## Selection and simulation under the callback contract -/

namespace MCTS

section SelectionProgress

variable {S A : Type}

/-- Once `maxInd` is assigned the scan of `selection` returns an index. -/
theorem selectionScan_some (G : Game S A) (mem : List (Option (node S A))) (par : node S A) :
    ∀ (links : List link) (mv : Dbl) (j c : Nat),
      (∀ l ∈ links, readNode mem l.parentState = .ok par) →
      ∃ k, selectionScan G mem links mv (some j) c = .ok (some k) ∧
        (k = j ∨ (c ≤ k ∧ k < c + links.length)) := by
  intro links
  induction links with
  | nil => intro mv j c _; exact ⟨j, rfl, Or.inl rfl⟩
  | cons h t ih =>
    intro mv j c hpar
    have hh := hpar h (List.mem_cons_self _ _)
    have ht : ∀ l ∈ t, readNode mem l.parentState = .ok par :=
      fun l hl => hpar l (List.mem_cons_of_mem _ hl)
    simp only [selectionScan, hh]
    split
    · obtain ⟨k, hk, hb⟩ := ih (G.selectionEvaluation h.totReward h.nTotal par.nVisits) c (c + 1) ht
      refine ⟨k, hk, Or.inr ?_⟩
      simp only [List.length_cons]
      omega
    · obtain ⟨k, hk, hb⟩ := ih mv j (c + 1) ht
      refine ⟨k, hk, ?_⟩
      simp only [List.length_cons]
      omega

/-- The scan of `selection` returns an index of the list when the score of
the first link is above the starting value. -/
theorem selectionScan_first (G : Game S A) (mem : List (Option (node S A))) (par : node S A)
    (h : link) (t : List link) (mv : Dbl) (c : Nat)
    (hpar : ∀ l ∈ h :: t, readNode mem l.parentState = .ok par)
    (hgt : (G.selectionEvaluation h.totReward h.nTotal par.nVisits).gt mv = true) :
    ∃ k, selectionScan G mem (h :: t) mv none c = .ok (some k) ∧ c ≤ k ∧
      k < c + (h :: t).length := by
  have hh := hpar h (List.mem_cons_self _ _)
  have ht : ∀ l ∈ t, readNode mem l.parentState = .ok par :=
    fun l hl => hpar l (List.mem_cons_of_mem _ hl)
  simp only [selectionScan, hh, hgt, if_true]
  obtain ⟨k, hk, hb⟩ := selectionScan_some G mem par t
    (G.selectionEvaluation h.totReward h.nTotal par.nVisits) c (c + 1) ht
  refine ⟨k, hk, ?_⟩
  simp only [List.length_cons]
  omega

/-- Under the contract, `selection` from a node of a session ends at a node
that was given a state and that is not fully expanded or is terminal; it
stays where it starts when that node is not fully expanded. -/
theorem selectionLoop_progress {G : Game S A} {okS : S → Prop} {μ : S → Nat}
    (hc : Contract G okS μ) {mem : List (Option (node S A))} (hs : Shape G mem)
    (hst : Stats none mem) (hbd : Bounded mem) :
    ∀ (fuel a : Nat) (nd : node S A), cellAt mem a = some nd → nd.prevNode ≠ .wild →
      mem.length ≤ a + fuel →
      ∃ c cn, selectionLoop G mem fuel (.addr a) = .ok (.addr c) ∧ cellAt mem c = some cn ∧
        cn.prevNode ≠ .wild ∧
        (cn.allActionsTried = false ∨ G.isTerminal cn.gameState = true) ∧
        (nd.allActionsTried = false → c = a) := by
  intro fuel
  induction fuel with
  | zero =>
    intro a nd hx _ hlen
    have := cellAt_lt hx
    omega
  | succ f ih =>
    intro a nd hx hw hlen
    simp only [selectionLoop, readNode, hx]
    cases hf : nd.allActionsTried with
    | false => exact ⟨a, nd, by simp, hx, hw, Or.inl hf, fun _ => rfl⟩
    | true =>
      obtain ⟨hne, hall⟩ := hst.flag_tried a nd hx hf
      have hpar : ∀ l ∈ nd.availableLinks, readNode mem l.parentState = .ok nd := by
        intro l hl
        obtain ⟨i, hi⟩ := List.getElem?_of_mem hl
        rw [(hs.link_up a nd i l hx hi).1]
        exact readNode_of_cellAt hx
      match hlinks : nd.availableLinks, hne with
      | h :: t, _ =>
        have hhm : h ∈ nd.availableLinks := by rw [hlinks]; exact List.mem_cons_self _ _
        have hh0 : nd.availableLinks[0]? = some h := by rw [hlinks]; simp
        have h1 : 1 ≤ h.nTotal := hall 0 h hh0 (by simp)
        have h2 : h.nTotal ≤ nd.nVisits := hst.le_visits a nd h hx hhm
        have hgt := hc.score_ok h.totReward h.nTotal nd.nVisits h1 (by omega) (hbd a nd h hx hhm)
        obtain ⟨k, hk, _, hkl⟩ := selectionScan_first G mem nd h t _ 0
          (by rw [← hlinks]; exact hpar) hgt
        simp only [if_true, hk]
        have hklt : k < nd.availableLinks.length := by rw [hlinks]; omega
        rw [← hlinks, List.getElem?_eq_getElem hklt]
        simp only
        have hlk : nd.availableLinks[k]? = some nd.availableLinks[k] :=
          List.getElem?_eq_getElem hklt
        obtain ⟨_, c, hcn, hac, hcl⟩ := hs.link_up a nd k _ hx hlk
        obtain ⟨cn, hcell⟩ := hs.live c hcl
        have hcw : cn.prevNode ≠ .wild :=
          (hst.tried_iff a nd k _ c cn hx hlk hcn hcell (by simp)).1 (hall k _ hlk (by simp))
        rw [hcn]
        simp only [readNode, hcell]
        cases hterm : G.isTerminal cn.gameState with
        | true =>
          exact ⟨c, cn, by simp, hcell, hcw, Or.inr hterm, fun h => by cases h⟩
        | false =>
          obtain ⟨c1, cn1, h1, h2, h3, h4, _⟩ := ih c cn hcell hcw (by omega)
          exact ⟨c1, cn1, by simpa using h1, h2, h3, h4, fun h => by cases h⟩

/-- Under the contract a simulation from a state of the game ends, within
`μ s + 1` passes, at a state of the game. -/
theorem simulationLoop_progress {G : Game S A} {okS : S → Prop} {μ : S → Nat}
    (hc : Contract G okS μ) (draws : Nat → Nat) :
    ∀ (fuel k : Nat) (s : S), okS s → μ s < fuel →
      ∃ t, simulationLoop G draws fuel k s = .ok t ∧ okS t ∧ G.isTerminal t = true := by
  intro fuel
  induction fuel with
  | zero => intro k s _ h; omega
  | succ f ih =>
    intro k s hok hlt
    simp only [simulationLoop]
    cases hterm : G.isTerminal s with
    | true => exact ⟨s, by simp, hok, hterm⟩
    | false =>
      obtain ⟨s1, hs1, hok1, hμ⟩ := hc.policy_ok (draws k) s hok hterm
      simp only [Bool.false_eq_true, if_false, hs1]
      exact ih (k + 1) s1 hok1 (by omega)

end SelectionProgress

end MCTS

/-! ## The invariants under the callback contract -/

namespace MCTS

section ContractInvariants

variable {S A : Type}

/-- `expansion` keeps the invariant on game states. -/
theorem StateInv.expand_states {G : Game S A} {okS : S → Prop} {μ : S → Nat} {μ0 : Nat}
    (hcon : Contract G okS μ) {mem : List (Option (node S A))}
    (hsi : StateInv G okS μ μ0 mem) (hs : Shape G mem) (hst : Stats none mem)
    {r c j n : Nat} {cur nn : node S A} {lnk : link} {act : A} {newState : S}
    (hc : cellAt mem c = some cur)
    (hj : (random_shuffle r (unTriedOf cur.availableLinks))[0]? = some j)
    (hact : cur.availableActions[j]? = some act)
    (hl : cur.availableLinks[j]? = some lnk)
    (hnext : G.getNextState cur.gameState act = .ok newState)
    (hn : lnk.nextState = .addr n)
    (hnn : cellAt (writeNode mem c (flaggedNode r cur)) n = some nn) :
    StateInv G okS μ μ0 (grow G (writeNode mem c (flaggedNode r cur)) n
      (expandedNode G nn newState c j) (G.getActions newState).length) := by
  obtain ⟨hz, hflag, hw, hcn, hnlt, hnew, hnn1⟩ := expand_setup hs hst hc hj hl hn hnn
  have hcl : c < mem.length := cellAt_lt hc
  have hel : (expandedNode G nn newState c j).availableLinks = [] := by rw [hnew]; rfl
  obtain ⟨hokc, hactsc, hμc⟩ := hsi.state_ok c cur hc hw
  have hnew_ok : okS newState ∧ μ newState ≤ μ0 := by
    have hmem : act ∈ G.getActions cur.gameState := by
      rw [← hactsc]; exact List.getElem?_mem hact
    obtain ⟨s1, hs1, hok1, hμ1⟩ := hcon.next_ok cur.gameState act hokc hmem
    rw [hnext] at hs1
    cases hs1
    exact ⟨hok1, by omega⟩
  constructor
  · intro a y hy hyw
    rcases expand_cases hcl hnlt hel hy with ⟨_, rfl⟩ | ⟨_, rfl⟩ | ⟨_, _, hold⟩ | ⟨_, _, _, _, rfl⟩
    · exact ⟨hnew_ok.1, rfl, hnew_ok.2⟩
    · rw [flaggedNode_state, flaggedNode_actions]
      exact ⟨hokc, hactsc, hμc⟩
    · exact hsi.state_ok a y hold hyw
    · exact absurd rfl hyw
  · intro p par i l c1 cn act1 hpar hli hnx hcn1 hcw hact1
    rcases expand_cases hcl hnlt hel hpar with ⟨rfl, rfl⟩ | ⟨rfl, rfl⟩ | ⟨hpn, hpc, hold⟩ |
      ⟨_, _, _, _, rfl⟩
    · obtain ⟨hik, rfl⟩ := freshLinks_get hli
      simp only [Ptr.addr.injEq] at hnx
      subst hnx
      rcases expand_cases hcl hnlt hel hcn1 with ⟨h1, _⟩ | ⟨h1, _⟩ | ⟨_, _, h1⟩ | ⟨_, _, _, _, rfl⟩
      · omega
      · omega
      · have := cellAt_lt h1
        omega
      · exact absurd rfl hcw
    · rw [flaggedNode_links] at hli
      rw [flaggedNode_actions] at hact1
      rw [flaggedNode_state]
      obtain ⟨_, c2, hc2, hpc2, hc2l⟩ := hs.link_up p cur i l hc hli
      rw [hnx] at hc2
      cases hc2
      rcases expand_cases hcl hnlt hel hcn1 with ⟨rfl, rfl⟩ | ⟨h1, _⟩ | ⟨_, _, h1⟩ | ⟨_, _, h1, _⟩
      · have hij := (hs.link_inj p cur i l p cur j lnk hc hli hc hl (by rw [hnx, hn])).2
        subst hij
        rw [hact] at hact1
        cases hact1
        exact hnext
      · omega
      · exact hsi.child_state p cur i l c1 cn act1 hc hli hnx h1 hcw hact1
      · omega
    · obtain ⟨_, c2, hc2, hpc2, hc2l⟩ := hs.link_up p par i l hold hli
      rw [hnx] at hc2
      cases hc2
      rcases expand_cases hcl hnlt hel hcn1 with ⟨rfl, _⟩ | ⟨rfl, rfl⟩ | ⟨_, _, h1⟩ | ⟨_, _, h1, _⟩
      · exact absurd (hs.link_inj p par i l c cur j lnk hold hli hc hl (by rw [hnx, hn])).1 hpc
      · rw [flaggedNode_state]
        exact hsi.child_state p par i l c1 cur act1 hold hli hnx hc hw hact1
      · exact hsi.child_state p par i l c1 cn act1 hold hli hnx h1 hcw hact1
      · omega
    · simp [newNode] at hli

/-- Under the contract a simulation that ends, ends at a state of the game. -/
theorem simulationLoop_ok {G : Game S A} {okS : S → Prop} {μ : S → Nat}
    (hc : Contract G okS μ) (draws : Nat → Nat) :
    ∀ (fuel k : Nat) (s t : S), okS s → simulationLoop G draws fuel k s = .ok t → okS t := by
  intro fuel
  induction fuel with
  | zero => intro k s t _ h; simp [simulationLoop] at h
  | succ f ih =>
    intro k s t hok h
    simp only [simulationLoop] at h
    cases hterm : G.isTerminal s with
    | true =>
      simp only [hterm, if_true, Except.ok.injEq] at h
      rw [← h]; exact hok
    | false =>
      obtain ⟨s1, hs1, hok1, _⟩ := hc.policy_ok (draws k) s hok hterm
      simp only [hterm, Bool.false_eq_true, if_false, hs1] at h
      exact ih (k + 1) s1 t hok1 h

/-- The invariants of the session after the set-up of the root, for an
initial state of the game. -/
theorem initialGame_good {G : Game S A} {okS : S → Prop} {μ : S → Nat} (initState : S)
    (players : Int) (hok : okS initState) :
    Good G okS μ (μ initState) (initialGame G initState players) := by
  have hn : 0 < [some (constructedRoot (A := A) initState)].length := by simp
  have hil : (initialRoot G initState).availableLinks = [] := rfl
  refine ⟨(init_invariants G initState).1, (init_invariants G initState).2, ?_, ?_⟩
  · constructor
    · intro a y hy hw
      rcases grow_cases hn hil hy with ⟨_, rfl⟩ | ⟨h1, h2, _⟩ | ⟨_, _, _, rfl⟩
      · exact ⟨hok, rfl, le_refl _⟩
      · simp only [List.length_singleton] at h2
        omega
      · exact absurd rfl hw
    · intro p par i l c cn act hpar hli hnx hcn hw _
      rcases grow_cases hn hil hpar with ⟨_, rfl⟩ | ⟨h1, h2, _⟩ | ⟨_, _, _, rfl⟩
      · obtain ⟨_, rfl⟩ := freshLinks_get hli
        simp only [Ptr.addr.injEq] at hnx
        subst hnx
        rcases grow_cases hn hil hcn with ⟨h1, _⟩ | ⟨_, h1, _⟩ | ⟨_, _, _, rfl⟩
        · simp only [List.length_singleton] at h1
          omega
        · simp only [List.length_singleton] at h1
          omega
        · exact absurd rfl hw
      · simp only [List.length_singleton] at h2
        omega
      · simp [newNode] at hli
  · intro p y l hy hmem
    rcases grow_cases hn hil hy with ⟨_, rfl⟩ | ⟨h1, h2, _⟩ | ⟨_, _, _, rfl⟩
    · obtain ⟨h1, h2⟩ := freshLinks_nTotal hmem
      rw [h1, h2]
      simp
    · simp only [List.length_singleton] at h2
      omega
    · simp [newNode] at hmem

/-- Under the contract one game keeps the invariants of a session. -/
theorem playOneGame_good {G : Game S A} {okS : S → Prop} {μ : S → Nat} {μ0 : Nat}
    (hcon : Contract G okS μ) {fuel : Nat} {ρ : Rand} {g g1 : currentGame S A}
    (hg : Good G okS μ μ0 g) (h : playOneGame G fuel ρ g = .ok g1) :
    Good G okS μ μ0 g1 := by
  obtain ⟨hs1, hst1⟩ := playOneGame_invariants hg.shape hg.stats h
  obtain ⟨g3, mem1, cur1, hbefore, hloop, rfl⟩ := playOneGame_inv h
  obtain ⟨cur, nd, _, hread, hcase⟩ := playBeforeBackprop_inv hbefore
  rcases hcase with ⟨_, rfl⟩ | ⟨_, g2, nd2, s, hexp, hread2, hsim, rfl⟩
  · obtain ⟨a, path, ha, hp, hb, _, _⟩ := backpropLoop_inv hg.shape hloop
    simp only at ha
    subst ha
    obtain ⟨nd1, hnd1, hw⟩ := hp.start_set
    rw [readNode_of_cellAt hnd1] at hread
    cases hread
    have hok := (hg.states.state_ok a nd hnd1 hw).1
    exact ⟨hs1, hst1, hg.states.congr_states hg.shape.live (hb.sameShape hp),
      hg.bounded.bumped_bounded hg.shape.live hp (fun r hr => hcon.rewards_le _ r hok hr) hb⟩
  · obtain ⟨c, j, n, cur0, nn, act, lnk, newState, hcur, hc, hj, hact, hl, hnext, hn, hnn, rfl⟩ :=
      expansion_inv hexp
    simp only at hc hnn hloop hread2
    have hs2 := hg.shape.expand_shape hg.stats newState hc hj hl hn hnn
    have hsi2 := hg.states.expand_states hcon hg.shape hg.stats hc hj hact hl hnext hn hnn
    obtain ⟨_, _, _, _, hnlt, hnew, _⟩ := expand_setup hg.shape hg.stats hc hj hl hn hnn
    have hel : (expandedNode G nn newState c j).availableLinks = [] := by rw [hnew]; rfl
    have hbd2 : Bounded (grow G (writeNode g.mem c (flaggedNode ρ.shuffle cur0)) n
        (expandedNode G nn newState c j) (G.getActions newState).length) :=
      hg.bounded.expand_bounded hc hnlt hel
    have hcell := cellAt_expand_new (G := G) (c := c) (f := flaggedNode ρ.shuffle cur0)
      (k := (G.getActions newState).length) hnlt hel
    rw [readNode_of_cellAt hcell] at hread2
    cases hread2
    have hoks : okS s := by
      refine simulationLoop_ok hcon ρ.draws fuel 0 _ s ?_ hsim
      exact (hsi2.state_ok n _ hcell (by simp [expandedNode])).1
    obtain ⟨a, path, ha, hp, hb, _, _⟩ := backpropLoop_inv hs2 hloop
    exact ⟨hs1, hst1, hsi2.congr_states hs2.live (hb.sameShape hp),
      hbd2.bumped_bounded hs2.live hp (fun r hr => hcon.rewards_le _ r hoks hr) hb⟩

end ContractInvariants

end MCTS

/-! ## Every game of a session ends -/

namespace MCTS

section GameProgress

variable {S A : Type}

/-- Under the contract `backpropagation` from a node that was given a state
ends at the root. -/
theorem backpropLoop_progress {G : Game S A} {okS : S → Prop} {μ : S → Nat} {μ0 : Nat}
    (hcon : Contract G okS μ) {mem : List (Option (node S A))} (hs : Shape G mem)
    (hsi : StateInv G okS μ μ0 mem) {t : S} (hok : okS t) {a : Nat} {nd : node S A}
    (hx : cellAt mem a = some nd) (hw : nd.prevNode ≠ .wild) :
    ∃ mem1, backpropLoop G (G.assignRewards t) (mem.length + 1) mem (.addr a) =
      .ok (mem1, .addr 0) := by
  obtain ⟨path, hp⟩ := hs.pathUp a nd hx hw
  have hval : ∀ q j nd1, (q, j) ∈ path → cellAt mem q = some nd1 →
      G.plyrsGo nd1.gameState < (G.assignRewards t).length := by
    intro q j nd1 hq hnd1
    obtain ⟨_, _, par, _, _, _, _, hpar, hparw, _, _⟩ := hp.mem_info q j hq
    rw [hnd1] at hpar
    cases hpar
    exact hcon.rewards_len _ _ (hsi.state_ok q nd1 hnd1 hparw).1 hok
  have hlen : path.length < mem.length + 1 := by
    have := hp.length_le
    have := cellAt_lt hx
    omega
  obtain ⟨mem1, e, hloop, _, ⟨en, hen, henull⟩, _, _⟩ :=
    backpropLoop_spec G (G.assignRewards t) path mem a hp hval _ hlen
  have := hs.null_root hen henull
  subst this
  exact ⟨mem1, hloop⟩

theorem backpropagation_of_loop {G : Game S A} {g : currentGame S A}
    {mem1 : List (Option (node S A))} {cur1 : Ptr}
    (h : backpropLoop G g.gameRewards (g.mem.length + 1) g.mem g.currentNode = .ok (mem1, cur1)) :
    backpropagation G g = .ok { g with mem := mem1, currentNode := cur1 } := by
  unfold backpropagation
  rw [h]

/-- Under the contract `expansion` at a node of a session that is neither
terminal nor fully expanded succeeds. -/
theorem expansion_progress {G : Game S A} {okS : S → Prop} {μ : S → Nat} {μ0 : Nat}
    (hcon : Contract G okS μ) {g : currentGame S A} (hg : Good G okS μ μ0 g) {c : Nat}
    {cur : node S A} (hcur : g.currentNode = .addr c) (hc : cellAt g.mem c = some cur)
    (hw : cur.prevNode ≠ .wild) (hflag : cur.allActionsTried = false)
    (hterm : G.isTerminal cur.gameState = false) (r : Nat) :
    ∃ g2, expansion G r g = .ok g2 := by
  obtain ⟨hokc, hacts, _⟩ := hg.states.state_ok c cur hc hw
  have hane := hcon.actions_nonempty cur.gameState hokc hterm
  have hlen := hg.shape.acts_len c cur hc
  have hlne : cur.availableLinks ≠ [] := by
    intro h
    rw [h, hacts] at hlen
    exact hane (List.length_eq_zero.1 hlen.symm)
  obtain ⟨i, l, hli, hz, _⟩ := hg.stats.flag_untried c cur hc hflag hlne
  have hUne : unTriedOf cur.availableLinks ≠ [] :=
    List.ne_nil_of_mem (mem_unTriedOf.2 ⟨l, hli, hz⟩)
  obtain ⟨j, hj⟩ := random_shuffle_head_exists r hUne
  obtain ⟨lnk, hl, _⟩ := mem_unTriedOf.1 (random_shuffle_head hj)
  have hjlt : j < cur.availableLinks.length := by
    by_contra hc0
    rw [List.getElem?_eq_none (by omega)] at hl
    cases hl
  have hact : cur.availableActions[j]? = some cur.availableActions[j] :=
    List.getElem?_eq_getElem (by omega)
  have hmem : cur.availableActions[j] ∈ G.getActions cur.gameState := by
    rw [← hacts]; exact List.getElem?_mem hact
  obtain ⟨newState, hnext, _, _⟩ := hcon.next_ok cur.gameState _ hokc hmem
  obtain ⟨_, n, hn, hcn, hnlt⟩ := hg.shape.link_up c cur j lnk hc hl
  obtain ⟨nn, hnn⟩ := hg.shape.live n hnlt
  have hnn1 : cellAt (writeNode g.mem c (flaggedNode r cur)) n = some nn := by
    rw [cellAt_write, if_neg (by omega)]
    exact hnn
  have hnlt1 : n < (writeNode g.mem c (flaggedNode r cur)).length := by
    rw [length_writeNode]; exact hnlt
  have hpush := pushLinks_grow G (writeNode g.mem c (flaggedNode r cur)) n
    (expandedNode G nn newState c j) (G.getActions newState).length hnlt1
  have hfl : (if (random_shuffle r (unTriedOf cur.availableLinks)).length = 1 then
      { cur with allActionsTried := true } else cur) = flaggedNode r cur := rfl
  unfold expandedNode at hpush
  unfold expansion
  simp only [hcur, readNode, hc, hfl, hj, flaggedNode_actions, flaggedNode_links,
    flaggedNode_state, hact, hl, hnext, hn, hnn1, hpush]
  exact ⟨_, rfl⟩

/-- Under the contract every game of a session ends normally, provided the
bound on the length of a simulation exceeds the measure of the states. -/
theorem playOneGame_progress {G : Game S A} {okS : S → Prop} {μ : S → Nat} {μ0 : Nat}
    (hcon : Contract G okS μ) {g : currentGame S A} (hg : Good G okS μ μ0 g) {fuel : Nat}
    (hfuel : μ0 < fuel) (ρ : Rand) : ∃ g1, playOneGame G fuel ρ g = .ok g1 := by
  obtain ⟨rt, hrt, hnull⟩ := hg.shape.root
  obtain ⟨c, cn, hsel, hcell, hcw, hcase, _⟩ :=
    selectionLoop_progress hcon hg.shape hg.stats hg.bounded (g.mem.length + 1) 0 rt hrt
      (by rw [hnull]; simp) (by omega)
  unfold playOneGame playBeforeBackprop selection
  simp only [hsel, readNode, hcell]
  cases hterm : G.isTerminal cn.gameState with
  | true =>
    simp only [Bool.not_true, Bool.false_eq_true, if_false]
    have hok := (hg.states.state_ok c cn hcell hcw).1
    obtain ⟨mem1, hloop⟩ := backpropLoop_progress hcon hg.shape hg.states hok hcell hcw
    exact ⟨_, backpropagation_of_loop hloop⟩
  | false =>
    have hflag : cn.allActionsTried = false := by
      rcases hcase with h | h
      · exact h
      · rw [hterm] at h; cases h
    simp only [Bool.not_false, if_true]
    have hg' : Good G okS μ μ0 { g with currentNode := Ptr.addr c } :=
      ⟨hg.shape, hg.stats, hg.states, hg.bounded⟩
    obtain ⟨g2, hexp⟩ := expansion_progress hcon hg' rfl hcell hcw hflag hterm ρ.shuffle
    simp only [hexp]
    obtain ⟨c1, j, n, cur0, nn, act, lnk, newState, hcur, hc, hj, hact, hl, hnext, hn, hnn, rfl⟩ :=
      expansion_inv hexp
    simp only at hc hnn hcur
    have hs2 := hg.shape.expand_shape hg.stats newState hc hj hl hn hnn
    have hsi2 := hg.states.expand_states hcon hg.shape hg.stats hc hj hact hl hnext hn hnn
    obtain ⟨_, _, _, _, hnlt, hnew, _⟩ := expand_setup hg.shape hg.stats hc hj hl hn hnn
    have hel : (expandedNode G nn newState c1 j).availableLinks = [] := by rw [hnew]; rfl
    have hcelln := cellAt_expand_new (G := G) (c := c1) (f := flaggedNode ρ.shuffle cur0)
      (k := (G.getActions newState).length) hnlt hel
    obtain ⟨hokn, _, hμn⟩ := hsi2.state_ok n _ hcelln (by simp [expandedNode])
    obtain ⟨s, hsim, hoks, _⟩ := simulationLoop_progress hcon ρ.draws fuel 0 newState hokn
      (by simp only [expandedNode] at hμn; omega)
    have hsim1 : simulationLoop G ρ.draws fuel 0 (expandedNode G nn newState c1 j).gameState =
        .ok s := hsim
    unfold finishSimulation
    dsimp only
    simp only [readNode, hcelln, hsim1]
    obtain ⟨mem1, hloop⟩ := backpropLoop_progress hcon hs2 hsi2 hoks hcelln
      (by simp [expandedNode])
    exact ⟨_, backpropagation_of_loop hloop⟩

/-- Under the contract every session built from an initial state of the game
satisfies the invariants. -/
theorem Reachable.good {G : Game S A} {okS : S → Prop} {μ : S → Nat}
    (hcon : Contract G okS μ) {initState : S} (hok : okS initState) {g : currentGame S A}
    (h : Reachable G initState g) : Good G okS μ (μ initState) g := by
  induction h with
  | init hinit =>
    rw [initializeRoot_construct] at hinit
    cases hinit
    exact initialGame_good initState _ hok
  | game _ hgame ih => exact playOneGame_good hcon ih hgame

end GameProgress

end MCTS

/-! ## Tic-tac-toe keeps the callback contract -/

namespace MCTS

namespace TicTacToe

theorem mem_getActions {s : gameState} {a : gameAction} :
    a ∈ getActions s ↔ ∃ (i j : Fin 3), s.board i j = 0 ∧ a = { ind1 := i.val, ind2 := j.val } := by
  unfold getActions idx3
  simp only [List.mem_flatMap, List.mem_filterMap]
  constructor
  · rintro ⟨i, _, j, _, h⟩
    by_cases hb : s.board i j = 0
    · simp only [hb, if_true, Option.some.injEq] at h
      exact ⟨i, j, hb, h.symm⟩
    · simp [hb] at h
  · rintro ⟨i, j, hb, rfl⟩
    refine ⟨i, ?_, j, ?_, by simp [hb]⟩
    · fin_cases i <;> simp
    · fin_cases j <;> simp

theorem isTerminal_of_full {s : gameState} (h : ∀ i j, 1 ≤ s.board i j) : isTerminal s = true := by
  unfold isTerminal
  have hpos : 0 < (idx3.flatMap (fun i => idx3.map (fun j => s.board i j))).foldl (· * ·) 1 := by
    simp only [idx3, List.flatMap_cons, List.flatMap_nil, List.map_cons, List.map_nil,
      List.append_nil, List.cons_append, List.nil_append, List.foldl_cons, List.foldl_nil, one_mul]
    have h00 := h 0 0; have h01 := h 0 1; have h02 := h 0 2
    have h10 := h 1 0; have h11 := h 1 1; have h12 := h 1 2
    have h20 := h 2 0; have h21 := h 2 1; have h22 := h 2 2
    positivity
  simp [hpos]

theorem getActions_ne_nil {s : gameState} (hv : validState s) (ht : isTerminal s = false) :
    getActions s ≠ [] := by
  intro hnil
  have hfull : ∀ i j, 1 ≤ s.board i j := by
    intro i j
    rcases hv.2 i j with h | h | h
    · have : ({ ind1 := i.val, ind2 := j.val } : gameAction) ∈ getActions s :=
        mem_getActions.2 ⟨i, j, h, rfl⟩
      rw [hnil] at this
      cases this
    · omega
    · omega
  rw [isTerminal_of_full hfull] at ht
  cases ht

end TicTacToe

end MCTS

namespace MCTS

namespace TicTacToe

theorem length_row (p : Fin 3 → Prop) [DecidablePred p] (f : Fin 3 → gameAction) :
    (idx3.filterMap (fun j => if p j then some (f j) else none)).length =
      (if p 0 then 1 else 0) + (if p 1 then 1 else 0) + (if p 2 then 1 else 0) := by
  unfold idx3
  by_cases h0 : p 0 <;> by_cases h1 : p 1 <;> by_cases h2 : p 2 <;>
    simp [List.filterMap_cons, h0, h1, h2]

/-- The number of free cells, cell by cell. -/
theorem freeCells_eq (s : gameState) :
    freeCells s =
      ((if s.board 0 0 = 0 then 1 else 0) + (if s.board 0 1 = 0 then 1 else 0) +
        (if s.board 0 2 = 0 then 1 else 0)) +
      ((if s.board 1 0 = 0 then 1 else 0) + (if s.board 1 1 = 0 then 1 else 0) +
        (if s.board 1 2 = 0 then 1 else 0)) +
      ((if s.board 2 0 = 0 then 1 else 0) + (if s.board 2 1 = 0 then 1 else 0) +
        (if s.board 2 2 = 0 then 1 else 0)) := by
  unfold freeCells getActions idx3
  have hrow : ∀ i : Fin 3, (([0, 1, 2] : List (Fin 3)).filterMap (fun j =>
      if s.board i j = 0 then some ({ ind1 := i.val, ind2 := j.val } : gameAction) else none)).length
      = (if s.board i 0 = 0 then 1 else 0) + (if s.board i 1 = 0 then 1 else 0) +
        (if s.board i 2 = 0 then 1 else 0) :=
    fun i => length_row (fun j => s.board i j = 0) (fun j => { ind1 := i.val, ind2 := j.val })
  simp only [List.flatMap_cons, List.flatMap_nil, List.append_nil, List.length_append, hrow]
  omega

/-- Playing on a free cell: the next state exists, is a state of the game and
has one free cell less. -/
theorem getNextState_free {s : gameState} (hv : validState s) {i j : Fin 3}
    (hfree : s.board i j = 0) :
    ∃ s1, getNextState s { ind1 := i.val, ind2 := j.val } = .ok s1 ∧ validState s1 ∧
      freeCells s1 + 1 = freeCells s := by
  have hij : i.val < 3 ∧ j.val < 3 := ⟨i.isLt, j.isLt⟩
  unfold getNextState
  simp only [hij, and_self, dite_true]
  refine ⟨_, rfl, ?_, ?_⟩
  · refine ⟨?_, ?_⟩
    · simp only
      split <;> omega
    · intro a b
      simp only
      split
      · have := hv.1
        omega
      · exact hv.2 a b
  · have hp := hv.1
    rw [freeCells_eq, freeCells_eq]
    simp only [Fin.eta]
    have hne : ¬ ((s.plyrsGo : Int) + 1 = 0) := by omega
    fin_cases i <;> fin_cases j <;> simp at hfree ⊢ <;> simp [hfree, hne] <;> omega

end TicTacToe

end MCTS

namespace MCTS

namespace TicTacToe

theorem rewardsFor_length (cell : Int) : (rewardsFor cell).length = 2 := by
  simp [rewardsFor]

theorem rewardsFor_le (cell : Int) {x : ℚ} (h : x ∈ rewardsFor cell) : |x| ≤ 1 := by
  unfold rewardsFor at h
  rcases List.mem_or_eq_of_mem_set h with h | rfl
  · rcases List.mem_or_eq_of_mem_set h with h | rfl
    · simp only [List.mem_cons, List.mem_singleton, List.mem_nil_iff, or_false, or_self] at h
      subst h
      simp
    · simp
  · simp

theorem lineRewards_some {s : gameState} :
    ∀ (is : List (Fin 3)) (r : List ℚ), lineRewards s is = some r → ∃ cell, r = rewardsFor cell := by
  intro is
  induction is with
  | nil => intro r h; simp [lineRewards] at h
  | cons i rest ih =>
    intro r h
    unfold lineRewards at h
    split at h
    · exact ⟨_, by simpa using h.symm⟩
    · split at h
      · exact ⟨_, by simpa using h.symm⟩
      · exact ih r h

theorem assignRewards_cases (s : gameState) :
    (∃ cell, assignRewards s = rewardsFor cell) ∨ assignRewards s = [0, 0] := by
  unfold assignRewards
  cases h : lineRewards s idx3 with
  | some r =>
    obtain ⟨cell, rfl⟩ := lineRewards_some idx3 r h
    exact Or.inl ⟨cell, rfl⟩
  | none =>
    simp only
    split
    · exact Or.inl ⟨_, rfl⟩
    · exact Or.inr rfl

theorem assignRewards_length (s : gameState) : (assignRewards s).length = 2 := by
  rcases assignRewards_cases s with ⟨cell, h⟩ | h
  · rw [h]; exact rewardsFor_length cell
  · rw [h]; rfl

theorem assignRewards_le (s : gameState) {x : ℚ} (h : x ∈ assignRewards s) : |x| ≤ 1 := by
  rcases assignRewards_cases s with ⟨cell, hc⟩ | hc
  · rw [hc] at h; exact rewardsFor_le cell h
  · rw [hc] at h
    simp only [List.mem_cons, List.mem_singleton, List.mem_nil_iff, or_false, or_self] at h
    subst h
    simp

/-- Tic-tac-toe with a UCB1 score keeps the callback contract; the measure is
the number of free cells. -/
theorem contract (explore : Int → Int → Dbl) (hex : validExplore explore) :
    Contract (game explore) validState freeCells := by
  constructor
  · intro s hv ht
    exact getActions_ne_nil hv ht
  · intro s a hv ha
    obtain ⟨i, j, hfree, rfl⟩ := mem_getActions.1 ha
    obtain ⟨s1, h1, h2, h3⟩ := getNextState_free hv hfree
    exact ⟨s1, h1, h2, by omega⟩
  · intro r s hv ht
    have hne : getActions s ≠ [] := getActions_ne_nil hv ht
    have hlen : 0 < (getActions s).length := List.length_pos.2 hne
    have hidx : r % (getActions s).length < (getActions s).length := Nat.mod_lt _ hlen
    have hget : (getActions s)[r % (getActions s).length]? =
        some (getActions s)[r % (getActions s).length] := List.getElem?_eq_getElem hidx
    obtain ⟨i, j, hfree, ha⟩ := mem_getActions.1 (List.getElem?_mem hget)
    obtain ⟨s1, h1, h2, h3⟩ := getNextState_free hv hfree
    refine ⟨s1, ?_, h2, by omega⟩
    show defaultPolicy r s (getActions s) = .ok s1
    unfold defaultPolicy
    rw [hget]
    simp only
    rw [ha]
    exact h1
  · intro s t hv _
    show s.plyrsGo < (assignRewards t).length
    rw [assignRewards_length]
    have := hv.1
    omega
  · intro t x _ hx
    exact assignRewards_le t hx
  · intro r nj nTot hnj hnTot hr
    show (selectionEvaluation explore r nj nTot).gt (.fin (-99999999999)) = true
    obtain ⟨q, hq, hexp⟩ := hex nTot nj hnj hnTot
    unfold selectionEvaluation
    rw [divInt_of_pos _ _ hnj, hexp]
    simp only [Dbl.add, Dbl.gt, decide_eq_true_eq]
    have hpos : (0 : ℚ) < (nj : ℚ) := by exact_mod_cast (by omega : (0 : Int) < nj)
    have hge : -1 ≤ r / (nj : ℚ) := by
      rw [le_div_iff₀ hpos]
      have := neg_abs_le r
      linarith
    linarith

end TicTacToe

end MCTS

/-! ## The root node through one game -/

namespace MCTS

section RootLemmas

variable {S A : Type}

theorem unTriedOf_eq_nil {links : List link} :
    unTriedOf links = [] ↔ ∀ l ∈ links, l.nTotal ≠ 0 := by
  constructor
  · intro h l hl hz
    obtain ⟨i, hi⟩ := List.getElem?_of_mem hl
    have : i ∈ unTriedOf links := mem_unTriedOf.2 ⟨l, hi, hz⟩
    rw [h] at this
    cases this
  · intro h
    apply List.eq_nil_iff_forall_not_mem.2
    intro i hi
    obtain ⟨l, hl, hz⟩ := mem_unTriedOf.1 hi
    exact h l (List.getElem?_mem hl) hz

/-- Counting one game on an untried link removes it from the untried links. -/
theorem unTriedOf_set_tried {links : List link} {j : Nat} {l l1 : link}
    (hl : links[j]? = some l) (hz : l.nTotal = 0) (h1 : l1.nTotal ≠ 0) :
    (unTriedOf (links.set j l1)).length + 1 = (unTriedOf links).length := by
  have hjlt : j < links.length := by
    by_contra hc
    rw [List.getElem?_eq_none (by omega)] at hl
    cases hl
  have hmem : j ∈ unTriedOf links := mem_unTriedOf.2 ⟨l, hl, hz⟩
  have heq : unTriedOf (links.set j l1) = (unTriedOf links).erase j := by
    rw [(nodup_unTriedOf links).erase_eq_filter]
    unfold unTriedOf
    rw [List.length_set, List.filter_filter]
    apply List.filter_congr
    intro i hi
    simp only [List.mem_range] at hi
    by_cases hij : i = j
    · subst hij
      simp [List.getElem?_set_self hjlt, h1]
    · have hne : j ≠ i := fun h => hij h.symm
      simp [List.getElem?_set_ne hne, hij]
  rw [heq, List.length_erase_of_mem hmem]
  have := List.length_pos_of_mem hmem
  omega

/-- Counting one game on a link that was tried leaves the untried links as
they are. -/
theorem unTriedOf_set_same {links : List link} {j : Nat} {l l1 : link}
    (hl : links[j]? = some l) (hz : l.nTotal ≠ 0) (h1 : l1.nTotal ≠ 0) :
    unTriedOf (links.set j l1) = unTriedOf links := by
  have hjlt : j < links.length := by
    by_contra hc
    rw [List.getElem?_eq_none (by omega)] at hl
    cases hl
  unfold unTriedOf
  rw [List.length_set]
  apply List.filter_congr
  intro i hi
  by_cases hij : i = j
  · subst hij
    simp [List.getElem?_set_self hjlt, h1, hl, hz]
  · have hne : j ≠ i := fun h => hij h.symm
    simp [List.getElem?_set_ne hne]

end RootLemmas

end MCTS

namespace MCTS

section RootGame

variable {S A : Type}

theorem bump_links (r : ℚ) (j : Nat) (nd : node S A) {lj : link}
    (hj : nd.availableLinks[j]? = some lj) :
    (bump r j nd).availableLinks = nd.availableLinks.set j
      { lj with nTotal := lj.nTotal + 1, totReward := lj.totReward + r } := by
  rw [bump_of_link r j nd hj]

theorem bump_state (r : ℚ) (j : Nat) (nd : node S A) :
    (bump r j nd).gameState = nd.gameState := by
  unfold bump
  cases nd.availableLinks[j]? <;> rfl

/-- The untried links of a bumped node. -/
theorem unTriedOf_bump (r : ℚ) (j : Nat) (nd : node S A) {lj : link}
    (hj : nd.availableLinks[j]? = some lj) (h0 : 0 ≤ lj.nTotal) :
    (unTriedOf (bump r j nd).availableLinks).length =
      if lj.nTotal = 0 then (unTriedOf nd.availableLinks).length - 1
      else (unTriedOf nd.availableLinks).length := by
  rw [bump_links r j nd hj]
  have h1 : ({ lj with nTotal := lj.nTotal + 1, totReward := lj.totReward + r } : link).nTotal ≠ 0 := by
    simp only
    omega
  by_cases hz : lj.nTotal = 0
  · rw [if_pos hz]
    have := unTriedOf_set_tried hj hz h1
    omega
  · rw [if_neg hz, unTriedOf_set_same hj hz h1]

/-- Under the contract, one game from a session whose root is not terminal
ends normally, keeps the invariants and the state of the root, counts one
more visit of the root, and gives one more root link its first game when
some root link had none. -/
theorem playOneGame_root {G : Game S A} {okS : S → Prop} {μ : S → Nat} {μ0 : Nat}
    (hcon : Contract G okS μ) {g : currentGame S A} (hg : Good G okS μ μ0 g) {fuel : Nat}
    (hfuel : μ0 < fuel) (ρ : Rand) {rt : node S A} (hrt : cellAt g.mem 0 = some rt)
    (hterm : G.isTerminal rt.gameState = false) :
    ∃ g1 rt1, playOneGame G fuel ρ g = .ok g1 ∧ Good G okS μ μ0 g1 ∧
      cellAt g1.mem 0 = some rt1 ∧ rt1.gameState = rt.gameState ∧
      rt1.nVisits = rt.nVisits + 1 ∧
      (unTriedOf rt1.availableLinks).length = (unTriedOf rt.availableLinks).length - 1 := by
  obtain ⟨g1, h⟩ := playOneGame_progress hcon hg hfuel ρ
  have hg1 := playOneGame_good hcon hg h
  obtain ⟨rt0, hrt0, hnull⟩ := hg.shape.root
  rw [hrt] at hrt0
  cases hrt0
  obtain ⟨g3, mem1, cur1, hbefore, hloop, rfl⟩ := playOneGame_inv h
  obtain ⟨cur, nd, hselinv, hread, hcase⟩ := playBeforeBackprop_inv hbefore
  obtain ⟨c, cn, hsel, hcell, hcw, _, hstay⟩ :=
    selectionLoop_progress hcon hg.shape hg.stats hg.bounded (g.mem.length + 1) 0 rt hrt
      (by rw [hnull]; simp) (by omega)
  rw [hsel] at hselinv
  cases hselinv
  have hnd : cn = nd := by
    rw [readNode_of_cellAt hcell] at hread
    exact Except.ok.inj hread
  subst hnd
  -- the root has no untried link once selection leaves it
  have huntried : unTriedOf rt.availableLinks ≠ [] → c = 0 := by
    intro hne
    apply hstay
    cases hf : rt.allActionsTried with
    | false => rfl
    | true =>
      exfalso
      apply hne
      apply unTriedOf_eq_nil.2
      intro l hl
      obtain ⟨i, hi⟩ := List.getElem?_of_mem hl
      have := (hg.stats.flag_tried 0 rt hrt hf).2 i l hi (by simp)
      omega
  rcases hcase with ⟨hcterm, rfl⟩ | ⟨_, g2, nd2, s, hexp, _, _, rfl⟩
  · have hc0 : c ≠ 0 := by
      intro h0
      subst h0
      rw [hrt] at hcell
      cases hcell
      rw [hterm] at hcterm
      cases hcterm
    obtain ⟨a, path, ha, hp, hb, _, hnil⟩ := backpropLoop_inv hg.shape hloop
    cases ha
    have hne : path ≠ [] := fun h0 => hc0 (hnil h0)
    obtain ⟨q, j0, nd0, hq, hcell0, hnull0⟩ := hp.top hne
    have hq0 := hg.shape.null_root hcell0 hnull0
    subst hq0
    rw [hrt] at hcell0
    cases hcell0
    obtain ⟨r, _, hcell1⟩ := (hb.2 0 rt hrt).2 j0 hq
    obtain ⟨_, _, par, lj, _, _, _, hpar, _, hlj, _⟩ := hp.mem_info 0 j0 hq
    rw [hrt] at hpar
    cases hpar
    have hnil0 : unTriedOf rt.availableLinks = [] := by
      by_contra hne0
      exact hc0 (huntried hne0)
    have hljne : lj.nTotal ≠ 0 := unTriedOf_eq_nil.1 hnil0 lj (List.getElem?_mem hlj)
    refine ⟨_, bump r j0 rt, h, hg1, hcell1, bump_state r j0 rt, bump_nVisits r j0 rt hlj, ?_⟩
    rw [unTriedOf_bump r j0 rt hlj (hg.stats.nonneg 0 rt lj hrt (List.getElem?_mem hlj)),
      if_neg hljne, hnil0]
    rfl
  · obtain ⟨c1, j, n, cur0, nn, act, lnk, newState, hcur, hc, hj, hact, hl, hnext, hn, hnn, rfl⟩ :=
      expansion_inv hexp
    simp only at hc hnn hloop hcur
    cases hcur
    have hcc : cn = cur0 := by
      rw [hcell] at hc
      exact Option.some.inj hc
    subst hcc
    have hs2 := hg.shape.expand_shape hg.stats newState hcell hj hl hn hnn
    obtain ⟨hz, _, _, hcn, hnlt, hnew, _⟩ := expand_setup hg.shape hg.stats hcell hj hl hn hnn
    have hel : (expandedNode G nn newState c j).availableLinks = [] := by rw [hnew]; rfl
    obtain ⟨a, path, ha, hp, hb, _, _⟩ := backpropLoop_inv hs2 hloop
    cases ha
    have hcelln := cellAt_expand_new (G := G) (c := c) (f := flaggedNode ρ.shuffle cn)
      (k := (G.getActions newState).length) hnlt hel
    -- the root before backpropagation
    have hroot2 : ∃ rt2, cellAt (grow G (writeNode g.mem c (flaggedNode ρ.shuffle cn)) n
        (expandedNode G nn newState c j) (G.getActions newState).length) 0 = some rt2 ∧
        rt2.availableLinks = rt.availableLinks ∧ rt2.nVisits = rt.nVisits ∧
        rt2.gameState = rt.gameState ∧ rt2.prevNode = .null := by
      by_cases hc0 : c = 0
      · subst hc0
        rw [hrt] at hcell
        cases hcell
        exact ⟨_, cellAt_expand_cur (cellAt_lt hrt) (by omega) hnlt, flaggedNode_links _ _,
          flaggedNode_nVisits _ _, flaggedNode_state _ _, by rw [flaggedNode_prevNode]; exact hnull⟩
      · exact ⟨rt, cellAt_expand_old hnlt (by omega) (fun h => hc0 h.symm) hrt, rfl, rfl, rfl,
          hnull⟩
    obtain ⟨rt2, hrt2, hlinks2, hvis2, hstate2, hnull2⟩ := hroot2
    cases hp with
    | stop hx hnull1 =>
      rw [hcelln] at hx
      cases hx
      cases hnull1
    | @step _ p i ndn par l rest hx hprev hact1 hpar hlp hnextp hlt hrest =>
      rw [hcelln] at hx
      cases hx
      cases hprev
      cases hact1
      have hp : PathUp _ n ((c, j) :: rest) := PathUp.step hcelln rfl rfl hpar hlp hnextp hlt hrest
      obtain ⟨q, j0, nd0, hq, hcell0, hnull0⟩ := hp.top (by simp)
      have hq0 := hs2.null_root hcell0 hnull0
      subst hq0
      rw [hrt2] at hcell0
      cases hcell0
      obtain ⟨r, _, hcell1⟩ := (hb.2 0 rt2 hrt2).2 j0 hq
      obtain ⟨_, _, par2, lj, _, _, _, hpar2, _, hlj, _⟩ := hp.mem_info 0 j0 hq
      rw [hrt2] at hpar2
      cases hpar2
      have hlj' : rt.availableLinks[j0]? = some lj := by rw [← hlinks2]; exact hlj
      have hnonneg := hg.stats.nonneg 0 rt lj hrt (List.getElem?_mem hlj')
      refine ⟨_, bump r j0 rt2, h, hg1, hcell1, by rw [bump_state, hstate2],
        by rw [bump_nVisits r j0 rt2 hlj, hvis2], ?_⟩
      rw [unTriedOf_bump r j0 rt2 hlj hnonneg, hlinks2]
      by_cases hnil0 : unTriedOf rt.availableLinks = []
      · rw [hnil0]
        split <;> rfl
      · have hc0 := huntried hnil0
        subst hc0
        rw [hrt] at hcell
        cases hcell
        have hrest_nil : rest = [] := by
          cases hrest with
          | stop _ _ => rfl
          | step hx1 hprev1 _ _ _ _ _ _ =>
            rw [hrt2] at hx1
            cases hx1
            rw [hnull2] at hprev1
            cases hprev1
        subst hrest_nil
        simp only [List.mem_singleton, Prod.mk.injEq, true_and] at hq
        subst hq
        rw [hl] at hlj'
        cases hlj'
        rw [if_pos hz]

end RootGame

end MCTS

/-! ## `playNGames` from a fresh session -/

namespace MCTS

section PlayLoop

variable {S A : Type}

/-- Under the contract, `n` games from a session whose root is not terminal
end normally, count `n` more visits of the root, and try `n` more root links
as long as some are untried. -/
theorem playLoop_root {G : Game S A} {okS : S → Prop} {μ : S → Nat} {μ0 : Nat}
    (hcon : Contract G okS μ) {fuel : Nat} (hfuel : μ0 < fuel) (rand : Nat → Rand) :
    ∀ (n i : Nat) (g : currentGame S A) (rt : node S A), Good G okS μ μ0 g →
      cellAt g.mem 0 = some rt → G.isTerminal rt.gameState = false →
      ∃ g1 rt1, playLoop G fuel rand n i g = .ok g1 ∧ Good G okS μ μ0 g1 ∧
        cellAt g1.mem 0 = some rt1 ∧ rt1.gameState = rt.gameState ∧
        rt1.nVisits = rt.nVisits + n ∧
        (unTriedOf rt1.availableLinks).length = (unTriedOf rt.availableLinks).length - n := by
  intro n
  induction n with
  | zero =>
    intro i g rt hg hrt _
    exact ⟨g, rt, rfl, hg, hrt, rfl, by simp, by simp⟩
  | succ n ih =>
    intro i g rt hg hrt hterm
    obtain ⟨g1, rt1, h1, hg1, hrt1, hs1, hv1, hu1⟩ :=
      playOneGame_root hcon hg hfuel (rand i) hrt hterm
    obtain ⟨g2, rt2, h2, hg2, hrt2, hs2, hv2, hu2⟩ :=
      ih (i + 1) g1 rt1 hg1 hrt1 (by rw [hs1]; exact hterm)
    refine ⟨g2, rt2, ?_, hg2, hrt2, by rw [hs2, hs1], ?_, ?_⟩
    · simp only [playLoop, h1]
      exact h2
    · rw [hv2, hv1]
      push_cast
      ring
    · rw [hu2, hu1]
      omega

/-- The root of the session after the set-up of the root. -/
theorem initialGame_root (G : Game S A) (initState : S) (players : Int) :
    cellAt (initialGame G initState players).mem 0 =
      some { initialRoot G initState with
             availableLinks := freshLinks 0 1 (G.getActions initState).length } :=
  cellAt_grow_self (by simp) rfl

theorem unTriedOf_length_le (links : List link) : (unTriedOf links).length ≤ links.length := by
  unfold unTriedOf
  have := List.length_filter_le (fun i => match links[i]? with
    | some l => decide (l.nTotal = 0)
    | none => false) (List.range links.length)
  simpa using this

end PlayLoop

end MCTS

/-! ## `cleanUp`: what is deleted and what becomes the root -/

namespace MCTS

section CleanUpLemmas

variable {S A : Type}

theorem Freed.refl_freed (mem : List (Option (node S A))) : Freed mem mem :=
  ⟨rfl, fun _ _ h => h⟩

theorem Freed.trans_freed {m1 m2 m3 : List (Option (node S A))} (h1 : Freed m1 m2)
    (h2 : Freed m2 m3) : Freed m1 m3 :=
  ⟨h2.1.trans h1.1, fun a nd h => h1.2 a nd (h2.2 a nd h)⟩

theorem cellAt_set_none (mem : List (Option (node S A))) (c a : Nat) :
    cellAt (mem.set c none) a = if c = a then none else cellAt mem a := by
  unfold cellAt
  by_cases h : c = a
  · subst h
    by_cases hlt : c < mem.length
    · simp [List.getElem?_set_self hlt]
    · rw [List.set_eq_of_length_le (by omega), List.getElem?_eq_none (by omega)]
      simp
  · simp [List.getElem?_set_ne h, h]

theorem Freed.set_none_freed (mem : List (Option (node S A))) (c : Nat) :
    Freed mem (mem.set c none) := by
  refine ⟨by simp, ?_⟩
  intro a nd h
  rw [cellAt_set_none] at h
  by_cases hc : c = a
  · simp [hc] at h
  · simpa [hc] using h

theorem forEachLink_freed
    {f : Ptr → List (Option (node S A)) → Except Err (List (Option (node S A)))}
    (hf : ∀ p m m1, f p m = .ok m1 → Freed m m1) :
    ∀ (links : List link) (m m1 : List (Option (node S A))),
      forEachLink f links m = .ok m1 → Freed m m1 := by
  intro links
  induction links with
  | nil =>
    intro m m1 h
    simp only [forEachLink, Except.ok.injEq] at h
    rw [← h]
    exact Freed.refl_freed m
  | cons l rest ih =>
    intro m m1 h
    unfold forEachLink at h
    cases hfl : f l.nextState m with
    | error e => simp [hfl] at h
    | ok m2 =>
      simp only [hfl] at h
      exact (hf _ _ _ hfl).trans_freed (ih m2 m1 h)

/-- `deleteNode` only deletes cells. -/
theorem deleteNode_freed (G : Game S A) :
    ∀ (fuel : Nat) (p : Ptr) (m m1 : List (Option (node S A))),
      deleteNode G fuel p m = .ok m1 → Freed m m1 := by
  intro fuel
  induction fuel with
  | zero => intro p m m1 h; simp [deleteNode] at h
  | succ f ih =>
    intro p m m1 h
    unfold deleteNode at h
    split at h
    · rename_i c
      split at h
      · cases h
      · rename_i nd hread
        split at h
        · cases h
        · rename_i m2 hchildren
          split at h
          · cases h
          · simp only [Except.ok.injEq] at h
            rw [← h]
            have h2 : Freed m m2 := by
              split at hchildren
              · exact forEachLink_freed ih _ _ _ hchildren
              · simp only [Except.ok.injEq] at hchildren
                rw [← hchildren]
                exact Freed.refl_freed m
            exact h2.trans_freed (Freed.set_none_freed m2 c)
    · cases h

theorem cleanUpDelete_freed (G : Game S A) (maxInd : Nat) :
    ∀ (links : List link) (i : Nat) (m m1 : List (Option (node S A))),
      cleanUpDelete G maxInd links i m = .ok m1 → Freed m m1 := by
  intro links
  induction links with
  | nil =>
    intro i m m1 h
    simp only [cleanUpDelete, Except.ok.injEq] at h
    rw [← h]
    exact Freed.refl_freed m
  | cons l rest ih =>
    intro i m m1 h
    unfold cleanUpDelete at h
    split at h
    · exact ih _ _ _ h
    · cases hd : deleteNode G (m.length + 1) l.nextState m with
      | error e => simp [hd] at h
      | ok m2 =>
        simp only [hd] at h
        exact (deleteNode_freed G _ _ _ _ hd).trans_freed (ih _ _ _ h)

/-- What a successful `cleanUp` did: it kept the root link its scan chose,
deleted cells only, and copied the node behind that link into the root. -/
theorem cleanUp_inv {G : Game S A} {g g1 : currentGame S A} (h : cleanUp G g = .ok g1) :
    ∃ (root child : node S A) (i c : Nat) (lnk : link) (mem1 : List (Option (node S A))),
      g.rootNode = .ok root ∧
      cleanUpScan root.availableLinks 0 (.fin (-99999999999999)) none = some i ∧
      Freed g.mem mem1 ∧ root.availableLinks[i]? = some lnk ∧ lnk.nextState = .addr c ∧
      cellAt g.mem c = some child ∧ cellAt mem1 c = some child ∧
      g1 = { g with mem := writeNode mem1 0 child } := by
  unfold cleanUp at h
  split at h
  · cases h
  · rename_i root hroot
    split at h
    · cases h
    · rename_i i hscan
      split at h
      · cases h
      · rename_i mem1 hdel
        have hfreed := cleanUpDelete_freed G i _ _ _ _ hdel
        split at h
        · cases h
        · rename_i root1 hroot1
          have hr1 : root1 = root := by
            obtain ⟨a, ha, hcell⟩ := readNode_eq_ok.1 hroot1
            cases ha
            have := hfreed.2 0 root1 hcell
            unfold currentGame.rootNode at hroot
            rw [readNode_of_cellAt this] at hroot
            exact Except.ok.inj hroot
          subst hr1
          split at h
          · cases h
          · rename_i lnk hlnk
            split at h
            · cases h
            · rename_i child hchild
              obtain ⟨c, hc, hcell⟩ := readNode_eq_ok.1 hchild
              simp only [Except.ok.injEq] at h
              exact ⟨root1, child, i, c, lnk, mem1, hroot, hscan, hfreed, hlnk, hc,
                hfreed.2 c child hcell, hcell, h.symm⟩

end CleanUpLemmas

end MCTS

namespace MCTS

section NeverReturns

variable {S A : Type}

/-- What a successful pass of the loop of `backpropagation` did. -/
theorem backpropStep_ok {G : Game S A} {rewards : List ℚ} {mem mem1 : List (Option (node S A))}
    {nd : node S A} {cur1 : Ptr} (h : backpropStep G rewards mem nd = .ok (mem1, cur1)) :
    ∃ (p i : Nat) (par : node S A) (l : link) (r : ℚ), nd.prevNode = .addr p ∧
      nd.prevAction = some i ∧ cellAt mem p = some par ∧ par.availableLinks[i]? = some l ∧
      rewards[G.plyrsGo par.gameState]? = some r ∧ mem1 = writeNode mem p (bump r i par) ∧
      cur1 = .addr p := by
  cases hact : nd.prevAction with
  | none => simp [backpropStep, hact] at h
  | some i =>
    cases hprev : nd.prevNode with
    | null => simp [backpropStep, hact, hprev] at h
    | wild => simp [backpropStep, hact, hprev] at h
    | addr p =>
      cases hpar : cellAt mem p with
      | none => simp [backpropStep, hact, hprev, readNode, hpar] at h
      | some par =>
        cases hl : par.availableLinks[i]? with
        | none => simp [backpropStep, hact, hprev, readNode, hpar, hl] at h
        | some l =>
          cases hr : rewards[G.plyrsGo par.gameState]? with
          | none => simp [backpropStep, hact, hprev, readNode, hpar, hl, hr] at h
          | some r =>
            rw [backpropStep_eq G rewards mem hprev hact hpar hl hr] at h
            simp only [Except.ok.injEq, Prod.mk.injEq] at h
            exact ⟨p, i, par, l, r, rfl, rfl, hpar, hl, hr, h.1.symm, h.2.symm⟩

/-- Where no node has a `NULL` `prevNode`, the loop of `backpropagation` never
returns, however many passes it is allowed. -/
theorem backpropLoop_noNull (G : Game S A) (rewards : List ℚ) :
    ∀ (fuel : Nat) (mem : List (Option (node S A))) (cur : Ptr)
      (res : List (Option (node S A)) × Ptr),
      NoNull mem → backpropLoop G rewards fuel mem cur ≠ .ok res := by
  intro fuel
  induction fuel with
  | zero => intro mem cur res _ h; simp [backpropLoop] at h
  | succ f ih =>
    intro mem cur res hnn h
    unfold backpropLoop at h
    split at h
    · cases h
    · rename_i nd hread
      obtain ⟨a, _, hcell⟩ := readNode_eq_ok.1 hread
      have hne := hnn a nd hcell
      split at h
      · cases h
      · rename_i hnull
        exact hne hnull
      · rename_i p hp
        split at h
        · cases h
        · rename_i mem1 cur1 hstep
          refine ih mem1 cur1 res ?_ h
          obtain ⟨p1, i, par, l, r, _, _, hpar, _, _, hmem1, _⟩ := backpropStep_ok hstep
          rw [hmem1]
          intro b y hy
          rw [cellAt_write] at hy
          split at hy
          · simp only [Option.some.injEq] at hy
            rw [← hy]
            have hpn := hnn p1 par hpar
            unfold bump
            split <;> exact hpn
          · exact hnn b y hy

/-- `expansion` gives no node a `NULL` `prevNode`. -/
theorem expansion_noNull {G : Game S A} {r : Nat} {g g2 : currentGame S A}
    (hnn : NoNull g.mem) (h : expansion G r g = .ok g2) : NoNull g2.mem := by
  obtain ⟨c, j, n, cur, nn, act, lnk, newState, _, hc, _, _, _, _, _, hnn1, rfl⟩ :=
    expansion_inv h
  intro a y hy
  simp only at hy
  have hnlt : n < (writeNode g.mem c (flaggedNode r cur)).length := cellAt_lt hnn1
  rw [cellAt_grow G _ n _ _ a hnlt] at hy
  split at hy
  · simp only [Option.some.injEq] at hy
    rw [← hy]
    simp [expandedNode]
  · split at hy
    · rw [cellAt_write] at hy
      split at hy
      · simp only [Option.some.injEq] at hy
        rw [← hy, flaggedNode_prevNode]
        exact hnn c cur hc
      · exact hnn a y hy
    · split at hy
      · simp only [Option.some.injEq] at hy
        rw [← hy]
        simp [newNode]
      · cases hy

/-- Where no node has a `NULL` `prevNode`, no game returns. -/
theorem playOneGame_noNull {G : Game S A} {fuel : Nat} {ρ : Rand} {g : currentGame S A}
    (hnn : NoNull g.mem) (g1 : currentGame S A) : playOneGame G fuel ρ g ≠ .ok g1 := by
  intro h
  obtain ⟨g3, mem1, cur1, hbefore, hloop, _⟩ := playOneGame_inv h
  obtain ⟨cur, nd, _, _, hcase⟩ := playBeforeBackprop_inv hbefore
  have hnn3 : NoNull g3.mem := by
    rcases hcase with ⟨_, rfl⟩ | ⟨_, g2, nd2, s, hexp, _, _, rfl⟩
    · exact hnn
    · have hnn0 : NoNull ({ g with currentNode := cur } : currentGame S A).mem := hnn
      have hnn2 : NoNull g2.mem := expansion_noNull hnn0 hexp
      exact hnn2
  exact backpropLoop_noNull G _ _ _ _ _ hnn3 hloop

/-- After `cleanUp` on the memory of a session no node has a `NULL`
`prevNode`: the root is a copy of its former child, whose `prevNode` is the
address of the root. -/
theorem cleanUp_noNull {G : Game S A} {g g1 : currentGame S A} (hs : Shape G g.mem)
    (h : cleanUp G g = .ok g1) : NoNull g1.mem := by
  obtain ⟨root, child, i, c, lnk, mem1, hroot, _, hfreed, hlnk, hc, hchild, _, rfl⟩ :=
    cleanUp_inv h
  obtain ⟨a0, ha0, hrcell⟩ := readNode_eq_ok.1 hroot
  cases ha0
  obtain ⟨_, c1, hc1, hlt, _⟩ := hs.link_up 0 root i lnk hrcell hlnk
  rw [hc] at hc1
  cases hc1
  have hold : ∀ b y, b ≠ 0 → cellAt g.mem b = some y → y.prevNode ≠ .null := by
    intro b y hb hy
    rcases hs.prev b y hy hb with hnew | ⟨p, _, _, _, hp, _⟩
    · rw [hnew]; simp [newNode]
    · rw [hp]; simp
  intro a y hy
  simp only at hy
  rw [cellAt_write] at hy
  split at hy
  · simp only [Option.some.injEq] at hy
    rw [← hy]
    exact hold c child (by omega) hchild
  · rename_i hcond
    have ha : a ≠ 0 := by
      intro ha0
      subst ha0
      apply hcond
      refine ⟨rfl, ?_⟩
      rw [hfreed.1]
      exact cellAt_lt hrcell
    exact hold a y ha (hfreed.2 a y hy)

/-- After `cleanUp` on a session built by the engine, `playNGames(m)` with
`m >= 1` never returns, whatever the random choices and however long a
simulation may last. -/
theorem cleanUp_then_play_never_returns {G : Game S A} {initState : S} {g g1 : currentGame S A}
    (hreach : Reachable G initState g) (h : cleanUp G g = .ok g1) (fuel : Nat)
    (rand : Nat → Rand) (m : Nat) (hm : 1 ≤ m) (g2 : currentGame S A) :
    playNGames G fuel rand (m : Int) g1 ≠ .ok g2 := by
  have hnn := cleanUp_noNull hreach.invariants.1 h
  obtain ⟨n, rfl⟩ : ∃ n, m = n + 1 := ⟨m - 1, by omega⟩
  simp only [playNGames, Int.toNat_ofNat, playLoop]
  cases hgame : playOneGame G fuel (rand 0) g1 with
  | error e => simp
  | ok g3 => exact absurd hgame (playOneGame_noNull hnn g3)

end NeverReturns

end MCTS

/-! ## The subtrees of a session are disjoint -/

namespace MCTS

section Subtrees

variable {S A : Type}

theorem Desc.trans_desc {mem : List (Option (node S A))} {a b c : Nat} (h1 : Desc mem a b)
    (h2 : Desc mem b c) : Desc mem a c := by
  induction h2 with
  | refl => exact h1
  | step _ hp hl hn ih => exact Desc.step ih hp hl hn

theorem Desc.le {G : Game S A} {mem : List (Option (node S A))} (hs : Shape G mem) {a d : Nat}
    (h : Desc mem a d) : a ≤ d := by
  induction h with
  | refl => exact le_refl _
  | step _ hp hl hn ih =>
    obtain ⟨_, c, hc, hlt, _⟩ := hs.link_up _ _ _ _ hp hl
    rw [hn] at hc
    cases hc
    omega

theorem Desc.lt_length {G : Game S A} {mem : List (Option (node S A))} (hs : Shape G mem)
    {a d : Nat} (h : Desc mem a d) (ha : a < mem.length) : d < mem.length := by
  cases h with
  | refl => exact ha
  | step _ hp hl hn =>
    obtain ⟨_, c, hc, _, hlt⟩ := hs.link_up _ _ _ _ hp hl
    rw [hn] at hc
    cases hc
    exact hlt

/-- The nodes above a node form a chain. -/
theorem Desc.chain {G : Game S A} {mem : List (Option (node S A))} (hs : Shape G mem)
    {x y d : Nat} (h1 : Desc mem x d) (h2 : Desc mem y d) : Desc mem x y ∨ Desc mem y x := by
  induction h1 generalizing y with
  | refl => exact Or.inr h2
  | @step p c i nd l h1p hp hl hn ih =>
    cases h2 with
    | refl => exact Or.inl (Desc.step h1p hp hl hn)
    | @step q _ j nd' l' h2q hq hl' hn' =>
      have := (hs.link_inj p nd i l q nd' j l' hp hl hq hl' (by rw [hn, hn'])).1
      subst this
      exact ih h2q

/-- The subtrees behind two different links of a node share no node. -/
theorem Desc.siblings {G : Game S A} {mem : List (Option (node S A))} (hs : Shape G mem)
    {a k t ck ct d : Nat} {nd : node S A} {lk lt : link} (ha : cellAt mem a = some nd)
    (hk : nd.availableLinks[k]? = some lk) (ht : nd.availableLinks[t]? = some lt)
    (hck : lk.nextState = .addr ck) (hct : lt.nextState = .addr ct) (hkt : k ≠ t)
    (h1 : Desc mem ck d) (h2 : Desc mem ct d) : False := by
  have hupk : a < ck := by
    obtain ⟨_, c, hc, hlt, _⟩ := hs.link_up a nd k lk ha hk
    rw [hck] at hc
    cases hc
    exact hlt
  have hupt : a < ct := by
    obtain ⟨_, c, hc, hlt, _⟩ := hs.link_up a nd t lt ha ht
    rw [hct] at hc
    cases hc
    exact hlt
  have hne : ck ≠ ct := by
    intro h
    subst h
    exact hkt (hs.link_inj a nd k lk a nd t lt ha hk ha ht (by rw [hck, hct])).2
  -- a node strictly below `x` and behind a link of `a` forces `a` below `x`
  have key : ∀ (x y j : Nat) (ly : link), nd.availableLinks[j]? = some ly →
      ly.nextState = .addr y → x ≠ y → Desc mem x y → Desc mem x a := by
    intro x y j ly hj hy hxy hd
    cases hd with
    | refl => exact absurd rfl hxy
    | @step p _ i ndp l hxp hp hl hn =>
      have := (hs.link_inj p ndp i l a nd j ly hp hl ha hj (by rw [hn, hy])).1
      subst this
      exact hxp
  rcases Desc.chain hs h1 h2 with h | h
  · have := (key ck ct t lt ht hct hne h).le hs
    omega
  · have := (key ct ck k lk hk hck (fun h => hne h.symm) h).le hs
    omega

end Subtrees

end MCTS

/-! ## `deleteNode` and `cleanUp` on the memory of a session -/

namespace MCTS

section DeleteSubtree

variable {S A : Type}

theorem DeletedIn.set_none_deleted {m0 m : List (Option (node S A))} {F : Nat → Prop}
    (h : DeletedIn m0 m F) (a : Nat) : DeletedIn m0 (m.set a none) (fun d => F d ∨ d = a) := by
  refine ⟨by rw [List.length_set]; exact h.1, ?_⟩
  intro b
  rw [cellAt_set_none]
  constructor
  · rintro (hb | hb)
    · split
      · rfl
      · exact (h.2 b).1 hb
    · rw [if_pos hb.symm]
  · intro hb
    have h1 : ¬ F b := fun hf => hb (Or.inl hf)
    have h2 : ¬ a = b := fun he => hb (Or.inr he.symm)
    rw [if_neg h2]
    exact (h.2 b).2 h1

/-- In the memory of a session `deleteNode` on a subtree that is still whole
succeeds and deletes cells of that subtree only. -/
theorem deleteNode_subtree {G : Game S A} {m0 : List (Option (node S A))} (hs : Shape G m0) :
    ∀ (fuel a : Nat) (m : List (Option (node S A))) (F : Nat → Prop),
      DeletedIn m0 m F → a < m0.length → (∀ d, Desc m0 a d → ¬ F d) →
      m0.length < a + fuel →
      ∃ m1 F1, deleteNode G fuel (.addr a) m = .ok m1 ∧ DeletedIn m0 m1 F1 ∧
        (∀ d, F1 d → F d ∨ Desc m0 a d) ∧ (∀ d, F d → F1 d) := by
  intro fuel
  induction fuel with
  | zero => intro a m F _ ha _ hf; omega
  | succ f ih =>
    intro a m F hdel ha hdis hfuel
    obtain ⟨nd, hnd⟩ := hs.live a ha
    have hcell : cellAt m a = some nd := by
      rw [(hdel.2 a).2 (hdis a (Desc.refl a))]
      exact hnd
    -- the loop over the links of the node
    have inner : ∀ (ls : List link) (k0 : Nat) (m : List (Option (node S A))) (F : Nat → Prop),
        (∀ i, ls[i]? = nd.availableLinks[k0 + i]?) → DeletedIn m0 m F →
        (∀ (i : Nat) (l : link) (c : Nat), ls[i]? = some l → l.nextState = .addr c →
          ∀ d, Desc m0 c d → ¬ F d) →
        ∃ m1 F1, forEachLink (deleteNode G f) ls m = .ok m1 ∧ DeletedIn m0 m1 F1 ∧
          (∀ d, F1 d → F d ∨ ∃ (i : Nat) (l : link) (c : Nat),
            ls[i]? = some l ∧ l.nextState = .addr c ∧ Desc m0 c d) ∧
          (∀ d, F d → F1 d) := by
      intro ls
      induction ls with
      | nil =>
        intro k0 m F _ hdel _
        exact ⟨m, F, rfl, hdel, fun d hd => Or.inl hd, fun d hd => hd⟩
      | cons l rest ihl =>
        intro k0 m F hsuf hdel hdis
        have hl : nd.availableLinks[k0]? = some l := by
          have := hsuf 0
          simpa using this.symm
        obtain ⟨_, c, hc, hac, hclt⟩ := hs.link_up a nd k0 l hnd hl
        obtain ⟨m2, F2, hdel2, hD2, hsub2, hmono2⟩ :=
          ih c m F hdel hclt (hdis 0 l c (by simp) hc) (by omega)
        have hsuf' : ∀ i, rest[i]? = nd.availableLinks[k0 + 1 + i]? := by
          intro i
          have := hsuf (i + 1)
          simp only [List.getElem?_cons_succ] at this
          rw [this]
          congr 1
          omega
        have hdis' : ∀ (i : Nat) (l1 : link) (c1 : Nat), rest[i]? = some l1 →
            l1.nextState = .addr c1 →
            ∀ d, Desc m0 c1 d → ¬ F2 d := by
          intro i l1 c1 hl1 hc1 d hd hF2
          rcases hsub2 d hF2 with hF | hdesc
          · exact hdis (i + 1) l1 c1 (by simpa using hl1) hc1 d hd hF
          · have hl1' : nd.availableLinks[k0 + 1 + i]? = some l1 := by
              rw [← hsuf' i]; exact hl1
            exact Desc.siblings hs hnd hl hl1' hc hc1 (by omega) hdesc hd
        obtain ⟨m3, F3, hdel3, hD3, hsub3, hmono3⟩ := ihl (k0 + 1) m2 F2 hsuf' hD2 hdis'
        refine ⟨m3, F3, ?_, hD3, ?_, fun d hd => hmono3 d (hmono2 d hd)⟩
        · simp only [forEachLink, hc, hdel2]
          exact hdel3
        · intro d hd
          rcases hsub3 d hd with h2 | ⟨i, l1, c1, h1, h2, h3⟩
          · rcases hsub2 d h2 with h | h
            · exact Or.inl h
            · exact Or.inr ⟨0, l, c, by simp, hc, h⟩
          · exact Or.inr ⟨i + 1, l1, c1, by simpa using h1, h2, h3⟩
    -- the children are deleted, then the node
    have hchildren : ∃ m2 F2,
        (if !G.isTerminal nd.gameState then forEachLink (deleteNode G f) nd.availableLinks m
          else .ok m) = .ok m2 ∧ DeletedIn m0 m2 F2 ∧
        (∀ d, F2 d → F d ∨ (d ≠ a ∧ Desc m0 a d)) ∧ (∀ d, F d → F2 d) := by
      cases hterm : G.isTerminal nd.gameState with
      | true => exact ⟨m, F, by simp, hdel, fun d hd => Or.inl hd, fun d hd => hd⟩
      | false =>
        obtain ⟨m2, F2, h1, h2, h3, h4⟩ := inner nd.availableLinks 0 m F
          (fun i => by rw [Nat.zero_add]) hdel
          (fun i l c hl hc d hd => hdis d
            (Desc.trans_desc (Desc.step (Desc.refl a) hnd hl hc) hd))
        refine ⟨m2, F2, by simpa using h1, h2, ?_, h4⟩
        intro d hd
        rcases h3 d hd with h | ⟨i, l, c, hl, hc, hdesc⟩
        · exact Or.inl h
        · right
          obtain ⟨_, c1, hc1, hac, _⟩ := hs.link_up a nd i l hnd hl
          rw [hc] at hc1
          cases hc1
          have := hdesc.le hs
          exact ⟨by omega, Desc.trans_desc (Desc.step (Desc.refl a) hnd hl hc) hdesc⟩
    obtain ⟨m2, F2, hch, hD2, hsub2, hmono2⟩ := hchildren
    have hnotF2 : ¬ F2 a := by
      intro h
      rcases hsub2 a h with h | ⟨h, _⟩
      · exact hdis a (Desc.refl a) h
      · exact h rfl
    have hcell2 : cellAt m2 a = some nd := by
      rw [(hD2.2 a).2 hnotF2]
      exact hnd
    refine ⟨m2.set a none, fun d => F2 d ∨ d = a, ?_, hD2.set_none_deleted a, ?_,
      fun d hd => Or.inl (hmono2 d hd)⟩
    · simp only [deleteNode, readNode, hcell, hch, hcell2]
    · rintro d (hd | hd)
      · rcases hsub2 d hd with h | ⟨_, h⟩
        · exact Or.inl h
        · exact Or.inr h
      · rw [hd]
        exact Or.inr (Desc.refl a)

end DeleteSubtree

end MCTS

namespace MCTS

section CleanUpSuccess

variable {S A : Type}

theorem cleanUpScan_range :
    ∀ (links : List link) (k : Nat) (v : Dbl) (mi : Option Nat) (i : Nat),
      cleanUpScan links k v mi = some i → mi = some i ∨ (k ≤ i ∧ i < k + links.length) := by
  intro links
  induction links with
  | nil => intro k v mi i h; exact Or.inl h
  | cons l rest ih =>
    intro k v mi i h
    unfold cleanUpScan at h
    simp only at h
    split at h
    · rcases ih _ _ _ _ h with h1 | h1
      · cases h1
        exact Or.inr ⟨le_refl _, by simp⟩
      · exact Or.inr ⟨by omega, by simp only [List.length_cons]; omega⟩
    · rcases ih _ _ _ _ h with h1 | h1
      · exact Or.inl h1
      · exact Or.inr ⟨by omega, by simp only [List.length_cons]; omega⟩

/-- In the memory of a session the second loop of `cleanUp` succeeds and
deletes cells of the subtrees behind the other root links only. -/
theorem cleanUpDelete_spec {G : Game S A} {m0 : List (Option (node S A))} (hs : Shape G m0)
    {root : node S A} (hroot : cellAt m0 0 = some root) (maxInd : Nat) :
    ∀ (ls : List link) (k0 : Nat) (m : List (Option (node S A))) (F : Nat → Prop),
      (∀ i, ls[i]? = root.availableLinks[k0 + i]?) → DeletedIn m0 m F →
      (∀ (i : Nat) (l : link) (c : Nat), ls[i]? = some l → k0 + i ≠ maxInd →
        l.nextState = .addr c → ∀ d, Desc m0 c d → ¬ F d) →
      ∃ m1 F1, cleanUpDelete G maxInd ls k0 m = .ok m1 ∧ DeletedIn m0 m1 F1 ∧
        (∀ d, F1 d → F d ∨ ∃ (i : Nat) (l : link) (c : Nat), ls[i]? = some l ∧
          k0 + i ≠ maxInd ∧ l.nextState = .addr c ∧ Desc m0 c d) := by
  intro ls
  induction ls with
  | nil =>
    intro k0 m F _ hdel _
    exact ⟨m, F, rfl, hdel, fun d hd => Or.inl hd⟩
  | cons l rest ihl =>
    intro k0 m F hsuf hdel hdis
    have hl : root.availableLinks[k0]? = some l := by
      have := hsuf 0
      simpa using this.symm
    obtain ⟨_, c, hc, hac, hclt⟩ := hs.link_up 0 root k0 l hroot hl
    have hsuf' : ∀ i, rest[i]? = root.availableLinks[k0 + 1 + i]? := by
      intro i
      have := hsuf (i + 1)
      simp only [List.getElem?_cons_succ] at this
      rw [this]
      congr 1
      omega
    by_cases hk : k0 = maxInd
    · have hdis' : ∀ (i : Nat) (l1 : link) (c1 : Nat), rest[i]? = some l1 →
          k0 + 1 + i ≠ maxInd → l1.nextState = .addr c1 → ∀ d, Desc m0 c1 d → ¬ F d :=
        fun i l1 c1 hl1 hne hc1 d hd =>
          hdis (i + 1) l1 c1 (by simpa using hl1) (by omega) hc1 d hd
      obtain ⟨m3, F3, hdel3, hD3, hsub3⟩ := ihl (k0 + 1) m F hsuf' hdel hdis'
      refine ⟨m3, F3, ?_, hD3, ?_⟩
      · rw [cleanUpDelete, if_pos hk]
        exact hdel3
      · intro d hd
        rcases hsub3 d hd with h | ⟨i, l1, c1, h1, h2, h3, h4⟩
        · exact Or.inl h
        · exact Or.inr ⟨i + 1, l1, c1, by simpa using h1, by omega, h3, h4⟩
    · obtain ⟨m2, F2, hdel2, hD2, hsub2, hmono2⟩ :=
        deleteNode_subtree hs (m.length + 1) c m F hdel hclt
          (hdis 0 l c (by simp) (by simpa using hk) hc) (by rw [hdel.1]; omega)
      have hdis' : ∀ (i : Nat) (l1 : link) (c1 : Nat), rest[i]? = some l1 →
          k0 + 1 + i ≠ maxInd → l1.nextState = .addr c1 → ∀ d, Desc m0 c1 d → ¬ F2 d := by
        intro i l1 c1 hl1 hne hc1 d hd hF2
        rcases hsub2 d hF2 with hF | hdesc
        · exact hdis (i + 1) l1 c1 (by simpa using hl1) (by omega) hc1 d hd hF
        · have hl1' : root.availableLinks[k0 + 1 + i]? = some l1 := by
            rw [← hsuf' i]; exact hl1
          exact Desc.siblings hs hroot hl hl1' hc hc1 (by omega) hdesc hd
      obtain ⟨m3, F3, hdel3, hD3, hsub3⟩ := ihl (k0 + 1) m2 F2 hsuf' hD2 hdis'
      refine ⟨m3, F3, ?_, hD3, ?_⟩
      · simp only [cleanUpDelete, hk, if_false, hc, hdel2]
        exact hdel3
      · intro d hd
        rcases hsub3 d hd with h2 | ⟨i, l1, c1, h1, h2, h3, h4⟩
        · rcases hsub2 d h2 with h | h
          · exact Or.inl h
          · exact Or.inr ⟨0, l, c, by simp, by simpa using hk, hc, h⟩
        · exact Or.inr ⟨i + 1, l1, c1, by simpa using h1, by omega, h3, h4⟩

/-- In the memory of a session, `cleanUp` succeeds once its scan has chosen a
root link: the node behind that link becomes the root, and every node below
it stays in its cell as it was. -/
theorem cleanUp_ok {G : Game S A} {g : currentGame S A} (hs : Shape G g.mem)
    {root : node S A} (hroot : cellAt g.mem 0 = some root) {i : Nat}
    (hscan : cleanUpScan root.availableLinks 0 (.fin (-99999999999999)) none = some i) :
    ∃ (g1 : currentGame S A) (lnk : link) (c : Nat) (child : node S A),
      cleanUp G g = .ok g1 ∧ root.availableLinks[i]? = some lnk ∧ lnk.nextState = .addr c ∧
      cellAt g.mem c = some child ∧ cellAt g1.mem 0 = some child ∧
      g1.mem.length = g.mem.length ∧
      ∀ d, Desc g.mem c d → d ≠ 0 ∧ cellAt g1.mem d = cellAt g.mem d := by
  have hilt : i < root.availableLinks.length := by
    rcases cleanUpScan_range _ _ _ _ _ hscan with h | h
    · cases h
    · omega
  have hlnk : root.availableLinks[i]? = some root.availableLinks[i] :=
    List.getElem?_eq_getElem hilt
  obtain ⟨_, c, hc, h0c, hclt⟩ := hs.link_up 0 root i _ hroot hlnk
  obtain ⟨child, hchild⟩ := hs.live c hclt
  have hD0 : DeletedIn g.mem g.mem (fun _ => False) :=
    ⟨rfl, fun a => ⟨fun h => absurd h id, fun _ => rfl⟩⟩
  obtain ⟨m1, F1, hdel, hD1, hsub⟩ := cleanUpDelete_spec (G := G) hs hroot i
    root.availableLinks 0 g.mem (fun _ => False) (fun k => by rw [Nat.zero_add]) hD0
    (fun _ _ _ _ _ _ _ _ h => h)
  -- what was deleted is below another root link
  have hF1 : ∀ d, F1 d → ∃ (k : Nat) (l : link) (ck : Nat), root.availableLinks[k]? = some l ∧
      k ≠ i ∧ l.nextState = .addr ck ∧ Desc g.mem ck d := by
    intro d hd
    rcases hsub d hd with h | ⟨k, l, ck, h1, h2, h3, h4⟩
    · exact absurd h id
    · exact ⟨k, l, ck, h1, by omega, h3, h4⟩
  have hroot_kept : ¬ F1 0 := by
    intro h
    obtain ⟨k, l, ck, hl, _, hck, hdesc⟩ := hF1 0 h
    obtain ⟨_, c1, hc1, hlt, _⟩ := hs.link_up 0 root k l hroot hl
    rw [hck] at hc1
    cases hc1
    have := hdesc.le hs
    omega
  have hsub_kept : ∀ d, Desc g.mem c d → ¬ F1 d := by
    intro d hd h
    obtain ⟨k, l, ck, hl, hki, hck, hdesc⟩ := hF1 d h
    exact Desc.siblings hs hroot hl hlnk hck hc hki hdesc hd
  have hroot1 : cellAt m1 0 = some root := by
    rw [(hD1.2 0).2 hroot_kept]; exact hroot
  have hchild1 : cellAt m1 c = some child := by
    rw [(hD1.2 c).2 (hsub_kept c (Desc.refl c))]; exact hchild
  refine ⟨{ g with mem := writeNode m1 0 child }, _, c, child, ?_, hlnk, hc, hchild, ?_, ?_, ?_⟩
  · unfold cleanUp currentGame.rootNode
    simp only [readNode, hroot, hscan, hdel, hroot1, hlnk, hc, hchild1]
  · simp only
    rw [cellAt_write]
    simp [cellAt_lt hroot1]
  · simp only
    rw [length_writeNode, hD1.1]
  · intro d hd
    have hcd := hd.le hs
    refine ⟨by omega, ?_⟩
    simp only
    rw [cellAt_write, if_neg (by omega)]
    exact (hD1.2 d).2 (hsub_kept d hd)

end CleanUpSuccess

end MCTS

/-! ## Decision extraction: `bestInitialAction` and the index kept by `cleanUp` -/

namespace MCTS

section DecisionTheorems

variable {S A : Type}

theorem bestScan_untried (acts : List A) :
    ∀ (links : List link) (k : Nat) (m : Dbl) (mv : A),
      (∀ l ∈ links, l.nTotal = 0 ∧ l.totReward = 0) → bestScan acts links k m mv = .ok mv := by
  intro links
  induction links with
  | nil => intro k m mv _; rfl
  | cons h t ih =>
    intro k m mv hz
    obtain ⟨h1, h2⟩ := hz h (List.mem_cons_self _ _)
    have hnan : Dbl.divInt h.totReward h.nTotal = .nan := by simp [Dbl.divInt, h1, h2]
    simp only [bestScan, hnan]
    have : Dbl.nan.gt m = false := by cases m <;> rfl
    rw [this]
    exact ih _ _ _ (fun l hl => hz l (List.mem_cons_of_mem _ hl))

/-- C9 (amended): when no root link has been tried (every root link has
`nTotal == 0` and `totReward == 0`, as after the set-up of the root, or the
root has no link), `bestInitialAction` raises no error: it returns the default
constructed action. -/
theorem bestInitialAction_untried (G : Game S A) (g : currentGame S A) (root : node S A)
    (hroot : g.rootNode = .ok root)
    (huntried : ∀ l ∈ root.availableLinks, l.nTotal = 0 ∧ l.totReward = 0) :
    bestInitialAction G g = .ok G.defaultAction := by
  unfold bestInitialAction
  rw [hroot]
  exact bestScan_untried _ _ _ _ _ huntried

end DecisionTheorems

end MCTS

/-! ## `playNGames` on a fresh session -/

namespace MCTS

section PlayTheorems

variable {S A : Type}

theorem playNGames_natCast (G : Game S A) (fuel : Nat) (rand : Nat → Rand) (n : Nat)
    (g : currentGame S A) : playNGames G fuel rand (n : Int) g = playLoop G fuel rand n 0 g := by
  simp [playNGames]

/-- C1 (amended): for a game that keeps the callback contract, an initial
state that is not terminal (so it has a legal action) and every sequence of
random choices, `n` games on the freshly set up session end normally and leave
`nVisits == n` at the root. -/
theorem playNGames_root_visits {G : Game S A} {okS : S → Prop} {μ : S → Nat}
    (hcon : Contract G okS μ) (initState : S) (players : Int) (n fuel : Nat)
    (rand : Nat → Rand) (hok : okS initState) (hterm : G.isTerminal initState = false)
    (hfuel : μ initState < fuel) :
    ∃ g0 g root, initializeRoot G (currentGame.construct initState players) = .ok g0 ∧
      playNGames G fuel rand (n : Int) g0 = .ok g ∧ g.rootNode = .ok root ∧
      root.nVisits = (n : Int) := by
  obtain ⟨g, rt, hplay, _, hrt, _, hv, _⟩ :=
    playLoop_root hcon hfuel rand n 0 (initialGame G initState players) _
      (initialGame_good initState players hok) (initialGame_root G initState players) hterm
  refine ⟨_, g, rt, initializeRoot_construct G initState players, ?_, readNode_of_cellAt hrt, ?_⟩
  · rw [playNGames_natCast]; exact hplay
  · rw [hv]; simp [initialRoot]

/-- C4: for a game that keeps the callback contract, an initial state that is
not terminal with `k` legal actions, every `n >= k` and every sequence of
random choices, `n` games on the freshly set up session end normally and
leave every one of the `k` root links with `nTotal >= 1`. -/
theorem playNGames_root_links_tried {G : Game S A} {okS : S → Prop} {μ : S → Nat}
    (hcon : Contract G okS μ) (initState : S) (players : Int) (n fuel : Nat)
    (rand : Nat → Rand) (hok : okS initState) (hterm : G.isTerminal initState = false)
    (hk : (G.getActions initState).length ≤ n) (hfuel : μ initState < fuel) :
    ∃ g0 g root, initializeRoot G (currentGame.construct initState players) = .ok g0 ∧
      playNGames G fuel rand (n : Int) g0 = .ok g ∧ g.rootNode = .ok root ∧
      root.availableLinks.length = (G.getActions initState).length ∧
      ∀ l ∈ root.availableLinks, 1 ≤ l.nTotal := by
  obtain ⟨g, rt, hplay, hg, hrt, hs, _, hu⟩ :=
    playLoop_root hcon hfuel rand n 0 (initialGame G initState players) _
      (initialGame_good initState players hok) (initialGame_root G initState players) hterm
  refine ⟨_, g, rt, initializeRoot_construct G initState players, ?_, readNode_of_cellAt hrt,
    ?_, ?_⟩
  · rw [playNGames_natCast]; exact hplay
  · obtain ⟨x, hx, hxnull⟩ := hg.shape.root
    rw [hrt] at hx
    cases hx
    have hacts := (hg.states.state_ok 0 rt hrt (by rw [hxnull]; simp)).2.1
    rw [hg.shape.acts_len 0 rt hrt, hacts, hs]
    rfl
  · have hle := unTriedOf_length_le (freshLinks 0 1 (G.getActions initState).length)
    rw [freshLinks_length] at hle
    have hu1 : (unTriedOf rt.availableLinks).length =
        (unTriedOf (freshLinks 0 1 (G.getActions initState).length)).length - n := hu
    have hzero : (unTriedOf rt.availableLinks).length = 0 := by omega
    have hnil := List.length_eq_zero.1 hzero
    intro l hl
    have h1 := unTriedOf_eq_nil.1 hnil l hl
    have h2 := hg.stats.nonneg 0 rt l hrt hl
    omega

end PlayTheorems

end MCTS

/-! ## One game: backpropagation along the path, and the terminal short cut -/

namespace MCTS

section GameTheorems

variable {S A : Type}

/-- The memory before `backpropagation` satisfies the shape invariant. -/
theorem playBeforeBackprop_shape {G : Game S A} {fuel : Nat} {ρ : Rand} {g g3 : currentGame S A}
    (hs : Shape G g.mem) (hst : Stats none g.mem)
    (h : playBeforeBackprop G fuel ρ g = .ok g3) : Shape G g3.mem := by
  obtain ⟨cur, nd, _, _, hcase⟩ := playBeforeBackprop_inv h
  rcases hcase with ⟨_, rfl⟩ | ⟨_, g2, nd2, s, hexp, _, _, rfl⟩
  · exact hs
  · obtain ⟨c, j, n, cur0, nn, act, lnk, newState, _, hc, hj, _, hl, _, hn, hnn, rfl⟩ :=
      expansion_inv hexp
    exact hs.expand_shape hst newState hc hj hl hn hnn

theorem playOneGame_eq_backpropagation {G : Game S A} {fuel : Nat} {ρ : Rand}
    {g g3 : currentGame S A} (h : playBeforeBackprop G fuel ρ g = .ok g3) :
    playOneGame G fuel ρ g = backpropagation G g3 := by
  unfold playOneGame
  rw [h]

/-- C5: in a game of `playNGames` (on a session built from a fresh one, for a
game that keeps the callback contract) where `selection` ends at a node whose
state is terminal, the session before `backpropagation` is the session after
`selection` with `gameRewards` set to `assignRewards` of that state: memory is
untouched.  The game then ends normally with the same number of cells, and
every node keeps its state, its back pointers, its available actions and
links between the same nodes. -/
theorem terminal_selection_skips_expansion {G : Game S A} {okS : S → Prop} {μ : S → Nat}
    (hcon : Contract G okS μ) {initState : S} (hok : okS initState)
    {g g1 : currentGame S A} (hreach : Reachable G initState g) (fuel : Nat) (ρ : Rand)
    {cur : node S A} (hsel : selection G g = .ok g1)
    (hread : readNode g1.mem g1.currentNode = .ok cur)
    (hterm : G.isTerminal cur.gameState = true) :
    playBeforeBackprop G fuel ρ g =
      .ok { g with currentNode := g1.currentNode,
                   gameRewards := G.assignRewards cur.gameState } ∧
    ∃ g2, playOneGame G fuel ρ g = .ok g2 ∧ g2.mem.length = g.mem.length ∧
      SameShape g.mem g2.mem ∧ g2.gameRewards = G.assignRewards cur.gameState := by
  have hg := hreach.good hcon hok
  have hg1 : g1 = { g with currentNode := g1.currentNode } := by
    unfold selection at hsel
    split at hsel
    · cases hsel
    · cases hsel
      rfl
  have hbefore : playBeforeBackprop G fuel ρ g =
      .ok { g with currentNode := g1.currentNode,
                   gameRewards := G.assignRewards cur.gameState } := by
    unfold playBeforeBackprop
    rw [hsel]
    simp only [hread, hterm, Bool.not_true, Bool.false_eq_true, if_false]
    rw [hg1]
  refine ⟨hbefore, ?_⟩
  have hmem : g1.mem = g.mem := by rw [hg1]
  rw [hmem] at hread
  obtain ⟨a, ha, hcell⟩ := readNode_eq_ok.1 hread
  -- the node has a state, so backpropagation from it ends
  have hw : cur.prevNode ≠ .wild := by
    obtain ⟨rt, hrt, hnull⟩ := hg.shape.root
    obtain ⟨c, cn, hl, hcn, hcw, _, _⟩ :=
      selectionLoop_progress hcon hg.shape hg.stats hg.bounded (g.mem.length + 1) 0 rt hrt
        (by rw [hnull]; simp) (by omega)
    unfold selection at hsel
    rw [hl] at hsel
    simp only [Except.ok.injEq] at hsel
    rw [← hsel] at ha
    simp only [Ptr.addr.injEq] at ha
    subst ha
    rw [hcell] at hcn
    cases hcn
    exact hcw
  have hokc := (hg.states.state_ok a cur hcell hw).1
  obtain ⟨mem1, hloop⟩ := backpropLoop_progress hcon hg.shape hg.states hokc hcell hw
  obtain ⟨a1, path, ha1, hp, hb, _, _⟩ := backpropLoop_inv hg.shape hloop
  refine ⟨{ g with mem := mem1, currentNode := .addr 0,
                   gameRewards := G.assignRewards cur.gameState }, ?_, hb.1,
    hb.sameShape hp, rfl⟩
  rw [playOneGame_eq_backpropagation hbefore]
  unfold backpropagation
  simp only [ha, hloop]

end GameTheorems

end MCTS

/-! ## A root that is terminal -/

namespace MCTS

section TerminalRoot

variable {S A : Type}

theorem initialMem_no_actions (G : Game S A) (initState : S) (hacts : G.getActions initState = []) :
    initialMem G initState = [some (constructedRoot initState)] := by
  unfold initialMem initialRoot grow
  rw [hacts]
  simp [freshLinks, writeNode, constructedRoot]

/-- One game on a session whose root is terminal and has no link: nothing but
`currentNode` and `gameRewards` changes. -/
theorem playOneGame_terminal_root (G : Game S A) (initState : S) (fuel : Nat) (ρ : Rand)
    (g : currentGame S A) (hmem : g.mem = [some (constructedRoot initState)])
    (hterm : G.isTerminal initState = true) :
    playOneGame G fuel ρ g =
      .ok { g with currentNode := .addr 0, gameRewards := G.assignRewards initState } := by
  have hcell : cellAt g.mem 0 = some (constructedRoot initState) := by rw [hmem]; rfl
  have hlen : g.mem.length = 1 := by rw [hmem]; rfl
  have hsel : selection G g = .ok { g with currentNode := .addr 0 } := by
    unfold selection
    simp only [selectionLoop, readNode, hcell, constructedRoot, Bool.false_eq_true, if_false]
  have hbefore : playBeforeBackprop G fuel ρ g =
      .ok { g with currentNode := .addr 0, gameRewards := G.assignRewards initState } := by
    unfold playBeforeBackprop
    rw [hsel]
    simp only [readNode, hcell, constructedRoot, hterm, Bool.not_true, Bool.false_eq_true,
      if_false]
  rw [playOneGame_eq_backpropagation hbefore]
  unfold backpropagation
  simp only [backpropLoop, readNode, hcell, constructedRoot]

/-- C10 (amended): for every `N >= 1`, `playNGames(N)` on a freshly set up
session whose root state is terminal and has no legal action raises no error:
it returns normally and leaves the tree as it was; only `currentNode` (the
root) and `gameRewards` (`assignRewards` of the root state) are set. -/
theorem playNGames_terminal_root_returns (G : Game S A) (initState : S) (players : Int)
    (fuel : Nat) (rand : Nat → Rand) (N : Nat) (hN : 1 ≤ N)
    (hterm : G.isTerminal initState = true) (hacts : G.getActions initState = []) :
    ∃ g0, initializeRoot G (currentGame.construct initState players) = .ok g0 ∧
      playNGames G fuel rand (N : Int) g0 =
        .ok { g0 with currentNode := .addr 0, gameRewards := G.assignRewards initState } := by
  refine ⟨_, initializeRoot_construct G initState players, ?_⟩
  rw [playNGames_natCast]
  have hloop : ∀ (n i : Nat) (g : currentGame S A), g.mem = [some (constructedRoot initState)] →
      playLoop G fuel rand (n + 1) i g =
        .ok { g with currentNode := .addr 0, gameRewards := G.assignRewards initState } := by
    intro n
    induction n with
    | zero =>
      intro i g hmem
      simp only [playLoop, playOneGame_terminal_root G initState fuel (rand i) g hmem hterm]
    | succ n ih =>
      intro i g hmem
      rw [playLoop, playOneGame_terminal_root G initState fuel (rand i) g hmem hterm]
      simp only
      exact ih (i + 1) _ hmem
  obtain ⟨n, rfl⟩ : ∃ n, N = n + 1 := ⟨N - 1, by omega⟩
  exact hloop n 0 _ (initialMem_no_actions G initState hacts)

end TerminalRoot

end MCTS

/-! ## Tree reuse: what `cleanUp` keeps -/

namespace MCTS

section ReuseTheorems

variable {S A : Type}

theorem average_ge_of_bounded (l : link) (hn : 1 ≤ l.nTotal)
    (hb : |l.totReward| ≤ (l.nTotal : ℚ)) : (-1 : ℚ) ≤ l.average := by
  have hpos : (0 : ℚ) < (l.nTotal : ℚ) := by exact_mod_cast (by omega : (0 : Int) < l.nTotal)
  unfold link.average
  rw [le_div_iff₀ hpos]
  have := (abs_le.mp hb).1
  linarith

/-- In a memory with bounded links the first loop of `cleanUp` assigns
`maxInd` when the root has a link and every root link was tried: the first
index with the largest average. -/
theorem cleanUpScan_bounded (links : List link) (hne : links ≠ [])
    (htried : ∀ l ∈ links, 1 ≤ l.nTotal)
    (hb : ∀ l ∈ links, |l.totReward| ≤ (l.nTotal : ℚ)) :
    ∃ (i : Nat) (l : link), cleanUpScan links 0 (.fin (-99999999999999)) none = some i ∧
      links[i]? = some l ∧ (-1 : ℚ) ≤ l.average ∧
      (∀ l' ∈ links, l'.average ≤ l.average) ∧
      ∀ (j : Nat) (l' : link), j < i → links[j]? = some l' → l'.average < l.average := by
  obtain ⟨i, l, hi, hmax, hfirst⟩ := exists_first_max links hne
  have hl := List.getElem?_mem hi
  have hge := average_ge_of_bounded l (htried l hl) (hb l hl)
  have hs := cleanUpScan_first_max links i 0 (-99999999999999) none l htried hi hmax hfirst
    (by linarith)
  rw [Nat.zero_add] at hs
  exact ⟨i, l, hs, hi, hge, hmax, hfirst⟩

end ReuseTheorems

end MCTS

/-! ## The claims at concrete sessions of tic-tac-toe -/

namespace MCTS

section ReachableLoop

variable {S A : Type}

theorem playLoop_reachable {G : Game S A} {initState : S} (fuel : Nat) (rand : Nat → Rand) :
    ∀ (n i : Nat) (g g1 : currentGame S A), Reachable G initState g →
      playLoop G fuel rand n i g = .ok g1 → Reachable G initState g1 := by
  intro n
  induction n with
  | zero =>
    intro i g g1 hr h
    simp only [playLoop, Except.ok.injEq] at h
    rw [← h]
    exact hr
  | succ n ih =>
    intro i g g1 hr h
    unfold playLoop at h
    cases hone : playOneGame G fuel (rand i) g with
    | error e => simp [hone] at h
    | ok g2 =>
      simp only [hone] at h
      exact ih (i + 1) g2 g1 (Reachable.game hr hone) h

end ReachableLoop

namespace TicTacToe

theorem validExplore_constExplore : validExplore constExplore :=
  fun _ _ _ _ => ⟨1, by norm_num, rfl⟩

theorem sampleGame_contract : Contract sampleGame validState freeCells :=
  contract constExplore validExplore_constExplore

theorem validState_openState : validState openState := by
  unfold validState
  decide

theorem validState_lateState : validState lateState := by
  unfold validState
  decide

theorem freshSession_reachable : Reachable sampleGame openState freshSession :=
  Reachable.init (initializeRoot_construct sampleGame openState 2)

theorem playedSession_eq :
    playNGames sampleGame 10 sampleRand 3 freshSession = .ok playedSession := by
  decide!

theorem playedSession_reachable : Reachable sampleGame openState playedSession :=
  playLoop_reachable 10 sampleRand 3 0 freshSession playedSession freshSession_reachable
    playedSession_eq

theorem playedRoot_eq : playedSession.rootNode = .ok playedRoot := by
  decide!

theorem lateSession_reachable : Reachable sampleGame lateState lateSession :=
  playLoop_reachable 10 sampleRand 2 0 (initialGame sampleGame lateState 2) lateSession
    (Reachable.init (initializeRoot_construct sampleGame lateState 2)) (by decide!)

end TicTacToe

end MCTS

/-! ## Counterexamples and instances of the claims -/

namespace MCTS

namespace TicTacToe

/-- C1 as stated fails: `wonState` is terminal and has four legal actions
(the free cells), and after one game on the fresh session the root still has
`nVisits == 0`. -/
theorem playNGames_terminal_root_unvisited :
    (sampleGame.getActions wonState).length = 4 ∧
    sampleGame.isTerminal wonState = true ∧
    initializeRoot sampleGame (currentGame.construct wonState 2) =
      .ok (initialGame sampleGame wonState 2) ∧
    ((playNGames sampleGame 10 sampleRand 1 (initialGame sampleGame wonState 2)).bind
      (fun g => g.rootNode)).map (fun root => root.nVisits) = .ok 0 := by
  refine ⟨by decide, by decide, initializeRoot_construct _ _ _, by decide!⟩

/-- C1 (amended) on `openState`: three games leave `nVisits == 3` at the root. -/
theorem playNGames_root_visits_witness :
    ∃ g0 g root, initializeRoot sampleGame (currentGame.construct openState 2) = .ok g0 ∧
      playNGames sampleGame 10 sampleRand ((3 : Nat) : Int) g0 = .ok g ∧
      g.rootNode = .ok root ∧ root.nVisits = ((3 : Nat) : Int) :=
  playNGames_root_visits sampleGame_contract openState 2 3 10 sampleRand validState_openState
    (by decide) (by decide)

/-- C4 on `openState`: three legal actions and three games. -/
theorem playNGames_root_links_tried_witness :
    ∃ g0 g root, initializeRoot sampleGame (currentGame.construct openState 2) = .ok g0 ∧
      playNGames sampleGame 10 sampleRand ((3 : Nat) : Int) g0 = .ok g ∧
      g.rootNode = .ok root ∧
      root.availableLinks.length = (sampleGame.getActions openState).length ∧
      ∀ l ∈ root.availableLinks, 1 ≤ l.nTotal :=
  playNGames_root_links_tried sampleGame_contract openState 2 3 10 sampleRand
    validState_openState (by decide) (by decide) (by decide)

/-- C5 on `lateSession`: `selection` ends at the child behind link 1, where
player 1 has completed a column. -/
theorem terminal_selection_skips_expansion_witness :
    playBeforeBackprop sampleGame 10 (sampleRand 2) lateSession =
      .ok { lateSession with currentNode := lateSelected.currentNode,
                             gameRewards := sampleGame.assignRewards lateCurrent.gameState } ∧
    ∃ g2, playOneGame sampleGame 10 (sampleRand 2) lateSession = .ok g2 ∧
      g2.mem.length = lateSession.mem.length ∧
      SameShape lateSession.mem g2.mem ∧
      g2.gameRewards = sampleGame.assignRewards lateCurrent.gameState :=
  terminal_selection_skips_expansion sampleGame_contract validState_lateState
    lateSession_reachable 10 (sampleRand 2)
    (by decide! : selection sampleGame lateSession = .ok lateSelected)
    (by decide! : readNode lateSelected.mem lateSelected.currentNode = .ok lateCurrent)
    (by decide!)

/-- C7 (the code fails the claim): the documented usage on `openState`, a
state that is not terminal with three legal actions: after the set-up of the
root, `playNGames(3)` and `cleanUp()`, the new root is not terminal, has two
legal actions and has `prevNode == &rootNode`; `playNGames(1)` then never
ends (its `backpropagation` never reaches `NULL`), and no further call of
`playNGames` with at least one game returns, whatever the random choices. -/
theorem playNGames_after_cleanUp_never_returns :
    initializeRoot sampleGame (currentGame.construct openState 2) = .ok freshSession ∧
    playNGames sampleGame 10 sampleRand 3 freshSession = .ok playedSession ∧
    cleanUp sampleGame playedSession = .ok reusedSession ∧
    reusedSession.rootNode.map (fun root =>
      (sampleGame.isTerminal root.gameState, root.availableActions.length, root.prevNode)) =
      .ok (false, 2, .addr 0) ∧
    playNGames sampleGame 10 sampleRand 1 reusedSession = .error .diverge ∧
    ∀ (fuel : Nat) (rand : Nat → Rand) (m : Nat) (g2 : currentGame gameState gameAction),
      playNGames sampleGame fuel rand ((m + 1 : Nat) : Int) reusedSession ≠ .ok g2 := by
  have hclean : cleanUp sampleGame playedSession = .ok reusedSession := by decide!
  exact ⟨initializeRoot_construct _ _ _, playedSession_eq, hclean, by decide!, by decide!,
    fun fuel rand m g2 =>
      cleanUp_then_play_never_returns playedSession_reachable hclean fuel rand (m + 1)
        (by omega) g2⟩

/-- C9 as stated fails: on the fresh session on `lateState`, where no root
link has been tried, `bestInitialAction` raises no error: it returns
the default action `(0, 0)`, which is not a legal action of `lateState`. -/
theorem bestInitialAction_fresh_returns_default :
    initializeRoot sampleGame (currentGame.construct lateState 2) =
      .ok (initialGame sampleGame lateState 2) ∧
    bestInitialAction sampleGame (initialGame sampleGame lateState 2) = .ok ⟨0, 0⟩ ∧
    (⟨0, 0⟩ : gameAction) ∉ sampleGame.getActions lateState := by
  refine ⟨initializeRoot_construct _ _ _, by decide!, by decide⟩

/-- C9 (amended) on the fresh session on `lateState`. -/
theorem bestInitialAction_untried_witness :
    bestInitialAction sampleGame (initialGame sampleGame lateState 2) =
      .ok sampleGame.defaultAction :=
  bestInitialAction_untried sampleGame (initialGame sampleGame lateState 2)
    lateFreshRoot (by decide!) (by decide!)

/-- C10 as stated fails: `drawnState` is terminal and has no legal action,
and `playNGames(1)` on the fresh session returns normally; the tree is as it
was. -/
theorem playNGames_terminal_root_no_error :
    sampleGame.isTerminal drawnState = true ∧ sampleGame.getActions drawnState = [] ∧
    initializeRoot sampleGame (currentGame.construct drawnState 2) =
      .ok (initialGame sampleGame drawnState 2) ∧
    playNGames sampleGame 10 sampleRand 1 (initialGame sampleGame drawnState 2) =
      .ok { initialGame sampleGame drawnState 2 with
            currentNode := .addr 0, gameRewards := [0, 0] } := by
  refine ⟨by decide, by decide, initializeRoot_construct _ _ _, by decide!⟩

/-- C10 (amended) on `drawnState`, one game. -/
theorem playNGames_terminal_root_returns_witness :
    ∃ g0, initializeRoot sampleGame (currentGame.construct drawnState 2) = .ok g0 ∧
      playNGames sampleGame 10 sampleRand ((1 : Nat) : Int) g0 =
        .ok { g0 with currentNode := .addr 0,
                      gameRewards := sampleGame.assignRewards drawnState } :=
  playNGames_terminal_root_returns sampleGame drawnState 2 10 sampleRand 1 (le_refl 1)
    (by decide) (by decide)

end TicTacToe

end MCTS

/-! ## The move chosen after `playNGames` -/

namespace MCTS

section ChosenMove

variable {S A : Type}

/-- After at least as many games as the root has actions, on a fresh session
with a root that is not terminal, `bestInitialAction` returns one of the
legal actions of the initial state. -/
theorem bestInitialAction_after_play {G : Game S A} {okS : S → Prop} {μ : S → Nat}
    (hcon : Contract G okS μ) (initState : S) (players : Int) (n fuel : Nat)
    (rand : Nat → Rand) (hok : okS initState) (hterm : G.isTerminal initState = false)
    (hk : (G.getActions initState).length ≤ n) (hfuel : μ initState < fuel) :
    ∃ g a, playNGames G fuel rand (n : Int) (initialGame G initState players) = .ok g ∧
      bestInitialAction G g = .ok a ∧ a ∈ G.getActions initState := by
  obtain ⟨g, rt, hplay, hg, hrt, hs, _, hu⟩ :=
    playLoop_root hcon hfuel rand n 0 (initialGame G initState players) _
      (initialGame_good initState players hok) (initialGame_root G initState players) hterm
  have hstate : rt.gameState = initState := hs
  obtain ⟨x, hx, hxnull⟩ := hg.shape.root
  rw [hrt] at hx
  cases hx
  have hacts : rt.availableActions = G.getActions rt.gameState :=
    (hg.states.state_ok 0 rt hrt (by rw [hxnull]; simp)).2.1
  have hlen := hg.shape.acts_len 0 rt hrt
  -- every root link was tried
  have htried : ∀ l ∈ rt.availableLinks, 1 ≤ l.nTotal := by
    have hle := unTriedOf_length_le (freshLinks 0 1 (G.getActions initState).length)
    rw [freshLinks_length] at hle
    have hu1 : (unTriedOf rt.availableLinks).length =
        (unTriedOf (freshLinks 0 1 (G.getActions initState).length)).length - n := hu
    have hzero : (unTriedOf rt.availableLinks).length = 0 := by omega
    have hnil := List.length_eq_zero.1 hzero
    intro l hl
    have h1 := unTriedOf_eq_nil.1 hnil l hl
    have h2 := hg.stats.nonneg 0 rt l hrt hl
    omega
  have hne : rt.availableLinks ≠ [] := by
    intro h
    have h0 : (G.getActions rt.gameState).length = 0 := by
      rw [← hacts, ← hlen, h]; rfl
    rw [hstate] at h0
    exact hcon.actions_nonempty initState hok hterm (List.length_eq_zero.1 h0)
  obtain ⟨i, l, hi, hmax, hfirst⟩ := exists_first_max rt.availableLinks hne
  have hl := List.getElem?_mem hi
  have hge := average_ge_of_bounded l (htried l hl) (hg.bounded 0 rt l hrt hl)
  obtain ⟨a, ha, hbest⟩ := bestScan_first_max rt.availableActions rt.availableLinks i 0
    (-9999999999999) G.defaultAction l htried (by omega) hi hmax hfirst (by linarith)
  rw [Nat.zero_add] at ha
  refine ⟨g, a, ?_, ?_, ?_⟩
  · rw [playNGames_natCast]; exact hplay
  · have hroot : g.rootNode = .ok rt := readNode_of_cellAt hrt
    unfold bestInitialAction
    rw [hroot]
    exact hbest
  · rw [← hstate, ← hacts]
    exact List.getElem?_mem ha

end ChosenMove

namespace TicTacToe

/-- C11: for every tic-tac-toe state that is not terminal (cells in `0, 1,
2`, player 0 or 1 to go), every exploration term a selection score may use,
every `n` at least the number of empty cells and every sequence of random
choices: the constructor, the set-up of the root and `playNGames(n)` end
normally, and `bestInitialAction` then returns a cell `(ind1, ind2)` of the
board that is empty in the state. -/
theorem bestInitialAction_free_cell (explore : Int → Int → Dbl) (hex : validExplore explore)
    (s : gameState) (players : Int) (n fuel : Nat) (rand : Nat → Rand)
    (hs : validState s) (hterm : isTerminal s = false) (hn : freeCells s ≤ n)
    (hfuel : freeCells s < fuel) :
    ∃ g0 g a, initializeRoot (game explore) (currentGame.construct s players) = .ok g0 ∧
      playNGames (game explore) fuel rand (n : Int) g0 = .ok g ∧
      bestInitialAction (game explore) g = .ok a ∧
      ∃ (i j : Fin 3), a.ind1 = i.val ∧ a.ind2 = j.val ∧ s.board i j = 0 := by
  obtain ⟨g, a, hplay, hbest, ha⟩ :=
    bestInitialAction_after_play (contract explore hex) s players n fuel rand hs hterm hn hfuel
  obtain ⟨i, j, hb, rfl⟩ := mem_getActions.1 ha
  exact ⟨_, g, _, initializeRoot_construct _ s players, hplay, hbest, i, j, rfl, rfl, hb⟩

end TicTacToe

end MCTS

/-! ## The rewards of tic-tac-toe -/

namespace MCTS

namespace TicTacToe

theorem lineRewards_found {s : gameState} :
    ∀ (is : List (Fin 3)) (r : List ℚ), lineRewards s is = some r →
      ∃ m : Int, 0 < m ∧ r = rewardsFor m ∧
        ((∃ i : Fin 3, s.board i 0 = m ∧ s.board i 1 = m ∧ s.board i 2 = m) ∨
         (∃ j : Fin 3, s.board 0 j = m ∧ s.board 1 j = m ∧ s.board 2 j = m)) := by
  intro is
  induction is with
  | nil => intro r h; simp [lineRewards] at h
  | cons i rest ih =>
    intro r h
    unfold lineRewards at h
    split at h
    · rename_i hrow
      obtain ⟨h1, h2, h3⟩ := hrow
      simp only [Option.some.injEq] at h
      exact ⟨s.board i 1, by omega, h.symm, Or.inl ⟨i, by omega, rfl, by omega⟩⟩
    · split at h
      · rename_i hcol
        obtain ⟨h1, h2, h3⟩ := hcol
        simp only [Option.some.injEq] at h
        exact ⟨s.board 1 i, by omega, h.symm, Or.inr ⟨i, by omega, rfl, by omega⟩⟩
      · exact ih r h

theorem lineRewards_none {s : gameState} :
    ∀ (is : List (Fin 3)), lineRewards s is = none → ∀ i ∈ is, ∀ m : Int, 0 < m →
      ¬ (s.board i 0 = m ∧ s.board i 1 = m ∧ s.board i 2 = m) ∧
      ¬ (s.board 0 i = m ∧ s.board 1 i = m ∧ s.board 2 i = m) := by
  intro is
  induction is with
  | nil => intro _ i hi; simp at hi
  | cons k rest ih =>
    intro h i hi m hm
    unfold lineRewards at h
    split at h
    · simp at h
    · rename_i hrow
      split at h
      · simp at h
      · rename_i hcol
        rcases List.mem_cons.1 hi with rfl | hi
        · constructor
          · rintro ⟨a, b, c⟩
            exact hrow ⟨by omega, by omega, by omega⟩
          · rintro ⟨a, b, c⟩
            exact hcol ⟨by omega, by omega, by omega⟩
        · exact ih h i hi m hm

/-- What `assignRewards` returns: the rewards of a mark that has a completed
line, or `[0, 0]` when no mark has one. -/
theorem assignRewards_line (s : gameState) :
    (∃ m : Int, 0 < m ∧ completedLine s m ∧ assignRewards s = rewardsFor m) ∨
    ((∀ m : Int, 0 < m → ¬ completedLine s m) ∧ assignRewards s = [0, 0]) := by
  unfold assignRewards
  cases hl : lineRewards s idx3 with
  | some r =>
    obtain ⟨m, hm, hr, hline⟩ := lineRewards_found idx3 r hl
    refine Or.inl ⟨m, hm, ?_, hr⟩
    rcases hline with h | h
    · exact Or.inl h
    · exact Or.inr (Or.inl h)
  | none =>
    have hnone := lineRewards_none idx3 hl
    simp only
    split
    · rename_i hd
      refine Or.inl ⟨s.board 1 1, ?_, ?_, rfl⟩
      · rcases hd with ⟨_, _, _⟩ | ⟨_, _, _⟩ <;> omega
      · rcases hd with ⟨a, b, c⟩ | ⟨a, b, c⟩
        · exact Or.inr (Or.inr (Or.inl ⟨by omega, rfl, by omega⟩))
        · exact Or.inr (Or.inr (Or.inr ⟨by omega, rfl, by omega⟩))
    · rename_i hd
      refine Or.inr ⟨?_, rfl⟩
      intro m hm hline
      rcases hline with ⟨i, h⟩ | ⟨j, h⟩ | ⟨a, b, c⟩ | ⟨a, b, c⟩
      · exact (hnone i (by fin_cases i <;> simp [idx3]) m hm).1 h
      · exact (hnone j (by fin_cases j <;> simp [idx3]) m hm).2 h
      · exact hd (Or.inl ⟨by omega, by omega, by omega⟩)
      · exact hd (Or.inr ⟨by omega, by omega, by omega⟩)

/-- C12: for every tic-tac-toe board with cells in `0, 1, 2`, `assignRewards`
returns exactly two entries, each at most 1 in absolute value; when player 0
(mark 1) has a completed row, column or diagonal and player 1 has none it
returns `[1, -1]`, when player 1 (mark 2) has one and player 0 has none it
returns `[-1, 1]`, and when no line is completed it returns `[0, 0]`. -/
theorem assignRewards_spec (s : gameState)
    (hcells : ∀ i j, s.board i j = 0 ∨ s.board i j = 1 ∨ s.board i j = 2) :
    (assignRewards s).length = 2 ∧ (∀ x ∈ assignRewards s, |x| ≤ 1) ∧
    (completedLine s 1 → ¬ completedLine s 2 → assignRewards s = [1, -1]) ∧
    (completedLine s 2 → ¬ completedLine s 1 → assignRewards s = [-1, 1]) ∧
    (¬ completedLine s 1 → ¬ completedLine s 2 → assignRewards s = [0, 0]) := by
  -- a mark with a completed line is 1 or 2
  have hmark : ∀ m : Int, 0 < m → completedLine s m → m = 1 ∨ m = 2 := by
    intro m hm hline
    have hcell : ∃ i j, s.board i j = m := by
      rcases hline with ⟨i, h, _⟩ | ⟨j, h, _⟩ | ⟨h, _⟩ | ⟨h, _⟩
      · exact ⟨i, 0, h⟩
      · exact ⟨0, j, h⟩
      · exact ⟨0, 0, h⟩
      · exact ⟨0, 2, h⟩
    obtain ⟨i, j, h⟩ := hcell
    rcases hcells i j with h0 | h1 | h2 <;> omega
  have h1 : rewardsFor 1 = [1, -1] := by decide!
  have h2 : rewardsFor 2 = [-1, 1] := by decide!
  refine ⟨assignRewards_length s, fun x hx => assignRewards_le s hx, ?_, ?_, ?_⟩
  · intro hp hq
    rcases assignRewards_line s with ⟨m, hm, hline, hr⟩ | ⟨hno, _⟩
    · rcases hmark m hm hline with rfl | rfl
      · rw [hr, h1]
      · exact absurd hline hq
    · exact absurd hp (hno 1 (by decide))
  · intro hp hq
    rcases assignRewards_line s with ⟨m, hm, hline, hr⟩ | ⟨hno, _⟩
    · rcases hmark m hm hline with rfl | rfl
      · exact absurd hline hq
      · rw [hr, h2]
    · exact absurd hp (hno 2 (by decide))
  · intro hp hq
    rcases assignRewards_line s with ⟨m, hm, hline, hr⟩ | ⟨_, hr⟩
    · rcases hmark m hm hline with rfl | rfl
      · exact absurd hline hp
      · exact absurd hline hq
    · exact hr

end TicTacToe

end MCTS

/-! ## Properties of single nodes kept by every game -/

namespace MCTS

section NodeInvariants

variable {S A : Type}

/-- A property of nodes that holds for a node as `new` makes it, for the root
after its set-up and for an expanded node, and that the flag of `expansion`
and a pass of `backpropagation` keep, holds for every node of every session. -/
theorem Reachable.nodeWise {G : Game S A} {initState : S} (P : node S A → Prop)
    (hnew : P (newNode G))
    (hroot : P { initialRoot G initState with
                 availableLinks := freshLinks 0 1 (G.getActions initState).length })
    (hflag : ∀ (r : Nat) (cur : node S A), P cur → P (flaggedNode r cur))
    (hexp : ∀ (newState : S) (c j n len : Nat),
      P { expandedNode G (newNode G) newState c j with
          availableLinks := freshLinks n len (G.getActions newState).length })
    (hbump : ∀ (r : ℚ) (j : Nat) (nd : node S A), P nd → P (bump r j nd))
    {g : currentGame S A} (h : Reachable G initState g) : NodeWise P g.mem := by
  have hbumped : ∀ {rewards : List ℚ} {path : List (Nat × Nat)}
      {mem mem1 : List (Option (node S A))}, Bumped G rewards path mem mem1 →
      (∀ a, a < mem.length → ∃ nd, cellAt mem a = some nd) → NodeWise P mem →
      NodeWise P mem1 := by
    intro rewards path mem mem1 hb hlive hP q y hy
    obtain ⟨x, hx, hcase⟩ := hb.cases hlive hy
    rcases hcase with ⟨_, rfl⟩ | ⟨j, r, _, _, rfl⟩
    · exact hP q y hx
    · exact hbump r j x (hP q x hx)
  induction h with
  | init hinit =>
    rw [initializeRoot_construct] at hinit
    cases hinit
    intro a y hy
    have hy1 : cellAt (grow G [some (constructedRoot initState)] 0 (initialRoot G initState)
        (G.getActions initState).length) a = some y := hy
    rcases grow_cases (by simp) rfl hy1 with ⟨_, rfl⟩ | ⟨ha, hlt, _⟩ | ⟨_, _, _, rfl⟩
    · exact hroot
    · simp only [List.length_singleton] at hlt
      omega
    · exact hnew
  | @game fuel ρ g g1 hreach hgame ih =>
    obtain ⟨hs, hst⟩ := hreach.invariants
    obtain ⟨g3, mem1, cur1, hbefore, hloop, rfl⟩ := playOneGame_inv hgame
    obtain ⟨cur, nd, _, _, hcase⟩ := playBeforeBackprop_inv hbefore
    rcases hcase with ⟨_, rfl⟩ | ⟨_, g2, nd2, s, hexpn, _, _, rfl⟩
    · obtain ⟨a, path, _, hp, hb, _, _⟩ := backpropLoop_inv hs hloop
      exact hbumped hb hs.live ih
    · obtain ⟨c, j, n, cur0, nn, act, lnk, newState, hcur, hc, hj, hact, hl, hnext, hn, hnn,
        rfl⟩ := expansion_inv hexpn
      simp only at hc hnn hloop
      have hs2 := hs.expand_shape hst newState hc hj hl hn hnn
      obtain ⟨a, path, _, hp, hb, _, _⟩ := backpropLoop_inv hs2 hloop
      obtain ⟨_, _, _, hcn, hnlt, hnew1, _⟩ := expand_setup hs hst hc hj hl hn hnn
      subst hnew1
      refine hbumped hb hs2.live ?_
      intro q y hy
      rcases expand_cases (by omega) hnlt rfl hy with ⟨_, rfl⟩ | ⟨_, rfl⟩ | ⟨_, _, hold⟩ |
          ⟨_, _, _, _, rfl⟩
      · exact hexp newState c j n _
      · exact hflag _ _ (ih c cur0 hc)
      · exact ih q y hold
      · exact hnew

end NodeInvariants

end MCTS

/-! ## Counters and flags of the nodes of a session -/

namespace MCTS

section CounterTheorems

variable {S A : Type}

theorem sumTotals_freshLinks (p n k : Nat) : sumTotals (freshLinks p n k) = 0 := by
  unfold sumTotals
  apply List.sum_eq_zero
  intro x hx
  obtain ⟨l, hl, rfl⟩ := List.mem_map.1 hx
  exact (freshLinks_nTotal hl).1

theorem sumTotals_set :
    ∀ (links : List link) (j : Nat) (l l1 : link), links[j]? = some l →
      sumTotals (links.set j l1) = sumTotals links - l.nTotal + l1.nTotal := by
  intro links
  induction links with
  | nil => intro j l l1 h; simp at h
  | cons x rest ih =>
    intro j l l1 h
    cases j with
    | zero =>
      simp only [List.getElem?_cons_zero, Option.some.injEq] at h
      subst h
      simp only [sumTotals, List.set_cons_zero, List.map_cons, List.sum_cons]
      omega
    | succ j =>
      simp only [List.getElem?_cons_succ] at h
      have := ih j l l1 h
      simp only [sumTotals, List.set_cons_succ, List.map_cons, List.sum_cons] at this ⊢
      omega

/-- C19: in every session built from a fresh one by games of `playNGames`,
the `nVisits` of every node is the sum of `nTotal` over the links of the
node. -/
theorem nVisits_eq_sum_nTotal {G : Game S A} {initState : S} {g : currentGame S A}
    (hreach : Reachable G initState g) (a : Nat) (nd : node S A)
    (hcell : cellAt g.mem a = some nd) : nd.nVisits = sumTotals nd.availableLinks := by
  refine Reachable.nodeWise (fun x => x.nVisits = sumTotals x.availableLinks) ?_ ?_ ?_ ?_ ?_
    hreach a nd hcell
  · rfl
  · show (0 : Int) = sumTotals (freshLinks 0 1 (G.getActions initState).length)
    rw [sumTotals_freshLinks]
  · intro r cur h
    rw [flaggedNode_nVisits, flaggedNode_links]
    exact h
  · intro newState c j n len
    show (0 : Int) = sumTotals (freshLinks n len (G.getActions newState).length)
    rw [sumTotals_freshLinks]
  · intro r j x h
    cases hl : x.availableLinks[j]? with
    | none =>
      have : bump r j x = x := by simp [bump, hl]
      rw [this]
      exact h
    | some l =>
      rw [bump_nVisits r j x hl, bump_links r j x hl, sumTotals_set _ j l _ hl, h]
      simp only
      omega

/-- C14 (amended): in every session built from a fresh one by games of
`playNGames`, a node with at least one link has `allActionsTried == true` if
and only if every one of its links has `nTotal >= 1`; a node without links
has `allActionsTried == false`. -/
theorem allActionsTried_iff_links_tried {G : Game S A} {initState : S} {g : currentGame S A}
    (hreach : Reachable G initState g) (a : Nat) (nd : node S A)
    (hcell : cellAt g.mem a = some nd) :
    (nd.availableLinks ≠ [] →
      (nd.allActionsTried = true ↔ ∀ l ∈ nd.availableLinks, 1 ≤ l.nTotal)) ∧
    (nd.availableLinks = [] → nd.allActionsTried = false) := by
  obtain ⟨_, hst⟩ := hreach.invariants
  constructor
  · intro hne
    constructor
    · intro hflag l hl
      obtain ⟨i, hi⟩ := List.getElem?_of_mem hl
      exact (hst.flag_tried a nd hcell hflag).2 i l hi (by simp)
    · intro hall
      cases hflag : nd.allActionsTried with
      | true => rfl
      | false =>
        obtain ⟨i, l, hi, hz, _⟩ := hst.flag_untried a nd hcell hflag hne
        have := hall l (List.getElem?_mem hi)
        omega
  · intro hnil
    cases hflag : nd.allActionsTried with
    | false => rfl
    | true => exact absurd hnil (hst.flag_tried a nd hcell hflag).1

end CounterTheorems

end MCTS

/-! ## The steps of `selection` -/

namespace MCTS

section SelectionTheorems

variable {S A : Type}

theorem selectionScan_done (G : Game S A) (mem : List (Option (node S A))) (par : node S A) :
    ∀ (links : List link) (mv : Dbl) (mi : Option Nat) (c : Nat),
      (∀ l ∈ links, readNode mem l.parentState = .ok par) →
      (∀ l ∈ links, (G.selectionEvaluation l.totReward l.nTotal par.nVisits).gt mv = false) →
      selectionScan G mem links mv mi c = .ok mi := by
  intro links
  induction links with
  | nil => intro mv mi c _ _; rfl
  | cons h t ih =>
    intro mv mi c hpar hle
    unfold selectionScan
    rw [hpar h (List.mem_cons_self _ _)]
    simp only [hle h (List.mem_cons_self _ _)]
    exact ih mv mi (c + 1) (fun l hl => hpar l (List.mem_cons_of_mem _ hl))
      (fun l hl => hle l (List.mem_cons_of_mem _ hl))

/-- The scan of `selection` ends with the first index whose score is the
largest, when that score exceeds the running maximum the scan starts from. -/
theorem selectionScan_first_max (G : Game S A) (mem : List (Option (node S A)))
    (par : node S A) :
    ∀ (links : List link) (i c : Nat) (mv : Dbl) (mi : Option Nat) (l : link),
      (∀ l' ∈ links, readNode mem l'.parentState = .ok par) →
      links[i]? = some l →
      (∀ l' ∈ links, (G.selectionEvaluation l'.totReward l'.nTotal par.nVisits).gt
        (G.selectionEvaluation l.totReward l.nTotal par.nVisits) = false) →
      (∀ (j : Nat) (l' : link), j < i → links[j]? = some l' →
        (G.selectionEvaluation l.totReward l.nTotal par.nVisits).gt
          (G.selectionEvaluation l'.totReward l'.nTotal par.nVisits) = true) →
      (G.selectionEvaluation l.totReward l.nTotal par.nVisits).gt mv = true →
      selectionScan G mem links mv mi c = .ok (some (c + i)) := by
  intro links
  induction links with
  | nil => intro i c mv mi l _ hi; simp at hi
  | cons h t ih =>
    intro i c mv mi l hpar hi hmax hfirst hmv
    have hpar' : ∀ l' ∈ t, readNode mem l'.parentState = .ok par :=
      fun l hl => hpar l (List.mem_cons_of_mem _ hl)
    have hmax' : ∀ l' ∈ t, (G.selectionEvaluation l'.totReward l'.nTotal par.nVisits).gt
        (G.selectionEvaluation l.totReward l.nTotal par.nVisits) = false :=
      fun l hl => hmax l (List.mem_cons_of_mem _ hl)
    unfold selectionScan
    rw [hpar h (List.mem_cons_self _ _)]
    cases i with
    | zero =>
      simp only [List.getElem?_cons_zero, Option.some.injEq] at hi
      subst hi
      simp only [hmv, if_true, Nat.add_zero]
      exact selectionScan_done G mem par t _ _ _ hpar' hmax'
    | succ i =>
      simp only [List.getElem?_cons_succ] at hi
      have hlt := hfirst 0 h (by omega) (by simp)
      have hfirst' : ∀ (j : Nat) (l' : link), j < i → t[j]? = some l' →
          (G.selectionEvaluation l.totReward l.nTotal par.nVisits).gt
            (G.selectionEvaluation l'.totReward l'.nTotal par.nVisits) = true :=
        fun j l' hj hl' => hfirst (j + 1) l' (by omega) (by simpa using hl')
      have hidx : c + (i + 1) = c + 1 + i := by omega
      rw [hidx]
      simp only
      split
      · exact ih i (c + 1) _ _ l hpar' hi hmax' hfirst' hlt
      · exact ih i (c + 1) _ _ l hpar' hi hmax' hfirst' hmv

/-- C13: on a tree built by the set-up of the root and games of `playNGames`,
a pass of the loop of `selection` at a node `X` with `allActionsTried` moves
to the child behind the link with the smallest index among those whose score
`selectionEvaluation(totReward, nTotal, X.nVisits)` is the largest, when that
score exceeds the sentinel `-99999999999`; the loop then ends there when the
child is terminal and goes on from the child otherwise. -/
theorem selection_step_first_max {G : Game S A} {initState : S} {g : currentGame S A}
    (hreach : Reachable G initState g) {p : Nat} {X : node S A}
    (hcell : cellAt g.mem p = some X) (hflag : X.allActionsTried = true)
    {i : Nat} {l : link} (hi : X.availableLinks[i]? = some l)
    (hmax : ∀ l' ∈ X.availableLinks,
      (G.selectionEvaluation l'.totReward l'.nTotal X.nVisits).gt
        (G.selectionEvaluation l.totReward l.nTotal X.nVisits) = false)
    (hfirst : ∀ (j : Nat) (l' : link), j < i → X.availableLinks[j]? = some l' →
      (G.selectionEvaluation l.totReward l.nTotal X.nVisits).gt
        (G.selectionEvaluation l'.totReward l'.nTotal X.nVisits) = true)
    (hsent : (G.selectionEvaluation l.totReward l.nTotal X.nVisits).gt
      (.fin (-99999999999)) = true) :
    ∃ (c : Nat) (child : node S A), l.nextState = .addr c ∧ cellAt g.mem c = some child ∧
      selectionScan G g.mem X.availableLinks (.fin (-99999999999)) none 0 = .ok (some i) ∧
      ∀ fuel, selectionLoop G g.mem (fuel + 1) (.addr p) =
        if G.isTerminal child.gameState then .ok (.addr c)
        else selectionLoop G g.mem fuel (.addr c) := by
  obtain ⟨hs, _⟩ := hreach.invariants
  obtain ⟨_, c, hc, _, hclt⟩ := hs.link_up p X i l hcell hi
  obtain ⟨child, hchild⟩ := hs.live c hclt
  have hpar : ∀ l' ∈ X.availableLinks, readNode g.mem l'.parentState = .ok X := by
    intro l' hl'
    obtain ⟨k, hk⟩ := List.getElem?_of_mem hl'
    rw [(hs.link_up p X k l' hcell hk).1]
    exact readNode_of_cellAt hcell
  have hscan := selectionScan_first_max G g.mem X X.availableLinks i 0 (.fin (-99999999999))
    none l hpar hi hmax hfirst hsent
  rw [Nat.zero_add] at hscan
  refine ⟨c, child, hc, hchild, hscan, ?_⟩
  intro fuel
  rw [selectionLoop, readNode_of_cellAt hcell]
  simp only [hflag, if_true, hscan, hi, hc, readNode_of_cellAt hchild]

end SelectionTheorems

end MCTS

/-! ## The calls of `selectionEvaluation` -/

namespace MCTS

section SelectionCalls

variable {S A : Type}

theorem mem_selectionScanCalls (mem : List (Option (node S A))) :
    ∀ (links : List link) (call : ℚ × Int × Int), call ∈ selectionScanCalls mem links →
      ∃ (l : link) (par : node S A), l ∈ links ∧ readNode mem l.parentState = .ok par ∧
        call = (l.totReward, l.nTotal, par.nVisits) := by
  intro links
  induction links with
  | nil => intro call h; simp [selectionScanCalls] at h
  | cons x rest ih =>
    intro call h
    unfold selectionScanCalls at h
    cases hr : readNode mem x.parentState with
    | error e => simp [hr] at h
    | ok par =>
      simp only [hr, List.mem_cons] at h
      rcases h with rfl | h
      · exact ⟨x, par, List.mem_cons_self _ _, hr, rfl⟩
      · obtain ⟨l, par1, hl, hp, hc⟩ := ih call h
        exact ⟨l, par1, List.mem_cons_of_mem _ hl, hp, hc⟩

/-- In a memory with the invariants of a session every call the loop of
`selection` makes has a link count and a parent count of at least 1. -/
theorem selectionLoopCalls_pos {G : Game S A} {mem : List (Option (node S A))}
    (hs : Shape G mem) (hst : Stats none mem) :
    ∀ (fuel : Nat) (cur : Ptr) (call : ℚ × Int × Int),
      call ∈ selectionLoopCalls G mem fuel cur → 1 ≤ call.2.1 ∧ 1 ≤ call.2.2 := by
  intro fuel
  induction fuel with
  | zero => intro cur call h; simp [selectionLoopCalls] at h
  | succ fuel ih =>
    intro cur call h
    unfold selectionLoopCalls at h
    cases hr : readNode mem cur with
    | error e => simp [hr] at h
    | ok nd =>
      simp only [hr] at h
      obtain ⟨a, rfl, hcell⟩ := readNode_eq_ok.1 hr
      cases hflag : nd.allActionsTried with
      | false => simp [hflag] at h
      | true =>
        simp only [hflag, if_true, List.mem_append] at h
        rcases h with h | h
        · obtain ⟨l, par, hl, hp, rfl⟩ := mem_selectionScanCalls mem _ call h
          obtain ⟨k, hk⟩ := List.getElem?_of_mem hl
          rw [(hs.link_up a nd k l hcell hk).1, readNode_of_cellAt hcell] at hp
          cases hp
          have h1 := (hst.flag_tried a nd hcell hflag).2 k l hk (by simp)
          have h2 := hst.le_visits a nd l hcell hl
          exact ⟨h1, by simp only; omega⟩
        · split at h
          · split at h
            · simp at h
            · split at h
              · simp at h
              · split at h
                · simp at h
                · exact ih _ call h
          · simp at h

/-- Every call of `selectionEvaluation` during games of `playNGames` on a
session has a link count and a parent count of at least 1. -/
theorem playLoopCalls_pos {G : Game S A} {initState : S} (fuel : Nat) (rand : Nat → Rand) :
    ∀ (n i : Nat) (g : currentGame S A), Reachable G initState g →
      ∀ call ∈ playLoopCalls G fuel rand n i g, 1 ≤ call.2.1 ∧ 1 ≤ call.2.2 := by
  intro n
  induction n with
  | zero => intro i g _ call h; simp [playLoopCalls] at h
  | succ n ih =>
    intro i g hreach call h
    unfold playLoopCalls at h
    rcases List.mem_append.1 h with h | h
    · obtain ⟨hs, hst⟩ := hreach.invariants
      exact selectionLoopCalls_pos hs hst _ _ call h
    · cases hgame : playOneGame G fuel (rand i) g with
      | error e => simp [hgame] at h
      | ok g1 =>
        simp only [hgame] at h
        exact ih (i + 1) g1 (Reachable.game hreach hgame) call h

/-- C17: during `playNGames(N)` on a freshly set up session, for every game,
every initial state and every sequence of random choices, every call of
`selectionEvaluation(totReward, nj, nTot)` made by `selection` has `nj >= 1`
and `nTot >= 1`. -/
theorem selectionEvaluation_never_called_with_zero (G : Game S A) (initState : S)
    (players : Int) (fuel : Nat) (rand : Nat → Rand) (N : Int) :
    ∀ (totReward : ℚ) (nj nTot : Int),
      (totReward, nj, nTot) ∈
        playNGamesCalls G fuel rand N (initialGame G initState players) →
      1 ≤ nj ∧ 1 ≤ nTot := by
  intro totReward nj nTot h
  exact playLoopCalls_pos fuel rand N.toNat 0 (initialGame G initState players)
    (Reachable.init (initializeRoot_construct G initState players)) _ h

end SelectionCalls

end MCTS

/-! ## The simulation of tic-tac-toe -/

namespace MCTS

namespace TicTacToe

/-- One call of `defaultPolicy` on a state that is not terminal fills one
free cell. -/
theorem defaultPolicy_fills (r : Nat) {s : gameState} (hv : validState s)
    (ht : isTerminal s = false) :
    ∃ s1, defaultPolicy r s (getActions s) = .ok s1 ∧ validState s1 ∧
      freeCells s1 + 1 = freeCells s := by
  have hne : getActions s ≠ [] := getActions_ne_nil hv ht
  have hlen : 0 < (getActions s).length := List.length_pos.2 hne
  have hidx : r % (getActions s).length < (getActions s).length := Nat.mod_lt _ hlen
  have hget : (getActions s)[r % (getActions s).length]? =
      some (getActions s)[r % (getActions s).length] := List.getElem?_eq_getElem hidx
  obtain ⟨i, j, hfree, ha⟩ := mem_getActions.1 (List.getElem?_mem hget)
  obtain ⟨s1, h1, h2, h3⟩ := getNextState_free hv hfree
  refine ⟨s1, ?_, h2, h3⟩
  unfold defaultPolicy
  rw [hget]
  simp only
  rw [ha]
  exact h1

/-- The loop of `finishSimulation` on tic-tac-toe ends at a terminal state
after at most as many calls of `defaultPolicy` as the state has free cells,
each with an action list that is not empty. -/
theorem simulationLoop_calls (explore : Int → Int → Dbl) (draws : Nat → Nat) :
    ∀ (fuel k : Nat) (s : gameState), validState s → freeCells s < fuel →
      ∃ t, simulationLoop (game explore) draws fuel k s = .ok t ∧ isTerminal t = true ∧
        (simulationCalls (game explore) draws fuel k s).length ≤ freeCells s ∧
        ∀ call ∈ simulationCalls (game explore) draws fuel k s, call.2 ≠ [] := by
  intro fuel
  induction fuel with
  | zero => intro k s _ h; omega
  | succ fuel ih =>
    intro k s hv hfuel
    unfold simulationLoop simulationCalls
    cases ht : isTerminal s with
    | true =>
      refine ⟨s, ?_, ht, ?_, ?_⟩
      · show (if isTerminal s = true then _ else _) = _
        rw [if_pos ht]
      · show (if isTerminal s = true then _ else _ : List _).length ≤ _
        rw [if_pos ht]
        exact Nat.zero_le _
      · intro call hcall
        have hcall1 : call ∈ (if isTerminal s = true then []
            else (s, getActions s) :: _ : List (gameState × List gameAction)) := hcall
        rw [if_pos ht] at hcall1
        simp at hcall1
    | false =>
      obtain ⟨s1, hpol, hv1, hfree⟩ := defaultPolicy_fills (draws k) hv ht
      obtain ⟨t, hloop, hterm, hlen, hcalls⟩ := ih (k + 1) s1 hv1 (by omega)
      have hpol1 : (game explore).defaultPolicy (draws k) s ((game explore).getActions s) =
          .ok s1 := hpol
      have hnt : ¬ ((game explore).isTerminal s = true) := by
        show ¬ (isTerminal s = true)
        rw [ht]
        simp
      refine ⟨t, ?_, hterm, ?_, ?_⟩
      · rw [if_neg hnt, hpol1]
        exact hloop
      · rw [if_neg hnt, hpol1]
        simp only [List.length_cons]
        omega
      · intro call hcall
        rw [if_neg hnt, hpol1] at hcall
        rcases List.mem_cons.1 hcall with rfl | hcall
        · exact getActions_ne_nil hv ht
        · exact hcalls call hcall

/-- C18: for every tic-tac-toe state (cells in `0, 1, 2`, player 0 or 1 to
go) at the current node and every sequence of random choices,
`finishSimulation` ends normally at a terminal state; it makes at most `e`
calls of `defaultPolicy`, where `e` is the number of empty cells of the
starting state, none of them with an empty action list; and it changes
`gameRewards` only: memory and `currentNode` are as before. -/
theorem finishSimulation_terminates (explore : Int → Int → Dbl)
    (g : currentGame gameState gameAction) (cur : node gameState gameAction)
    (draws : Nat → Nat) (fuel : Nat)
    (hread : readNode g.mem g.currentNode = .ok cur) (hvalid : validState cur.gameState)
    (hfuel : freeCells cur.gameState < fuel) :
    ∃ t, isTerminal t = true ∧
      finishSimulation (game explore) fuel draws g =
        .ok { g with gameRewards := assignRewards t } ∧
      (simulationCalls (game explore) draws fuel 0 cur.gameState).length ≤
        freeCells cur.gameState ∧
      ∀ call ∈ simulationCalls (game explore) draws fuel 0 cur.gameState, call.2 ≠ [] := by
  obtain ⟨t, hloop, hterm, hlen, hcalls⟩ :=
    simulationLoop_calls explore draws fuel 0 cur.gameState hvalid hfuel
  refine ⟨t, hterm, ?_, hlen, hcalls⟩
  unfold finishSimulation
  rw [hread]
  simp only [hloop]
  rfl

end TicTacToe

end MCTS

/-! ## The link `expansion` takes -/

namespace MCTS

section ExpansionTheorems

variable {S A : Type}

/-- Where the loop of `selection` ends, when it ends: at a node that was
given a state and that is terminal or has an untried action. -/
theorem selectionLoop_inv {G : Game S A} {mem : List (Option (node S A))} (hs : Shape G mem)
    (hst : Stats none mem) :
    ∀ (fuel a : Nat) (nd : node S A) (res : Ptr), cellAt mem a = some nd →
      nd.prevNode ≠ .wild → selectionLoop G mem fuel (.addr a) = .ok res →
      ∃ (c : Nat) (cn : node S A), res = .addr c ∧ cellAt mem c = some cn ∧
        cn.prevNode ≠ .wild ∧
        (cn.allActionsTried = false ∨ G.isTerminal cn.gameState = true) := by
  intro fuel
  induction fuel with
  | zero => intro a nd res _ _ h; simp [selectionLoop] at h
  | succ fuel ih =>
    intro a nd res hcell hw h
    unfold selectionLoop at h
    rw [readNode_of_cellAt hcell] at h
    simp only at h
    cases hflag : nd.allActionsTried with
    | false =>
      simp only [hflag, Bool.false_eq_true, if_false, Except.ok.injEq] at h
      exact ⟨a, nd, h.symm, hcell, hw, Or.inl hflag⟩
    | true =>
      simp only [hflag, if_true] at h
      cases hscan : selectionScan G mem nd.availableLinks (.fin (-99999999999)) none 0 with
      | error e => simp [hscan] at h
      | ok mi =>
        cases mi with
        | none => simp [hscan] at h
        | some maxInd =>
          simp only [hscan] at h
          cases hl : nd.availableLinks[maxInd]? with
          | none => simp [hl] at h
          | some lnk =>
            simp only [hl] at h
            obtain ⟨_, c, hc, _, hclt⟩ := hs.link_up a nd maxInd lnk hcell hl
            obtain ⟨cn, hcn⟩ := hs.live c hclt
            rw [hc, readNode_of_cellAt hcn] at h
            simp only at h
            have htried := (hst.flag_tried a nd hcell hflag).2 maxInd lnk hl (by simp)
            have hcw : cn.prevNode ≠ .wild :=
              (hst.tried_iff a nd maxInd lnk c cn hcell hl hc hcn (by simp)).1 htried
            cases hterm : G.isTerminal cn.gameState with
            | true =>
              simp only [hterm, if_true, Except.ok.injEq] at h
              exact ⟨c, cn, h.symm, hcn, hcw, Or.inr hterm⟩
            | false =>
              simp only [hterm, Bool.false_eq_true, if_false] at h
              exact ih c cn res hcn hcw h

/-- In every session a node that was given a state has the legal actions of
its state as its available actions. -/
theorem Reachable.actions {G : Game S A} {initState : S} {g : currentGame S A}
    (hreach : Reachable G initState g) (a : Nat) (nd : node S A)
    (hcell : cellAt g.mem a = some nd) (hw : nd.prevNode ≠ .wild) :
    nd.availableActions = G.getActions nd.gameState := by
  refine Reachable.nodeWise
    (fun x => x.prevNode ≠ .wild → x.availableActions = G.getActions x.gameState)
    ?_ ?_ ?_ ?_ ?_ hreach a nd hcell hw
  · intro h
    exact absurd rfl h
  · intro _
    rfl
  · intro r cur h hw1
    rw [flaggedNode_actions, flaggedNode_state]
    exact h (by rw [← flaggedNode_prevNode r cur]; exact hw1)
  · intro newState c j n len _
    rfl
  · intro r j x h hw1
    cases hl : x.availableLinks[j]? with
    | none =>
      have hb : bump r j x = x := by simp [bump, hl]
      rw [hb] at hw1 ⊢
      exact h hw1
    | some l =>
      rw [bump_of_link r j x hl] at hw1 ⊢
      exact h hw1

/-- C20: in every game of `playNGames` on a session built from a fresh one,
for a game whose `getActions` returns a list that is not empty at every state
of a node of the tree that is not terminal: when `selection` has ended at a
node that is not terminal (so `expansion` is called), the node has an untried
link, so the shuffled list `unTried` has a first element `j`; link `j` has
`nTotal == 0` and the node behind it is still as `new` made it. -/
theorem expansion_finds_untried_link {G : Game S A}
    {initState : S} {g g1 : currentGame S A} (hreach : Reachable G initState g)
    (hacts : ∀ (a : Nat) (nd : node S A), cellAt g.mem a = some nd → nd.prevNode ≠ .wild →
      G.isTerminal nd.gameState = false → G.getActions nd.gameState ≠ [])
    {cur : node S A} (hsel : selection G g = .ok g1)
    (hread : readNode g1.mem g1.currentNode = .ok cur)
    (hterm : G.isTerminal cur.gameState = false) (r : Nat) :
    ∃ (j n : Nat) (lnk : link),
      (random_shuffle r (unTriedOf cur.availableLinks))[0]? = some j ∧
      cur.availableLinks[j]? = some lnk ∧ lnk.nTotal = 0 ∧ lnk.nextState = .addr n ∧
      cellAt g1.mem n = some (newNode G) := by
  obtain ⟨hs, hst⟩ := hreach.invariants
  obtain ⟨root, hroot, hnull⟩ := hs.root
  -- where selection ended
  unfold selection at hsel
  cases hloop : selectionLoop G g.mem (g.mem.length + 1) (.addr 0) with
  | error e => simp [hloop] at hsel
  | ok res =>
    simp only [hloop, Except.ok.injEq] at hsel
    subst hsel
    obtain ⟨c, cn, rfl, hcn, hcw, hcase⟩ :=
      selectionLoop_inv hs hst _ 0 root res hroot (by rw [hnull]; simp) hloop
    simp only at hread
    rw [readNode_of_cellAt hcn] at hread
    have hcur : cn = cur := by simpa using hread
    subst hcur
    have hflag : cn.allActionsTried = false := by
      rcases hcase with h | h
      · exact h
      · rw [hterm] at h
        cases h
    -- the node has links
    have hactions := hreach.actions c cn hcn hcw
    have hne : cn.availableLinks ≠ [] := by
      intro h
      have h0 : (G.getActions cn.gameState).length = 0 := by
        rw [← hactions, ← hs.acts_len c cn hcn, h]
        rfl
      exact hacts c cn hcn hcw hterm (List.length_eq_zero.1 h0)
    obtain ⟨i, l, hi, hz, _⟩ := hst.flag_untried c cn hcn hflag hne
    have hun : unTriedOf cn.availableLinks ≠ [] := by
      intro h
      have : i ∈ unTriedOf cn.availableLinks := mem_unTriedOf.2 ⟨l, hi, hz⟩
      rw [h] at this
      simp at this
    obtain ⟨j, hj⟩ := random_shuffle_head_exists r hun
    obtain ⟨lnk, hlnk, hzero⟩ := mem_unTriedOf.1 (random_shuffle_head hj)
    obtain ⟨_, n, hn, hcn1, hnlt⟩ := hs.link_up c cn j lnk hcn hlnk
    obtain ⟨child, hchild⟩ := hs.live n hnlt
    have hwild : child.prevNode = .wild := by
      by_contra hne1
      have := (hst.tried_iff c cn j lnk n child hcn hlnk hn hchild (by simp)).2 hne1
      omega
    have hnew : child = newNode G := by
      rcases hs.prev n child hchild (by omega) with h | ⟨p, k, par, l1, hp, _⟩
      · exact h
      · rw [hwild] at hp
        cases hp
    refine ⟨j, n, lnk, hj, hlnk, hzero, hn, ?_⟩
    simp only
    rw [hchild, hnew]

end ExpansionTheorems

end MCTS

/-! ## Sessions with calls of `cleanUp` -/

namespace MCTS

section ReuseSessions

variable {S A : Type}

/-- Every node `cleanUp` leaves in memory was a node of memory before. -/
theorem cleanUp_nodes {G : Game S A} {g g1 : currentGame S A} (h : cleanUp G g = .ok g1)
    (a : Nat) (nd : node S A) (hcell : cellAt g1.mem a = some nd) :
    ∃ b, cellAt g.mem b = some nd := by
  obtain ⟨root, child, i, c, lnk, mem1, _, _, hfreed, _, _, hchild, _, rfl⟩ := cleanUp_inv h
  simp only at hcell
  rw [cellAt_write] at hcell
  split at hcell
  · simp only [Option.some.injEq] at hcell
    subst hcell
    exact ⟨c, hchild⟩
  · exact ⟨a, hfreed.2 a nd hcell⟩

/-- A session with calls of `cleanUp` is a session of games only, or it has no
node with `prevNode == NULL` and all its nodes are nodes of a session of games
only. -/
theorem ReachableReuse.split {G : Game S A} {initState : S} {g : currentGame S A}
    (h : ReachableReuse G initState g) :
    Reachable G initState g ∨
    (NoNull g.mem ∧ ∃ g0, Reachable G initState g0 ∧
      ∀ (a : Nat) (nd : node S A), cellAt g.mem a = some nd → ∃ b, cellAt g0.mem b = some nd) := by
  induction h with
  | init hinit => exact Or.inl (Reachable.init hinit)
  | @game fuel ρ g g1 _ hgame ih =>
    rcases ih with hr | ⟨hnn, _⟩
    · exact Or.inl (Reachable.game hr hgame)
    · exact absurd hgame (playOneGame_noNull hnn g1)
  | @clean g g1 _ hclean ih =>
    right
    rcases ih with hr | ⟨hnn, g0, hr0, hsub⟩
    · exact ⟨cleanUp_noNull hr.invariants.1 hclean, g, hr, cleanUp_nodes hclean⟩
    · refine ⟨?_, g0, hr0, ?_⟩
      · intro a nd hcell
        obtain ⟨b, hb⟩ := cleanUp_nodes hclean a nd hcell
        exact hnn b nd hb
      · intro a nd hcell
        obtain ⟨b, hb⟩ := cleanUp_nodes hclean a nd hcell
        exact hsub b nd hb

/-- C15: in every session built by the set-up of the root and any sequence
of games of `playNGames` and calls of `cleanUp`, every node has as many
available actions as links (link `i` stands at the index of action `i`). -/
theorem actions_links_same_size {G : Game S A} {initState : S} {g : currentGame S A}
    (hreach : ReachableReuse G initState g) (a : Nat) (nd : node S A)
    (hcell : cellAt g.mem a = some nd) :
    nd.availableActions.length = nd.availableLinks.length := by
  rcases hreach.split with hr | ⟨_, g0, hr0, hsub⟩
  · exact (hr.invariants.1.acts_len a nd hcell).symm
  · obtain ⟨b, hb⟩ := hsub a nd hcell
    exact (hr0.invariants.1.acts_len b nd hb).symm

end ReuseSessions

end MCTS

/-! ## The later claims at concrete sessions of tic-tac-toe -/

namespace MCTS

section ReuseOfReachable

variable {S A : Type}

theorem Reachable.reuse {G : Game S A} {initState : S} {g : currentGame S A}
    (h : Reachable G initState g) : ReachableReuse G initState g := by
  induction h with
  | init hinit => exact ReachableReuse.init hinit
  | game _ hgame ih => exact ReachableReuse.game ih hgame

end ReuseOfReachable

namespace TicTacToe

theorem validState_blank : validState gameState.blank := by
  unfold validState
  decide

theorem reusedSession_eq : cleanUp sampleGame playedSession = .ok reusedSession := by
  decide!

/-- C11 on the empty board with 5000 games, as `main` runs them. -/
theorem bestInitialAction_free_cell_witness :
    ∃ g0 g a, initializeRoot (game constExplore) (currentGame.construct gameState.blank 2) =
        .ok g0 ∧
      playNGames (game constExplore) 10 sampleRand ((5000 : Nat) : Int) g0 = .ok g ∧
      bestInitialAction (game constExplore) g = .ok a ∧
      ∃ (i j : Fin 3), a.ind1 = i.val ∧ a.ind2 = j.val ∧ gameState.blank.board i j = 0 :=
  bestInitialAction_free_cell constExplore validExplore_constExplore gameState.blank 2 5000 10
    sampleRand validState_blank (by decide) (by decide) (by decide)

/-- C12 on `wonState`, where player 0 has completed the top row. -/
theorem assignRewards_spec_witness :
    (assignRewards wonState).length = 2 ∧ (∀ x ∈ assignRewards wonState, |x| ≤ 1) ∧
    (completedLine wonState 1 → ¬ completedLine wonState 2 →
      assignRewards wonState = [1, -1]) ∧
    (completedLine wonState 2 → ¬ completedLine wonState 1 →
      assignRewards wonState = [-1, 1]) ∧
    (¬ completedLine wonState 1 → ¬ completedLine wonState 2 →
      assignRewards wonState = [0, 0]) :=
  assignRewards_spec wonState (by decide)

/-- C13 at the root of `playedSession`: the scores are `0, 1, 0` and the loop
moves to the child behind link 1. -/
theorem selection_step_first_max_witness :
    ∃ (c : Nat) (child : node gameState gameAction),
      ({ parentState := .addr 0, nextState := .addr 2, totReward := 0, nTotal := 1 } :
        link).nextState = .addr c ∧
      cellAt playedSession.mem c = some child ∧
      selectionScan sampleGame playedSession.mem playedRoot.availableLinks
        (.fin (-99999999999)) none 0 = .ok (some 1) ∧
      ∀ fuel, selectionLoop sampleGame playedSession.mem (fuel + 1) (.addr 0) =
        if sampleGame.isTerminal child.gameState then .ok (.addr c)
        else selectionLoop sampleGame playedSession.mem fuel (.addr c) :=
  selection_step_first_max playedSession_reachable
    (by decide! : cellAt playedSession.mem 0 = some playedRoot) (by decide!)
    (by decide! : playedRoot.availableLinks[1]? =
      some { parentState := .addr 0, nextState := .addr 2, totReward := 0, nTotal := 1 })
    (by decide!)
    (fun j l' hj h =>
      (by decide! : ∀ j, j < 1 → ∀ l' ∈ playedRoot.availableLinks[j]?,
        (sampleGame.selectionEvaluation 0 1 playedRoot.nVisits).gt
          (sampleGame.selectionEvaluation l'.totReward l'.nTotal playedRoot.nVisits) = true)
        j hj l' h)
    (by decide!)

/-- C14 as stated fails: after one game on `lastMoveState` the node in cell 1
was given the full board as its state; it has no link, so every link it has
was tried, and its `allActionsTried` is `false`. -/
theorem allActionsTried_false_without_links :
    playNGames sampleGame 10 sampleRand 1 (initialGame sampleGame lastMoveState 2) =
      .ok lastMoveSession ∧
    (cellAt lastMoveSession.mem 1).map
      (fun nd => (nd.prevNode, nd.availableLinks, nd.allActionsTried,
        decide (∀ l ∈ nd.availableLinks, 1 ≤ l.nTotal))) =
      some (.addr 0, [], false, true) := by
  refine ⟨by decide!, by decide!⟩

/-- C14 (amended) at the root of `playedSession`. -/
theorem allActionsTried_iff_links_tried_witness :
    (playedRoot.availableLinks ≠ [] →
      (playedRoot.allActionsTried = true ↔ ∀ l ∈ playedRoot.availableLinks, 1 ≤ l.nTotal)) ∧
    (playedRoot.availableLinks = [] → playedRoot.allActionsTried = false) :=
  allActionsTried_iff_links_tried playedSession_reachable 0 playedRoot (by decide!)

/-- C15 at the root of `reusedSession`, the session after `playNGames(3)` and
`cleanUp()`. -/
theorem actions_links_same_size_witness :
    reusedRoot.availableActions.length = reusedRoot.availableLinks.length :=
  actions_links_same_size (ReachableReuse.clean playedSession_reachable.reuse reusedSession_eq)
    0 reusedRoot (by decide!)

/-- C16 (the code fails the claim): the documented usage on `openState`:
after the set-up of the root and `playNGames(3)` the root has `prevNode ==
NULL`; after `cleanUp()` the new root has `prevNode == &rootNode`, and no node
of memory has `prevNode == NULL`. -/
theorem rootNode_has_parent_after_cleanUp :
    initializeRoot sampleGame (currentGame.construct openState 2) = .ok freshSession ∧
    playNGames sampleGame 10 sampleRand 3 freshSession = .ok playedSession ∧
    playedSession.rootNode.map (fun root => root.prevNode) = .ok .null ∧
    cleanUp sampleGame playedSession = .ok reusedSession ∧
    reusedSession.rootNode.map (fun root => root.prevNode) = .ok (.addr 0) ∧
    ∀ (a : Nat) (nd : node gameState gameAction),
      cellAt reusedSession.mem a = some nd → nd.prevNode ≠ .null :=
  ⟨initializeRoot_construct _ _ _, playedSession_eq, by decide!, reusedSession_eq, by decide!,
    cleanUp_noNull playedSession_reachable.invariants.1 reusedSession_eq⟩

/-- C17 during `playNGames(4)` on the fresh session on `openState`: the call
`selectionEvaluation(0, 1, 3)` of the fourth game. -/
theorem selectionEvaluation_never_called_with_zero_witness :
    ((0 : ℚ), (1 : Int), (3 : Int)) ∈
      playNGamesCalls sampleGame 10 sampleRand 4 (initialGame sampleGame openState 2) ∧
    (1 : Int) ≤ 1 ∧ (1 : Int) ≤ 3 :=
  ⟨by decide!,
    selectionEvaluation_never_called_with_zero sampleGame openState 2 10 sampleRand 4 0 1 3
      (by decide!)⟩

/-- C18 on `playedSession`, whose current node is the root: the simulation
starts from `openState`, which has three free cells. -/
theorem finishSimulation_terminates_witness :
    ∃ t, isTerminal t = true ∧
      finishSimulation (game constExplore) 10 (sampleRand 3).draws playedSession =
        .ok { playedSession with gameRewards := assignRewards t } ∧
      (simulationCalls (game constExplore) (sampleRand 3).draws 10 0
        playedRoot.gameState).length ≤ freeCells playedRoot.gameState ∧
      ∀ call ∈ simulationCalls (game constExplore) (sampleRand 3).draws 10 0
        playedRoot.gameState, call.2 ≠ [] :=
  finishSimulation_terminates constExplore playedSession playedRoot (sampleRand 3).draws 10
    (by decide!) (by unfold validState; decide!) (by decide!)

/-- C19 at the root of `playedSession`: three visits, one over each link. -/
theorem nVisits_eq_sum_nTotal_witness :
    playedRoot.nVisits = sumTotals playedRoot.availableLinks :=
  nVisits_eq_sum_nTotal playedSession_reachable 0 playedRoot (by decide!)

/-- C20 in the first game on the fresh session on `openState`: `selection`
ends at the root. -/
theorem expansion_finds_untried_link_witness :
    ∃ (j n : Nat) (lnk : link),
      (random_shuffle 0 (unTriedOf (resultOr freshSession.rootNode
        (newNode sampleGame)).availableLinks))[0]? = some j ∧
      (resultOr freshSession.rootNode (newNode sampleGame)).availableLinks[j]? = some lnk ∧
      lnk.nTotal = 0 ∧ lnk.nextState = .addr n ∧
      cellAt ({ freshSession with currentNode := .addr 0 } :
        currentGame gameState gameAction).mem n = some (newNode sampleGame) :=
  expansion_finds_untried_link freshSession_reachable
    (fun a nd hcell hw ht =>
      getActions_ne_nil
        ((Reachable.good sampleGame_contract validState_openState
          freshSession_reachable).states.state_ok a nd hcell hw).1 ht)
    (by decide! : selection sampleGame freshSession =
      .ok { freshSession with currentNode := .addr 0 })
    (by decide! : readNode ({ freshSession with currentNode := .addr 0 } :
        currentGame gameState gameAction).mem (.addr 0) =
      .ok (resultOr freshSession.rootNode (newNode sampleGame)))
    (by decide!) 0

end TicTacToe

end MCTS

/-! ## Backpropagation with a double addition

The invariants of a session hold for every double addition `add`: they do not
depend on the values of `totReward`. -/

namespace MCTS

section DoubleBackprop

variable {S A : Type} {add : ℚ → ℚ → ℚ}

theorem bump_sameShape_with (r : ℚ) (i : Nat) (nd : node S A) (hw : nd.prevNode ≠ .wild) :
    nd.sameShape (bumpWith add r i nd) := by
  unfold bumpWith
  cases hl : nd.availableLinks[i]? with
  | none => exact node.sameShape_refl nd
  | some l =>
    refine ⟨rfl, rfl, rfl, rfl, ?_, fun h => absurd h hw⟩
    simp only
    apply List.ext_getElem?
    intro k
    simp only [List.getElem?_map, List.getElem?_set]
    by_cases hk : i = k
    · subst hk
      simp only [if_true, hl, Option.map_some']
      have hlt : i < nd.availableLinks.length := by
        by_contra hc
        rw [List.getElem?_eq_none (by omega)] at hl
        cases hl
      simp [hlt]
    · simp [hk]

theorem backpropStep_eq_with (G : Game S A) (rewards : List ℚ) (mem : List (Option (node S A)))
    {nd par : node S A} {p i : Nat} {l : link} {r : ℚ}
    (hprev : nd.prevNode = .addr p) (hact : nd.prevAction = some i)
    (hpar : cellAt mem p = some par) (hl : par.availableLinks[i]? = some l)
    (hr : rewards[G.plyrsGo par.gameState]? = some r) :
    backpropStepWith add G rewards mem nd = .ok (writeNode mem p (bumpWith add r i par), .addr p) := by
  simp only [backpropStepWith, hprev, hact, readNode, hpar, hl, hr, bumpWith]

/-- The loop of `backpropagation`, started at a node with a path up to a node
without `prevNode`, ends at that node and has bumped the parents on the
path. -/
theorem backpropLoop_spec_with (G : Game S A) (rewards : List ℚ) :
    ∀ (path : List (Nat × Nat)) (mem : List (Option (node S A))) (a : Nat),
      PathUp mem a path →
      (∀ q j nd, (q, j) ∈ path → cellAt mem q = some nd →
        G.plyrsGo nd.gameState < rewards.length) →
      ∀ fuel, path.length < fuel →
        ∃ mem1 e, backpropLoopWith add G rewards fuel mem (.addr a) = .ok (mem1, .addr e) ∧
          BumpedWith add G rewards path mem mem1 ∧
          (∃ nd, cellAt mem e = some nd ∧ nd.prevNode = .null) ∧
          (path = [] → e = a) ∧ (path ≠ [] → e < a) := by
  intro path
  induction path with
  | nil =>
    intro mem a hp _ fuel hfuel
    cases hp with
    | stop hx hnull =>
      obtain ⟨f, rfl⟩ : ∃ f, fuel = f + 1 := ⟨fuel - 1, by simp at hfuel; omega⟩
      refine ⟨mem, a, ?_, ⟨rfl, fun q nd hq => ⟨fun _ => hq, fun j hj => by cases hj⟩⟩,
        ⟨_, hx, hnull⟩, fun _ => rfl, fun h => absurd rfl h⟩
      simp only [backpropLoopWith, readNode, hx, hnull]
  | cons hd rest ih =>
    intro mem a hp hrew fuel hfuel
    cases hp with
    | step hx hprev hact hpar hl hnext hlt hrest =>
      rename_i p i nd par l
      obtain ⟨f, rfl⟩ : ∃ f, fuel = f + 1 := ⟨fuel - 1, by simp at hfuel; omega⟩
      have hrlt := hrew p i par (List.mem_cons_self _ _) hpar
      obtain ⟨r, hr⟩ : ∃ r, rewards[G.plyrsGo par.gameState]? = some r :=
        ⟨_, List.getElem?_eq_getElem hrlt⟩
      obtain ⟨par1, hpar1, hw⟩ := hrest.start_set
      rw [hpar] at hpar1
      cases hpar1
      have hsame : SameShape mem (writeNode mem p (bumpWith add r i par)) :=
        SameShape.write hpar (bump_sameShape_with r i par hw)
      have hrest1 := hrest.congr_path hsame
      have hnot : ∀ j, (p, j) ∉ rest := fun j hj =>
        absurd (hrest.parent_lt _ _ hj) (Nat.lt_irrefl _)
      have hrew1 : ∀ q j nd1, (q, j) ∈ rest →
          cellAt (writeNode mem p (bumpWith add r i par)) q = some nd1 →
          G.plyrsGo nd1.gameState < rewards.length := by
        intro q j nd1 hq hnd1
        have hne : p ≠ q := fun h => hnot j (h ▸ hq)
        rw [cellAt_write] at hnd1
        simp only [hne, false_and, if_false] at hnd1
        exact hrew q j nd1 (List.mem_cons_of_mem _ hq) hnd1
      obtain ⟨mem1, e, hloop, hb, ⟨en, hen, henull⟩, he1, he2⟩ :=
        ih _ p hrest1 hrew1 f (by simp at hfuel; omega)
      have hple : e ≤ p := by
        by_cases hre : rest = []
        · exact le_of_eq (he1 hre)
        · exact le_of_lt (he2 hre)
      refine ⟨mem1, e, ?_, ?_, ?_, (fun h => by cases h), (fun _ => by omega)⟩
      · simp only [backpropLoopWith, readNode, hx, hprev]
        rw [backpropStep_eq_with G rewards mem hprev hact hpar hl hr]
        exact hloop
      · refine ⟨by rw [hb.1, length_writeNode], ?_⟩
        intro q nd1 hq
        by_cases hqp : p = q
        · subst hqp
          rw [hpar] at hq
          cases hq
          have hcell : cellAt (writeNode mem p (bumpWith add r i par)) p = some (bumpWith add r i par) := by
            rw [cellAt_write]; simp [cellAt_lt hpar]
          have := (hb.2 p _ hcell).1 hnot
          refine ⟨fun h => absurd (List.mem_cons_self _ _) (h i), ?_⟩
          intro j hj
          rcases List.mem_cons.1 hj with hj | hj
          · cases hj
            exact ⟨r, hr, this⟩
          · exact absurd hj (hnot j)
        · have hcell : cellAt (writeNode mem p (bumpWith add r i par)) q = some nd1 := by
            rw [cellAt_write]; simp [hqp, hq]
          obtain ⟨h1, h2⟩ := hb.2 q nd1 hcell
          refine ⟨fun h => h1 (fun j hj => h j (List.mem_cons_of_mem _ hj)), ?_⟩
          intro j hj
          rcases List.mem_cons.1 hj with hj | hj
          · cases hj; exact absurd rfl hqp
          · exact h2 j hj
      · by_cases hep : p = e
        · subst hep
          refine ⟨par, hpar, ?_⟩
          rw [cellAt_write] at hen
          simp only [cellAt_lt hpar, and_self, if_true] at hen
          cases hen
          rw [(bump_sameShape_with r i par hw).2.1]
          exact henull
        · rw [cellAt_write] at hen
          simp only [hep, false_and, if_false] at hen
          exact ⟨en, hen, henull⟩

theorem bump_of_link_with (r : ℚ) (i : Nat) (nd : node S A) {l : link}
    (hl : nd.availableLinks[i]? = some l) :
    bumpWith add r i nd = { nd with
      nVisits := nd.nVisits + 1,
      availableLinks := nd.availableLinks.set i
        { l with nTotal := l.nTotal + 1, totReward := add l.totReward r } } := by
  simp only [bumpWith, hl]

theorem bump_flag_with (r : ℚ) (i : Nat) (nd : node S A) :
    (bumpWith add r i nd).allActionsTried = nd.allActionsTried := by
  unfold bumpWith
  cases nd.availableLinks[i]? <;> rfl

/-- A link of a bumped node: the link on the path has counted one more game
and one more reward, every other link is unchanged. -/
theorem bump_link_with (r : ℚ) (j : Nat) (nd : node S A) {lj : link}
    (hj : nd.availableLinks[j]? = some lj) {i : Nat} {l1 : link}
    (hl1 : (bumpWith add r j nd).availableLinks[i]? = some l1) :
    ∃ l, nd.availableLinks[i]? = some l ∧ l1.nextState = l.nextState ∧
      l1.parentState = l.parentState ∧
      ((i = j ∧ l1.nTotal = l.nTotal + 1 ∧ l1.totReward = add l.totReward r) ∨
       (i ≠ j ∧ l1 = l)) := by
  rw [bump_of_link_with r j nd hj] at hl1
  simp only [List.getElem?_set] at hl1
  by_cases h : j = i
  · subst h
    have hlt : j < nd.availableLinks.length := by
      by_contra hc
      rw [List.getElem?_eq_none (by omega)] at hj
      cases hj
    simp only [if_true, hlt] at hl1
    cases hl1
    exact ⟨lj, hj, rfl, rfl, Or.inl ⟨rfl, rfl, rfl⟩⟩
  · simp only [h, if_false] at hl1
    exact ⟨l1, hl1, rfl, rfl, Or.inr ⟨fun h1 => h h1.symm, rfl⟩⟩

theorem bump_link_other_with (r : ℚ) (j : Nat) (nd : node S A) {i : Nat} (hij : i ≠ j) :
    (bumpWith add r j nd).availableLinks[i]? = nd.availableLinks[i]? := by
  unfold bumpWith
  cases hj : nd.availableLinks[j]? with
  | none => rfl
  | some lj =>
    simp only [List.getElem?_set]
    rw [if_neg (fun h : j = i => hij h.symm)]

theorem bump_nVisits_with (r : ℚ) (j : Nat) (nd : node S A) {lj : link}
    (hj : nd.availableLinks[j]? = some lj) : (bumpWith add r j nd).nVisits = nd.nVisits + 1 := by
  rw [bump_of_link_with r j nd hj]

/-- A cell after `backpropagation` is the cell before it, bumped when it is a
parent on the path. -/
theorem BumpedWith.cases_with {G : Game S A} {rewards : List ℚ} {path : List (Nat × Nat)}
    {mem mem1 : List (Option (node S A))} (hb : BumpedWith add G rewards path mem mem1)
    (hlive : ∀ a, a < mem.length → ∃ nd, cellAt mem a = some nd) {q : Nat} {y : node S A}
    (hy : cellAt mem1 q = some y) :
    ∃ x, cellAt mem q = some x ∧
      (((∀ j, (q, j) ∉ path) ∧ y = x) ∨
       ∃ j r, (q, j) ∈ path ∧ rewards[G.plyrsGo x.gameState]? = some r ∧ y = bumpWith add r j x) := by
  have hlt : q < mem.length := by rw [← hb.1]; exact cellAt_lt hy
  obtain ⟨x, hx⟩ := hlive q hlt
  refine ⟨x, hx, ?_⟩
  obtain ⟨h1, h2⟩ := hb.2 q x hx
  by_cases hp : ∃ j, (q, j) ∈ path
  · obtain ⟨j, hj⟩ := hp
    obtain ⟨r, hr, hc⟩ := h2 j hj
    rw [hy] at hc
    cases hc
    exact Or.inr ⟨j, r, hj, hr, rfl⟩
  · have hn : ∀ j, (q, j) ∉ path := fun j hj => hp ⟨j, hj⟩
    have hc := h1 hn
    rw [hy] at hc
    cases hc
    exact Or.inl ⟨hn, rfl⟩

theorem BumpedWith.sameShape_with {G : Game S A} {rewards : List ℚ} {path : List (Nat × Nat)}
    {mem mem1 : List (Option (node S A))} {a : Nat} (hb : BumpedWith add G rewards path mem mem1)
    (hp : PathUp mem a path) : SameShape mem mem1 := by
  refine ⟨hb.1.symm, ?_⟩
  intro q x hx
  obtain ⟨h1, h2⟩ := hb.2 q x hx
  by_cases hq : ∃ j, (q, j) ∈ path
  · obtain ⟨j, hj⟩ := hq
    obtain ⟨r, _, hc⟩ := h2 j hj
    obtain ⟨_, _, par, _, _, _, _, hpar, hw, _, _⟩ := hp.mem_info q j hj
    rw [hx] at hpar
    cases hpar
    exact ⟨_, hc, bump_sameShape_with r j x hw⟩
  · exact ⟨x, h1 (fun j hj => hq ⟨j, hj⟩), node.sameShape_refl x⟩

/-- A link after `backpropagation`, related to the same link before it. -/
theorem BumpedWith.of_link_with {G : Game S A} {rewards : List ℚ} {path : List (Nat × Nat)}
    {mem mem1 : List (Option (node S A))} {a : Nat} (hb : BumpedWith add G rewards path mem mem1)
    (hlive : ∀ a, a < mem.length → ∃ nd, cellAt mem a = some nd) (hp : PathUp mem a path)
    {q i : Nat} {y : node S A} {l1 : link}
    (hy : cellAt mem1 q = some y) (hl1 : y.availableLinks[i]? = some l1) :
    ∃ x l, cellAt mem q = some x ∧ x.availableLinks[i]? = some l ∧
      l1.nextState = l.nextState ∧ y.allActionsTried = x.allActionsTried ∧
      x.nVisits ≤ y.nVisits ∧
      (((q, i) ∈ path ∧ l1.nTotal = l.nTotal + 1 ∧ y.nVisits = x.nVisits + 1 ∧
          ∃ r, rewards[G.plyrsGo x.gameState]? = some r ∧ l1.totReward = add l.totReward r) ∨
       ((q, i) ∉ path ∧ l1 = l)) := by
  obtain ⟨x, hx, hc⟩ := hb.cases_with hlive hy
  rcases hc with ⟨hn, rfl⟩ | ⟨j, r, hj, hr, rfl⟩
  · exact ⟨y, l1, hx, hl1, rfl, rfl, le_refl _, Or.inr ⟨hn i, rfl⟩⟩
  · obtain ⟨_, _, par, lj, _, _, _, hpar, _, hlj, _⟩ := hp.mem_info q j hj
    rw [hx] at hpar
    cases hpar
    obtain ⟨l, hl, hn, _, hcase⟩ := bump_link_with r j x hlj hl1
    have hv : (bumpWith add r j x).nVisits = x.nVisits + 1 := bump_nVisits_with r j x hlj
    refine ⟨x, l, hx, hl, hn, bump_flag_with r j x, by rw [hv]; omega, ?_⟩
    rcases hcase with ⟨hij, h1, h2⟩ | ⟨hij, h1⟩
    · subst hij
      exact Or.inl ⟨hj, h1, hv, r, hr, h2⟩
    · refine Or.inr ⟨?_, h1⟩
      intro hi
      exact hij (hp.index_unique q i j hi hj)

/-- A link off the path is still there after `backpropagation`. -/
theorem BumpedWith.off_path_with {G : Game S A} {rewards : List ℚ} {path : List (Nat × Nat)}
    {mem mem1 : List (Option (node S A))} (hb : BumpedWith add G rewards path mem mem1)
    {q i : Nat} {x : node S A} {l : link}
    (hx : cellAt mem q = some x) (hl : x.availableLinks[i]? = some l) (hoff : (q, i) ∉ path) :
    ∃ y, cellAt mem1 q = some y ∧ y.availableLinks[i]? = some l := by
  obtain ⟨h1, h2⟩ := hb.2 q x hx
  by_cases hq : ∃ j, (q, j) ∈ path
  · obtain ⟨j, hj⟩ := hq
    obtain ⟨r, _, hc⟩ := h2 j hj
    have hij : i ≠ j := fun h => hoff (h ▸ hj)
    exact ⟨_, hc, by rw [bump_link_other_with r j x hij]; exact hl⟩
  · exact ⟨x, h1 (fun j hj => hq ⟨j, hj⟩), hl⟩

/-- `backpropagation` along a path that starts with the link just expanded (or
after a game that expanded nothing) restores the invariant on the statistics. -/
theorem Stats.bumped_stats_with {G : Game S A} {rewards : List ℚ} {ex : Option (Nat × Nat)}
    {path : List (Nat × Nat)} {mem mem1 : List (Option (node S A))} {a : Nat}
    (hst : Stats ex mem) (hlive : ∀ a, a < mem.length → ∃ nd, cellAt mem a = some nd)
    (hp : PathUp mem a path) (hex : ∀ p i, ex = some (p, i) → (p, i) ∈ path)
    (hb : BumpedWith add G rewards path mem mem1) : Stats none mem1 := by
  have hsame := hb.sameShape_with hp
  have hoffex : ∀ q i, (q, i) ∉ path → some (q, i) ≠ ex := fun q i hoff h =>
    hoff (hex q i h.symm)
  constructor
  · intro q y l1 hy hmem
    obtain ⟨i, hl1⟩ := List.getElem?_of_mem hmem
    obtain ⟨x, l, hx, hl, _, _, _, hc⟩ := hb.of_link_with hlive hp hy hl1
    have := hst.nonneg q x l hx (List.getElem?_mem hl)
    rcases hc with ⟨_, h, _⟩ | ⟨_, rfl⟩
    · omega
    · exact this
  · intro q y i l1 c cn1 hy hl1 hnext hcn1 _
    obtain ⟨x, l, hx, hl, hn, _, _, hc⟩ := hb.of_link_with hlive hp hy hl1
    obtain ⟨cn, hcn, hcc⟩ := hsame.back hlive hcn1
    rw [← hcc.2.1]
    rw [hn] at hnext
    rcases hc with ⟨hon, h, _⟩ | ⟨hoff, rfl⟩
    · obtain ⟨c0, cn0, par, l0, hcn0, hprev0, _, hpar, _, hl0, hnext0⟩ := hp.mem_info q i hon
      rw [hx] at hpar
      cases hpar
      rw [hl] at hl0
      cases hl0
      rw [hnext] at hnext0
      cases hnext0
      rw [hcn] at hcn0
      cases hcn0
      have := hst.nonneg q x l hx (List.getElem?_mem hl)
      constructor
      · intro _; rw [hprev0]; simp
      · intro _; omega
    · exact hst.tried_iff q x i l1 c cn hx hl hnext hcn (hoffex q i hoff)
  · intro p i h
    cases h
  · intro q y hy hflag
    obtain ⟨x, hx, hxy⟩ := hsame.back hlive hy
    have hfx : x.allActionsTried = true := by
      obtain ⟨x1, hx1, hc⟩ := hb.cases_with hlive hy
      rw [hx] at hx1
      cases hx1
      rcases hc with ⟨_, rfl⟩ | ⟨j, r, _, _, rfl⟩
      · exact hflag
      · rw [bump_flag_with] at hflag; exact hflag
    obtain ⟨hne, hall⟩ := hst.flag_tried q x hx hfx
    constructor
    · intro h
      apply hne
      have := node.sameShape_length hxy
      rw [h] at this
      exact List.length_eq_zero.1 this
    · intro i l1 hl1 _
      obtain ⟨x1, l, hx1, hl, _, _, _, hc⟩ := hb.of_link_with hlive hp hy hl1
      rw [hx] at hx1
      cases hx1
      rcases hc with ⟨_, h, _⟩ | ⟨hoff, rfl⟩
      · have := hst.nonneg q x l hx (List.getElem?_mem hl)
        omega
      · exact hall i l1 hl (hoffex q i hoff)
  · intro q y hy hflag hne
    obtain ⟨x, hx, hxy⟩ := hsame.back hlive hy
    have hfx : x.allActionsTried = false := by
      obtain ⟨x1, hx1, hc⟩ := hb.cases_with hlive hy
      rw [hx] at hx1
      cases hx1
      rcases hc with ⟨_, rfl⟩ | ⟨j, r, _, _, rfl⟩
      · exact hflag
      · rw [bump_flag_with] at hflag; exact hflag
    have hnex : x.availableLinks ≠ [] := by
      intro h
      apply hne
      have := node.sameShape_length hxy
      rw [h] at this
      exact List.length_eq_zero.1 this.symm
    obtain ⟨i, l, hl, hz, hnex1⟩ := hst.flag_untried q x hx hfx hnex
    have hoff : (q, i) ∉ path := by
      intro hon
      obtain ⟨c0, cn0, par, l0, hcn0, hprev0, _, hpar, _, hl0, hnext0⟩ := hp.mem_info q i hon
      rw [hx] at hpar
      cases hpar
      rw [hl] at hl0
      cases hl0
      have := (hst.tried_iff q x i l c0 cn0 hx hl hnext0 hcn0 hnex1).2 (by rw [hprev0]; simp)
      omega
    obtain ⟨y1, hy1, hl1⟩ := hb.off_path_with hx hl hoff
    rw [hy] at hy1
    cases hy1
    exact ⟨i, l, hl1, hz, by simp⟩
  · intro q y l1 hy hmem
    obtain ⟨i, hl1⟩ := List.getElem?_of_mem hmem
    obtain ⟨x, l, hx, hl, _, _, hle, hc⟩ := hb.of_link_with hlive hp hy hl1
    have := hst.le_visits q x l hx (List.getElem?_mem hl)
    rcases hc with ⟨_, h, hv, _⟩ | ⟨_, rfl⟩
    · omega
    · omega

theorem bump_links_with (r : ℚ) (j : Nat) (nd : node S A) {lj : link}
    (hj : nd.availableLinks[j]? = some lj) :
    (bumpWith add r j nd).availableLinks = nd.availableLinks.set j
      { lj with nTotal := lj.nTotal + 1, totReward := add lj.totReward r } := by
  rw [bump_of_link_with r j nd hj]

/-- A run of the loop of `backpropagation` that ends had enough passes and
found a reward for the player of every parent on the path. -/
theorem backpropLoop_valid_with (G : Game S A) (rewards : List ℚ) :
    ∀ (path : List (Nat × Nat)) (mem : List (Option (node S A))) (a fuel : Nat)
      (res : List (Option (node S A)) × Ptr),
      PathUp mem a path → backpropLoopWith add G rewards fuel mem (.addr a) = .ok res →
      path.length < fuel ∧
      ∀ q j nd, (q, j) ∈ path → cellAt mem q = some nd →
        G.plyrsGo nd.gameState < rewards.length := by
  intro path
  induction path with
  | nil =>
    intro mem a fuel res _ h
    cases fuel with
    | zero => simp [backpropLoopWith] at h
    | succ f => exact ⟨by simp, fun q j nd hq => by cases hq⟩
  | cons hd rest ih =>
    intro mem a fuel res hp h
    cases hp with
    | @step _ p i nd par l _ hx hprev hact hpar hl hnext hlt hrest =>
      cases fuel with
      | zero => simp [backpropLoopWith] at h
      | succ f =>
        simp only [backpropLoopWith, readNode, hx, hprev] at h
        cases hr : rewards[G.plyrsGo par.gameState]? with
        | none =>
          simp [backpropStepWith, hprev, hact, readNode, hpar, hl, hr] at h
        | some r =>
          rw [backpropStep_eq_with G rewards mem hprev hact hpar hl hr] at h
          simp only at h
          obtain ⟨par1, hpar1, hw⟩ := hrest.start_set
          rw [hpar] at hpar1
          cases hpar1
          have hsame : SameShape mem (writeNode mem p (bumpWith add r i par)) :=
            SameShape.write hpar (bump_sameShape_with r i par hw)
          obtain ⟨hlen, hval⟩ := ih _ p f res (hrest.congr_path hsame) h
          refine ⟨by simp only [List.length_cons]; omega, ?_⟩
          intro q j nd1 hq hnd1
          rcases List.mem_cons.1 hq with hq | hq
          · cases hq
            rw [hpar] at hnd1
            cases hnd1
            by_contra hc
            rw [List.getElem?_eq_none (by omega)] at hr
            cases hr
          · have hne : p ≠ q := fun h1 =>
              absurd (hrest.parent_lt _ _ (h1 ▸ hq)) (Nat.lt_irrefl _)
            apply hval q j nd1 hq
            rw [cellAt_write]
            simp [hne, hnd1]

/-- What a successful run of the loop of `backpropagation` did, in the memory
of a session: it walked the path from its start up to the root and bumped the
parents on it. -/
theorem backpropLoop_inv_with {G : Game S A} {rewards : List ℚ} {mem mem1 : List (Option (node S A))}
    (hs : Shape G mem) {fuel : Nat} {cur cur1 : Ptr}
    (h : backpropLoopWith add G rewards fuel mem cur = .ok (mem1, cur1)) :
    ∃ a path, cur = .addr a ∧ PathUp mem a path ∧ BumpedWith add G rewards path mem mem1 ∧
      cur1 = .addr 0 ∧ (path = [] → a = 0) := by
  cases fuel with
  | zero => simp [backpropLoopWith] at h
  | succ f =>
    have h0 := h
    unfold backpropLoopWith at h0
    split at h0
    · cases h0
    · rename_i nd hread
      obtain ⟨a, rfl, hx⟩ := readNode_eq_ok.1 hread
      have hw : nd.prevNode ≠ .wild := by
        intro hw
        rw [hw] at h0
        simp at h0
      obtain ⟨path, hp⟩ := hs.pathUp a nd hx hw
      obtain ⟨hlen, hval⟩ := backpropLoop_valid_with G rewards path mem a (f + 1) _ hp h
      obtain ⟨mem2, e, hloop, hb, ⟨en, hen, henull⟩, he1, _⟩ :=
        backpropLoop_spec_with G rewards path mem a hp hval (f + 1) hlen
      rw [h] at hloop
      simp only [Except.ok.injEq, Prod.mk.injEq] at hloop
      obtain ⟨rfl, rfl⟩ := hloop
      have he0 := hs.null_root hen henull
      subst he0
      exact ⟨a, path, rfl, hp, hb, rfl, fun hnil => (he1 hnil).symm⟩

theorem playOneGame_inv_with {G : Game S A} {fuel : Nat} {ρ : Rand} {g g1 : currentGame S A}
    (h : playOneGameWith add G fuel ρ g = .ok g1) :
    ∃ g3 mem1 cur1, playBeforeBackprop G fuel ρ g = .ok g3 ∧
      backpropLoopWith add G g3.gameRewards (g3.mem.length + 1) g3.mem g3.currentNode = .ok (mem1, cur1) ∧
      g1 = { g3 with mem := mem1, currentNode := cur1 } := by
  unfold playOneGameWith at h
  cases hb : playBeforeBackprop G fuel ρ g with
  | error e => simp [hb] at h
  | ok g3 =>
    simp only [hb] at h
    unfold backpropagationWith at h
    cases hl : backpropLoopWith add G g3.gameRewards (g3.mem.length + 1) g3.mem g3.currentNode with
    | error e => simp [hl] at h
    | ok res =>
      obtain ⟨mem1, cur1⟩ := res
      simp only [hl, Except.ok.injEq] at h
      exact ⟨g3, mem1, cur1, rfl, hl, h.symm⟩

/-- One game keeps the shape invariant and the invariant on the statistics. -/
theorem playOneGame_invariants_with {G : Game S A} {fuel : Nat} {ρ : Rand} {g g1 : currentGame S A}
    (hs : Shape G g.mem) (hst : Stats none g.mem) (h : playOneGameWith add G fuel ρ g = .ok g1) :
    Shape G g1.mem ∧ Stats none g1.mem := by
  obtain ⟨g3, mem1, cur1, hbefore, hloop, rfl⟩ := playOneGame_inv_with h
  obtain ⟨cur, nd, _, _, hcase⟩ := playBeforeBackprop_inv hbefore
  rcases hcase with ⟨_, rfl⟩ | ⟨_, g2, nd2, s, hexp, _, _, rfl⟩
  · obtain ⟨a, path, _, hp, hb, _, _⟩ := backpropLoop_inv_with hs hloop
    exact ⟨hs.congr_shape (hb.sameShape_with hp),
      hst.bumped_stats_with hs.live hp (fun p i hex => by cases hex) hb⟩
  · obtain ⟨c, j, n, cur0, nn, act, lnk, newState, hcur, hc, hj, hact, hl, hnext, hn, hnn, rfl⟩ :=
      expansion_inv hexp
    simp only at hc hnn hloop
    have hs2 := hs.expand_shape hst newState hc hj hl hn hnn
    have hst2 := hst.expand_stats hs newState hc hj hl hn hnn
    obtain ⟨a, path, ha, hp, hb, _, _⟩ := backpropLoop_inv_with hs2 hloop
    cases ha
    obtain ⟨_, _, _, _, hnlt, hnew, _⟩ := expand_setup hs hst hc hj hl hn hnn
    have hel : (expandedNode G nn newState c j).availableLinks = [] := by rw [hnew]; rfl
    have hcell := cellAt_expand_new (G := G) (c := c) (f := flaggedNode ρ.shuffle cur0)
      (k := (G.getActions newState).length) hnlt hel
    refine ⟨hs2.congr_shape (hb.sameShape_with hp), hst2.bumped_stats_with hs2.live hp ?_ hb⟩
    intro p i hex
    cases hex
    cases hp with
    | stop hx hnull =>
      rw [hcell] at hx
      cases hx
      cases hnull
    | step hx hprev hact1 _ _ _ _ _ =>
      rw [hcell] at hx
      cases hx
      cases hprev
      cases hact1
      exact List.mem_cons_self _ _

/-- Every session satisfies the shape invariant and the invariant on the
statistics. -/
theorem ReachableWith.invariants_with {G : Game S A} {initState : S} {g : currentGame S A}
    (h : ReachableWith add G initState g) : Shape G g.mem ∧ Stats none g.mem := by
  induction h with
  | init hinit =>
    rw [initializeRoot_construct] at hinit
    cases hinit
    exact init_invariants G initState
  | game _ hgame ih => exact playOneGame_invariants_with ih.1 ih.2 hgame

end DoubleBackprop

end MCTS

/-! ## One game with a double addition -/

namespace MCTS

section DoubleGame

variable {S A : Type} {add : ℚ → ℚ → ℚ}

/-- When the part of a game before `backpropagation` has ended, the current
node is a node that was given a state. -/
theorem playBeforeBackprop_current {G : Game S A} {fuel : Nat} {ρ : Rand}
    {g g3 : currentGame S A} (hs : Shape G g.mem) (hst : Stats none g.mem)
    (h : playBeforeBackprop G fuel ρ g = .ok g3) :
    ∃ (a : Nat) (nd : node S A), g3.currentNode = .addr a ∧ cellAt g3.mem a = some nd ∧
      nd.prevNode ≠ .wild := by
  obtain ⟨root, hroot, hnull⟩ := hs.root
  obtain ⟨cur, nd, hsel, hread, hcase⟩ := playBeforeBackprop_inv h
  obtain ⟨c, cn, rfl, hcn, hcw, _⟩ :=
    selectionLoop_inv hs hst _ 0 root cur hroot (by rw [hnull]; simp) hsel
  rcases hcase with ⟨_, rfl⟩ | ⟨_, g2, nd2, s, hexp, _, _, rfl⟩
  · exact ⟨c, cn, rfl, hcn, hcw⟩
  · obtain ⟨c1, j, n, cur0, nn, act, lnk, newState, hcur, hc, hj, hact, hl, hnext, hn, hnn,
      rfl⟩ := expansion_inv hexp
    simp only at hc hnn
    obtain ⟨_, _, _, _, hnlt, hnew, _⟩ := expand_setup hs hst hc hj hl hn hnn
    have hel : (expandedNode G nn newState c1 j).availableLinks = [] := by rw [hnew]; rfl
    have hcell : cellAt (grow G (writeNode g.mem c1 (flaggedNode ρ.shuffle cur0)) n
        (expandedNode G nn newState c1 j) (G.getActions newState).length) n =
        some { expandedNode G nn newState c1 j with
               availableLinks := freshLinks n (writeNode g.mem c1
                 (flaggedNode ρ.shuffle cur0)).length (G.getActions newState).length } := by
      have hn1 : n < (writeNode g.mem c1 (flaggedNode ρ.shuffle cur0)).length := by
        rw [length_writeNode]; exact hnlt
      exact cellAt_grow_self hn1 hel
    exact ⟨n, _, rfl, hcell, by simp [expandedNode]⟩

/-- C2 (amended): in every game of `playNGames` on a session built from a
fresh one, with any double addition `add` for `totReward += ...`: once the
game has come to `backpropagation` with a reward for the player of every node,
`backpropagation` ends normally; it walks the path of tree links from the node
where the game ended up to the root, and for every link on it adds 1 to the
link's `nTotal`, adds 1 to the `nVisits` of the link's parent, and replaces
the link's `totReward` by the double sum of `totReward` and `gameRewards[p]`,
where `p` is the `plyrsGo` of the state of the link's parent; so the increase
is `gameRewards[p]` whenever that sum is exact.  A path that is not empty ends
with a link of the root. -/
theorem backpropagation_adds_rewards (add : ℚ → ℚ → ℚ) {G : Game S A} {initState : S}
    {g g3 : currentGame S A} {fuel : Nat} {ρ : Rand}
    (hreach : ReachableWith add G initState g)
    (hbefore : playBeforeBackprop G fuel ρ g = .ok g3)
    (hplayers : ∀ (a : Nat) (nd : node S A), cellAt g3.mem a = some nd →
      nd.prevNode ≠ .wild → G.plyrsGo nd.gameState < g3.gameRewards.length) :
    ∃ g4 a path, backpropagationWith add G g3 = .ok g4 ∧
      playOneGameWith add G fuel ρ g = .ok g4 ∧
      g3.currentNode = .addr a ∧ PathUp g3.mem a path ∧
      (∀ p i, (p, i) ∈ path →
        ∃ (par par1 : node S A) (l l1 : link) (r : ℚ),
          cellAt g3.mem p = some par ∧ cellAt g4.mem p = some par1 ∧
          par.availableLinks[i]? = some l ∧ par1.availableLinks[i]? = some l1 ∧
          g3.gameRewards[G.plyrsGo par.gameState]? = some r ∧
          l1.nTotal = l.nTotal + 1 ∧ par1.nVisits = par.nVisits + 1 ∧
          l1.totReward = add l.totReward r ∧
          (add l.totReward r = l.totReward + r → l1.totReward = l.totReward + r)) ∧
      (path ≠ [] → ∃ j, (0, j) ∈ path) := by
  obtain ⟨hs, hst⟩ := hreach.invariants_with
  have hs3 := playBeforeBackprop_shape hs hst hbefore
  obtain ⟨a, nd, ha, hcell, hw⟩ := playBeforeBackprop_current hs hst hbefore
  obtain ⟨path, hp⟩ := hs3.pathUp a nd hcell hw
  have hrew : ∀ q j x, (q, j) ∈ path → cellAt g3.mem q = some x →
      G.plyrsGo x.gameState < g3.gameRewards.length := by
    intro q j x hq hx
    obtain ⟨_, _, par, _, _, _, _, hpar, hpw, _, _⟩ := hp.mem_info q j hq
    rw [hx] at hpar
    cases hpar
    exact hplayers q x hx hpw
  obtain ⟨mem1, e, hloop, hb, _, _, _⟩ :=
    @backpropLoop_spec_with S A add G g3.gameRewards path g3.mem a hp hrew
      (g3.mem.length + 1) (by have := hp.length_le; have := cellAt_lt hcell; omega)
  have hback : backpropagationWith add G g3 =
      .ok { g3 with mem := mem1, currentNode := .addr e } := by
    unfold backpropagationWith
    rw [ha, hloop]
  refine ⟨_, a, path, hback, ?_, ha, hp, ?_, ?_⟩
  · unfold playOneGameWith
    rw [hbefore]
    exact hback
  · intro p i hpi
    obtain ⟨_, _, par, l, _, _, _, hpar, _, hl, _⟩ := hp.mem_info p i hpi
    obtain ⟨r, hr, hcell1⟩ := (hb.2 p par hpar).2 i hpi
    have hjlt : i < par.availableLinks.length := by
      by_contra hc
      rw [List.getElem?_eq_none (by omega)] at hl
      cases hl
    refine ⟨par, bumpWith add r i par, l,
      { l with nTotal := l.nTotal + 1, totReward := add l.totReward r }, r, hpar, hcell1, hl,
      ?_, hr, rfl, bump_nVisits_with r i par hl, rfl, fun h => h⟩
    rw [bump_links_with r i par hl, List.getElem?_set_self hjlt]
  · intro hne
    obtain ⟨q, j, x, hq, hx, hnull⟩ := hp.top hne
    have := hs3.null_root hx hnull
    subst this
    exact ⟨j, hq⟩

end DoubleGame

end MCTS

/-! ## The scans of `bestInitialAction` and `cleanUp` with a double division -/

namespace MCTS

section DoubleScans

variable {S A : Type}

theorem Dbl.gt_trans {x y z : Dbl} (h1 : x.gt y = true) (h2 : y.gt z = true) :
    x.gt z = true := by
  cases x <;> cases y <;> cases z <;> simp only [Dbl.gt, decide_eq_true_eq] at * <;>
    first | linarith | trivial

theorem Dbl.gt_of_gt_fin {x : Dbl} {q m : ℚ} (h1 : x.gt (.fin m) = true) (h2 : q ≤ m) :
    x.gt (.fin q) = true := by
  cases x <;> simp only [Dbl.gt, decide_eq_true_eq] at * <;> first | linarith | trivial

theorem Dbl.fin_of_gt_fin {x : Dbl} {q m : ℚ} (h1 : x.gt (.fin q) = true)
    (h2 : x.gt (.fin m) = false) : ∃ p, x = .fin p ∧ p ≤ m := by
  cases x with
  | nan => simp [Dbl.gt] at h1
  | ninf => simp [Dbl.gt] at h1
  | pinf => simp [Dbl.gt] at h2
  | fin p =>
    refine ⟨p, rfl, ?_⟩
    simp only [Dbl.gt, decide_eq_false_iff_not, not_lt] at h2
    exact h2

theorem bestScanWith_done (div : ℚ → Int → Dbl) (acts : List A) :
    ∀ (links : List link) (k : Nat) (mv : Dbl) (a : A),
      (∀ l ∈ links, (div l.totReward l.nTotal).gt mv = false) →
      bestScanWith div acts links k mv a = .ok a := by
  intro links
  induction links with
  | nil => intro k mv a _; rfl
  | cons h t ih =>
    intro k mv a hle
    unfold bestScanWith
    simp only [hle h (List.mem_cons_self _ _)]
    exact ih (k + 1) mv a (fun l hl => hle l (List.mem_cons_of_mem _ hl))

/-- The scan of `bestInitialAction` returns the action at the first index
whose computed quotient is the largest, when that quotient exceeds the running
maximum the scan starts from. -/
theorem bestScanWith_first_max (div : ℚ → Int → Dbl) (acts : List A) :
    ∀ (links : List link) (i k : Nat) (mv : Dbl) (a0 : A) (l : link),
      k + links.length ≤ acts.length → links[i]? = some l →
      (∀ l' ∈ links, (div l'.totReward l'.nTotal).gt (div l.totReward l.nTotal) = false) →
      (∀ (j : Nat) (l' : link), j < i → links[j]? = some l' →
        (div l.totReward l.nTotal).gt (div l'.totReward l'.nTotal) = true) →
      (div l.totReward l.nTotal).gt mv = true →
      ∃ a, acts[k + i]? = some a ∧ bestScanWith div acts links k mv a0 = .ok a := by
  intro links
  induction links with
  | nil => intro i k mv a0 l _ hi; simp at hi
  | cons h t ih =>
    intro i k mv a0 l hlen hi hmax hfirst hmv
    have hmax' : ∀ l' ∈ t,
        (div l'.totReward l'.nTotal).gt (div l.totReward l.nTotal) = false :=
      fun l' hl' => hmax l' (List.mem_cons_of_mem _ hl')
    have hk : k < acts.length := by simp only [List.length_cons] at hlen; omega
    have hlen' : k + 1 + t.length ≤ acts.length := by
      simp only [List.length_cons] at hlen; omega
    unfold bestScanWith
    cases i with
    | zero =>
      simp only [List.getElem?_cons_zero, Option.some.injEq] at hi
      subst hi
      simp only [hmv, if_true, List.getElem?_eq_getElem hk, Nat.add_zero]
      exact ⟨_, rfl, bestScanWith_done div acts t _ _ _ hmax'⟩
    | succ i =>
      simp only [List.getElem?_cons_succ] at hi
      have hlt := hfirst 0 h (by omega) (by simp)
      have hfirst' : ∀ (j : Nat) (l' : link), j < i → t[j]? = some l' →
          (div l.totReward l.nTotal).gt (div l'.totReward l'.nTotal) = true :=
        fun j l' hj hl' => hfirst (j + 1) l' (by omega) (by simpa using hl')
      have hidx : k + (i + 1) = k + 1 + i := by omega
      rw [hidx]
      simp only
      split
      · simp only [List.getElem?_eq_getElem hk]
        exact ih i (k + 1) _ _ l hlen' hi hmax' hfirst' hlt
      · exact ih i (k + 1) _ _ l hlen' hi hmax' hfirst' hmv

/-- C3 (amended): `bestInitialAction` returns the available action at the
first index whose quotient `totReward / nTotal`, as the double division `div`
computes it, is the largest (no link has a greater computed quotient, every
earlier link has a smaller one), provided that quotient is above the sentinel
`-9999999999999`; this holds for every double division.  (The root has as many
actions as links, as in every tree the engine builds.) -/
theorem bestInitialAction_first_max_quotient (div : ℚ → Int → Dbl) (G : Game S A)
    (g : currentGame S A) (root : node S A) (i : Nat) (l : link)
    (hroot : g.rootNode = .ok root)
    (hlen : root.availableLinks.length = root.availableActions.length)
    (hi : root.availableLinks[i]? = some l)
    (hmax : ∀ l' ∈ root.availableLinks,
      (div l'.totReward l'.nTotal).gt (div l.totReward l.nTotal) = false)
    (hfirst : ∀ (j : Nat) (l' : link), j < i → root.availableLinks[j]? = some l' →
      (div l.totReward l.nTotal).gt (div l'.totReward l'.nTotal) = true)
    (hsent : (div l.totReward l.nTotal).gt (.fin (-9999999999999)) = true) :
    ∃ a, root.availableActions[i]? = some a ∧ bestInitialActionWith div G g = .ok a := by
  unfold bestInitialActionWith
  rw [hroot]
  have := bestScanWith_first_max div root.availableActions root.availableLinks i 0
    (.fin (-9999999999999)) G.defaultAction l (by omega) hi hmax hfirst hsent
  simpa using this

/-- The two scans agree: when the first loop of `cleanUp` keeps index `i` and
the computed quotient of link `i` is above the sentinel of
`bestInitialAction`, the scan of `bestInitialAction` returns action `i`. -/
theorem scans_agree (div : ℚ → Int → Dbl) (acts : List A) (L : List link)
    (hlen : L.length ≤ acts.length) :
    ∀ (links : List link) (k : Nat) (vc : Dbl) (mi : Option Nat) (vb : Dbl) (mv : A),
      (∀ n, links[n]? = L[k + n]?) →
      (∀ j, mi = some j → ∃ lj, L[j]? = some lj ∧ vc = div lj.totReward lj.nTotal) →
      ((vb = vc ∧ vc.gt (.fin (-9999999999999)) = true ∧
          ∃ j, mi = some j ∧ acts[j]? = some mv) ∨
        (vb = .fin (-9999999999999) ∧ ∃ q : ℚ, vc = .fin q ∧ q ≤ -9999999999999)) →
      ∀ (i : Nat) (l : link), cleanUpScanWith div links k vc mi = some i → L[i]? = some l →
        (div l.totReward l.nTotal).gt (.fin (-9999999999999)) = true →
        ∃ a, acts[i]? = some a ∧ bestScanWith div acts links k vb mv = .ok a := by
  intro links
  induction links with
  | nil =>
    intro k vc mi vb mv _ hinv hstate i l hscan hi hsent
    simp only [cleanUpScanWith] at hscan
    obtain ⟨lj, hlj, hvc⟩ := hinv i hscan
    rw [hi] at hlj
    cases hlj
    rcases hstate with ⟨_, _, j, hj, hact⟩ | ⟨_, q, hq, hle⟩
    · rw [hscan] at hj
      cases hj
      exact ⟨mv, hact, rfl⟩
    · rw [hvc] at hq
      rw [hq] at hsent
      simp only [Dbl.gt, decide_eq_true_eq] at hsent
      linarith
  | cons h t ih =>
    intro k vc mi vb mv hsuf hinv hstate i l hscan hi hsent
    have hh : L[k]? = some h := by
      have := hsuf 0
      simpa using this.symm
    have hklt : k < acts.length := by
      have : k < L.length := by
        by_contra hc
        rw [List.getElem?_eq_none (by omega)] at hh
        cases hh
      omega
    have hsuf' : ∀ n, t[n]? = L[k + 1 + n]? := by
      intro n
      have := hsuf (n + 1)
      simp only [List.getElem?_cons_succ] at this
      rw [this]
      congr 1
      omega
    unfold cleanUpScanWith at hscan
    unfold bestScanWith
    simp only at hscan ⊢
    rcases hstate with ⟨rfl, hgt, j, hj, hact⟩ | ⟨rfl, q, rfl, hle⟩
    · -- both scans hold the same maximum
      cases hx : (div h.totReward h.nTotal).gt vb with
      | true =>
        simp only [hx, if_true] at hscan ⊢
        simp only [List.getElem?_eq_getElem hklt]
        exact ih (k + 1) _ _ _ _ hsuf'
          (fun j hj => by cases hj; exact ⟨h, hh, rfl⟩)
          (Or.inl ⟨rfl, Dbl.gt_trans hx hgt, k, rfl, List.getElem?_eq_getElem hklt⟩)
          i l hscan hi hsent
      | false =>
        simp only [hx, Bool.false_eq_true, if_false] at hscan ⊢
        exact ih (k + 1) _ _ _ _ hsuf' hinv (Or.inl ⟨rfl, hgt, j, hj, hact⟩) i l hscan hi hsent
    · -- `bestInitialAction` has not found a quotient above its sentinel yet
      cases hx : (div h.totReward h.nTotal).gt (.fin (-9999999999999)) with
      | true =>
        have hx2 := Dbl.gt_of_gt_fin hx hle
        simp only [hx2, if_true] at hscan
        simp only [if_true, List.getElem?_eq_getElem hklt]
        exact ih (k + 1) _ _ _ _ hsuf'
          (fun j hj => by cases hj; exact ⟨h, hh, rfl⟩)
          (Or.inl ⟨rfl, hx, k, rfl, List.getElem?_eq_getElem hklt⟩) i l hscan hi hsent
      | false =>
        simp only [Bool.false_eq_true, if_false]
        cases hx2 : (div h.totReward h.nTotal).gt (.fin q) with
        | true =>
          simp only [hx2, if_true] at hscan
          obtain ⟨p, hp, hple⟩ := Dbl.fin_of_gt_fin hx2 hx
          exact ih (k + 1) _ _ _ _ hsuf'
            (fun j hj => by cases hj; exact ⟨h, hh, rfl⟩)
            (Or.inr ⟨rfl, p, hp, hple⟩) i l hscan hi hsent
        | false =>
          simp only [hx2, Bool.false_eq_true, if_false] at hscan
          exact ih (k + 1) _ _ _ _ hsuf' hinv (Or.inr ⟨rfl, q, rfl, hle⟩) i l hscan hi hsent

end DoubleScans

end MCTS

/-! ## `cleanUp` for every reading of the recursive call of `deleteNode` -/

namespace MCTS

section DoubleCleanUp

variable {S A : Type}

theorem deleteLinksWith_freed
    {f : Ptr → List (Option (node S A)) → Except Err (List (Option (node S A)))}
    (hf : ∀ p m m1, f p m = .ok m1 → Freed m m1) (pick : List link → Nat → Ptr)
    (links : List link) :
    ∀ (n i : Nat) (m m1 : List (Option (node S A))),
      deleteLinksWith f pick links n i m = .ok m1 → Freed m m1 := by
  intro n
  induction n with
  | zero =>
    intro i m m1 h
    simp only [deleteLinksWith, Except.ok.injEq] at h
    rw [← h]
    exact Freed.refl_freed m
  | succ n ih =>
    intro i m m1 h
    unfold deleteLinksWith at h
    cases hfl : f (pick links i) m with
    | error e => simp [hfl] at h
    | ok m2 =>
      simp only [hfl] at h
      exact (hf _ _ _ hfl).trans_freed (ih _ _ _ h)

/-- Whatever pointer the recursive call of `deleteNode` is given, `deleteNode`
only empties cells. -/
theorem deleteNodeFuel_freed (pick : List link → Nat → Ptr) (G : Game S A) :
    ∀ (fuel : Nat) (p : Ptr) (m m1 : List (Option (node S A))),
      deleteNodeFuel pick G fuel p m = .ok m1 → Freed m m1 := by
  intro fuel
  induction fuel with
  | zero => intro p m m1 h; simp [deleteNodeFuel] at h
  | succ f ih =>
    intro p m m1 h
    unfold deleteNodeFuel at h
    split at h
    · rename_i c
      split at h
      · cases h
      · rename_i nd hread
        split at h
        · cases h
        · rename_i m2 hchildren
          split at h
          · cases h
          · simp only [Except.ok.injEq] at h
            rw [← h]
            have h2 : Freed m m2 := by
              split at hchildren
              · exact deleteLinksWith_freed ih pick _ _ _ _ _ hchildren
              · simp only [Except.ok.injEq] at hchildren
                rw [← hchildren]
                exact Freed.refl_freed m
            exact h2.trans_freed (Freed.set_none_freed m2 c)
    · cases h

theorem deleteNodeWith_freed (pick : List link → Nat → Ptr) (G : Game S A) (p : Ptr)
    (m m1 : List (Option (node S A))) (h : deleteNodeWith pick G p m = .ok m1) : Freed m m1 :=
  deleteNodeFuel_freed pick G _ p m m1 h

theorem cleanUpDeleteWith_freed
    {del : Ptr → List (Option (node S A)) → Except Err (List (Option (node S A)))}
    (hdel : ∀ p m m1, del p m = .ok m1 → Freed m m1) (maxInd : Nat) :
    ∀ (links : List link) (i : Nat) (m m1 : List (Option (node S A))),
      cleanUpDeleteWith del maxInd links i m = .ok m1 → Freed m m1 := by
  intro links
  induction links with
  | nil =>
    intro i m m1 h
    simp only [cleanUpDeleteWith, Except.ok.injEq] at h
    rw [← h]
    exact Freed.refl_freed m
  | cons l rest ih =>
    intro i m m1 h
    unfold cleanUpDeleteWith at h
    split at h
    · exact ih _ _ _ h
    · cases hd : del l.nextState m with
      | error e => simp [hd] at h
      | ok m2 =>
        simp only [hd] at h
        exact (hdel _ _ _ hd).trans_freed (ih _ _ _ h)

/-- What a `cleanUp` that returned did. -/
theorem cleanUpWith_inv {div : ℚ → Int → Dbl}
    {del : Ptr → List (Option (node S A)) → Except Err (List (Option (node S A)))}
    {g g1 : currentGame S A} (h : cleanUpWith div del g = .ok g1) :
    ∃ (root : node S A) (i : Nat) (mem1 : List (Option (node S A))) (root1 : node S A)
      (lnk : link) (child : node S A),
      g.rootNode = .ok root ∧
      cleanUpScanWith div root.availableLinks 0 (.fin (-99999999999999)) none = some i ∧
      cleanUpDeleteWith del i root.availableLinks 0 g.mem = .ok mem1 ∧
      readNode mem1 (.addr 0) = .ok root1 ∧ root1.availableLinks[i]? = some lnk ∧
      readNode mem1 lnk.nextState = .ok child ∧
      g1 = { g with mem := writeNode mem1 0 child } := by
  unfold cleanUpWith at h
  split at h
  · cases h
  · rename_i root hroot
    split at h
    · cases h
    · rename_i i hscan
      split at h
      · cases h
      · rename_i mem1 hdelete
        split at h
        · cases h
        · rename_i root1 hroot1
          split at h
          · cases h
          · rename_i lnk hlnk
            split at h
            · cases h
            · rename_i child hchild
              simp only [Except.ok.injEq] at h
              exact ⟨root, i, mem1, root1, lnk, child, hroot, hscan, hdelete, hroot1, hlnk,
                hchild, h.symm⟩

end DoubleCleanUp

end MCTS

/-! ## What `cleanUp` keeps -/

namespace MCTS

section DoubleCleanUpClaims

variable {S A : Type}

theorem cellAt_root {g : currentGame S A} {root : node S A} (hroot : g.rootNode = .ok root) :
    cellAt g.mem 0 = some root := by
  obtain ⟨a, ha, hc⟩ := readNode_eq_ok.mp hroot
  cases ha
  exact hc

/-- C8 (amended): in a tree of the engine whose root links were all tried,
when the quotient `totReward / nTotal` of the link that `cleanUp` keeps is
above `-9999999999999` (the sentinel of `bestInitialAction`), the index
`cleanUp` keeps is the index of the action `bestInitialAction` returns, and
when `cleanUp` returns the state of the new root is the state that action
leads to from the old root.  This holds for every double division and
whatever pointer the recursive call of `deleteNode` is given. -/
theorem cleanUp_keeps_best_action (div : ℚ → Int → Dbl) (pick : List link → Nat → Ptr)
    {G : Game S A} {okS : S → Prop} {μ : S → Nat} {μ0 : Nat} (g : currentGame S A)
    (root : node S A) (i : Nat) (l : link)
    (hshape : Shape G g.mem) (hstats : Stats none g.mem) (hstates : StateInv G okS μ μ0 g.mem)
    (hroot : g.rootNode = .ok root)
    (htried : ∀ l' ∈ root.availableLinks, 1 ≤ l'.nTotal)
    (hscan : cleanUpScanWith div root.availableLinks 0 (.fin (-99999999999999)) none = some i)
    (hi : root.availableLinks[i]? = some l)
    (hsent : (div l.totReward l.nTotal).gt (.fin (-9999999999999)) = true) :
    ∃ a : A, root.availableActions[i]? = some a ∧ bestInitialActionWith div G g = .ok a ∧
      ∀ g1 : currentGame S A, cleanUpWith div (deleteNodeWith pick G) g = .ok g1 →
        ∃ newRoot : node S A, g1.rootNode = .ok newRoot ∧
          G.getNextState root.gameState a = .ok newRoot.gameState := by
  have hcell := cellAt_root hroot
  obtain ⟨a, ha, hbest⟩ := scans_agree div root.availableActions root.availableLinks
    (by rw [hshape.acts_len 0 root hcell]) root.availableLinks 0 (.fin (-99999999999999)) none
    (.fin (-9999999999999)) G.defaultAction (fun n => by rw [Nat.zero_add])
    (fun j hj => by cases hj)
    (Or.inr ⟨rfl, -99999999999999, rfl, by norm_num⟩) i l hscan hi hsent
  refine ⟨a, ha, ?_, ?_⟩
  · unfold bestInitialActionWith
    rw [hroot]
    exact hbest
  · intro g1 hclean
    obtain ⟨root0, i0, mem1, root1, lnk, child, hroot0, hscan0, hdelete, hroot1, hlnk, hchild,
      hg1⟩ := cleanUpWith_inv hclean
    rw [hroot] at hroot0
    cases hroot0
    rw [hscan] at hscan0
    cases hscan0
    have hfr := cleanUpDeleteWith_freed (deleteNodeWith_freed pick G) i root.availableLinks 0
      g.mem mem1 hdelete
    have hcell1 : cellAt mem1 0 = some root1 := by
      obtain ⟨a1, ha1, hc⟩ := readNode_eq_ok.mp hroot1
      cases ha1
      exact hc
    have hr1 : root1 = root := by
      have := hfr.2 0 root1 hcell1
      rw [hcell] at this
      exact (Option.some.inj this).symm
    subst hr1
    rw [hi] at hlnk
    cases hlnk
    obtain ⟨c, hc, hchild1⟩ := readNode_eq_ok.mp hchild
    have hchild0 : cellAt g.mem c = some child := hfr.2 c child hchild1
    have hwild : child.prevNode ≠ .wild :=
      (hstats.tried_iff 0 root1 i l c child hcell hi hc hchild0 (by simp)).mp
        (htried l (List.getElem?_mem hi))
    refine ⟨child, ?_, hstates.child_state 0 root1 i l c child a hcell hi hc hchild0 hwild ha⟩
    rw [hg1]
    unfold currentGame.rootNode readNode
    simp [cellAt_write, cellAt_lt hcell1]

end DoubleCleanUpClaims

end MCTS

/-! ## Sessions in double arithmetic -/

namespace MCTS

section ReachableWithLoop

variable {S A : Type}

theorem playLoopWith_reachable {add : ℚ → ℚ → ℚ} {G : Game S A} {initState : S} (fuel : Nat)
    (rand : Nat → Rand) :
    ∀ (n i : Nat) (g g1 : currentGame S A), ReachableWith add G initState g →
      playLoopWith add G fuel rand n i g = .ok g1 → ReachableWith add G initState g1 := by
  intro n
  induction n with
  | zero =>
    intro i g g1 hr h
    simp only [playLoopWith, Except.ok.injEq] at h
    rw [← h]
    exact hr
  | succ n ih =>
    intro i g g1 hr h
    unfold playLoopWith at h
    cases hone : playOneGameWith add G fuel (rand i) g with
    | error e => simp [hone] at h
    | ok g2 =>
      simp only [hone] at h
      exact ih (i + 1) g2 g1 (ReachableWith.game hr hone) h

end ReachableWithLoop

namespace TicTacToe

theorem thirdsPlayed_eq :
    playNGamesWith addDouble thirdsGame 10 sampleRand 3 thirdsFresh = .ok thirdsPlayed := by
  decide!

theorem thirdsPlayed_reachable : ReachableWith addDouble thirdsGame lateState thirdsPlayed :=
  playLoopWith_reachable 10 sampleRand 3 0 thirdsFresh thirdsPlayed
    (ReachableWith.init (initializeRoot_construct thirdsGame lateState 2)) thirdsPlayed_eq

theorem thirdsBefore_eq :
    playBeforeBackprop thirdsGame 10 (sampleRand 3) thirdsPlayed = .ok thirdsBefore := by
  decide!

theorem thirdsRoot_eq : thirdsFinal.rootNode = .ok thirdsRoot := by
  decide!

theorem thirdsBefore_players (a : Nat) (nd : node gameState gameAction)
    (h : cellAt thirdsBefore.mem a = some nd) (_ : nd.prevNode ≠ .wild) :
    thirdsGame.plyrsGo nd.gameState < thirdsBefore.gameRewards.length := by
  have hlt : a < 5 := by
    have := cellAt_lt h
    have hlen : thirdsBefore.mem.length = 5 := by decide!
    omega
  exact (by decide! : ∀ a, a < 5 → ∀ nd ∈ cellAt thirdsBefore.mem a,
    thirdsGame.plyrsGo nd.gameState < thirdsBefore.gameRewards.length) a hlt nd h

/-- C2 as stated fails in double arithmetic: in the fourth game of
`thirdsGame` on `lateState`, player 1, who is to go at the root, is rewarded
`thirdUp`; root link 1 is on the path (its `nTotal` goes from 2 to 3) and its
`totReward` goes from `2 * thirdUp` to `1`, the double nearest to
`3 * thirdUp`, so it increases by less than the reward. -/
theorem backpropagation_increase_differs_from_reward :
    playNGamesWith addDouble thirdsGame 10 sampleRand 3 thirdsFresh = .ok thirdsPlayed ∧
    playOneGameWith addDouble thirdsGame 10 (sampleRand 3) thirdsPlayed = .ok thirdsFinal ∧
    thirdsPlayed.rootNode.map (fun root =>
      (root.gameState.plyrsGo, root.availableLinks.map (fun l => (l.totReward, l.nTotal)))) =
      .ok (1, [(third, 1), (2 * thirdUp, 2)]) ∧
    thirdsFinal.rootNode.map (fun root =>
      (root.gameState.plyrsGo, root.availableLinks.map (fun l => (l.totReward, l.nTotal)))) =
      .ok (1, [(third, 1), (1, 3)]) ∧
    thirdsFinal.gameRewards = [0, thirdUp] ∧
    (1 : ℚ) - 2 * thirdUp ≠ thirdUp ∧
    addDouble (2 * thirdUp) thirdUp = 1 := by
  refine ⟨by decide!, by decide!, by decide!, by decide!, by decide!, by decide!, by decide!⟩

/-- C2 (amended) on `thirdsPlayed`: the fourth game of `thirdsGame`, in double
arithmetic. -/
theorem backpropagation_adds_rewards_witness :
    ∃ g4 a path, backpropagationWith addDouble thirdsGame thirdsBefore = .ok g4 ∧
      playOneGameWith addDouble thirdsGame 10 (sampleRand 3) thirdsPlayed = .ok g4 ∧
      thirdsBefore.currentNode = .addr a ∧ PathUp thirdsBefore.mem a path ∧
      (∀ p i, (p, i) ∈ path →
        ∃ (par par1 : node gameState gameAction) (l l1 : link) (r : ℚ),
          cellAt thirdsBefore.mem p = some par ∧ cellAt g4.mem p = some par1 ∧
          par.availableLinks[i]? = some l ∧ par1.availableLinks[i]? = some l1 ∧
          thirdsBefore.gameRewards[thirdsGame.plyrsGo par.gameState]? = some r ∧
          l1.nTotal = l.nTotal + 1 ∧ par1.nVisits = par.nVisits + 1 ∧
          l1.totReward = addDouble l.totReward r ∧
          (addDouble l.totReward r = l.totReward + r → l1.totReward = l.totReward + r)) ∧
      (path ≠ [] → ∃ j, (0, j) ∈ path) :=
  backpropagation_adds_rewards addDouble thirdsPlayed_reachable thirdsBefore_eq
    thirdsBefore_players

/-- C3 as stated fails in double arithmetic: after four games of `thirdsGame`
on `lateState` the root links hold `(third, 1)` and `(1, 3)`.  The average of
link 0 is `third`, which is below one third, the average of link 1, so link 1
alone has the largest average; the doubles `third / 1` and `1.0 / 3` are
equal, and `bestInitialAction` returns the action of link 0. -/
theorem bestInitialAction_rounding_tie :
    playNGamesWith addDouble thirdsGame 10 sampleRand 4 thirdsFresh = .ok thirdsFinal ∧
    thirdsFinal.rootNode.map (fun root =>
      (root.availableActions, root.availableLinks.map (fun l => (l.totReward, l.nTotal)))) =
      .ok ([⟨2, 0⟩, ⟨2, 1⟩], [(third, 1), (1, 3)]) ∧
    (-9999999999999 : ℚ) < third / ((1 : Int) : ℚ) ∧
    third / ((1 : Int) : ℚ) < (1 : ℚ) / ((3 : Int) : ℚ) ∧
    divDouble third 1 = divDouble 1 3 ∧
    bestInitialActionWith divDouble thirdsGame thirdsFinal = .ok ⟨2, 0⟩ := by
  refine ⟨by decide!, by decide!, by decide!, by decide!, by decide!, by decide!⟩

/-- C3 (amended) on `thirdsFinal`: the computed quotients of the two root
links are equal, link 0 is the first with the largest, and its action is
returned. -/
theorem bestInitialAction_first_max_quotient_witness :
    ∃ a, thirdsRoot.availableActions[0]? = some a ∧
      bestInitialActionWith divDouble thirdsGame thirdsFinal = .ok a :=
  bestInitialAction_first_max_quotient divDouble thirdsGame thirdsFinal thirdsRoot 0
    { parentState := .addr 0, nextState := .addr 1, totReward := third, nTotal := 1 }
    thirdsRoot_eq (by decide!) (by decide!) (by decide!)
    (fun j _ hj _ => absurd hj (Nat.not_lt_zero j)) (by decide!)

/-- C8 as stated fails: with rewards of `-50000000000000` both root links of
`harshSession` have `nTotal == 1` and the quotient `-50000000000000`, which is
above the sentinel of `cleanUp` and below the sentinel of
`bestInitialAction`: `cleanUp` keeps link 0, the action `(2, 0)`, while
`bestInitialAction` returns the default action `(0, 0)`. -/
theorem cleanUp_index_differs_from_bestInitialAction :
    playNGamesWith addDouble harshGame 10 sampleRand 2 (initialGame harshGame lateState 2) =
      .ok harshSession ∧
    harshSession.rootNode.map (fun root =>
      (root.availableActions, root.availableLinks.map (fun l => (l.totReward, l.nTotal)),
        cleanUpScanWith divDouble root.availableLinks 0 (.fin (-99999999999999)) none)) =
      .ok ([⟨2, 0⟩, ⟨2, 1⟩], [(-50000000000000, 1), (-50000000000000, 1)], some 0) ∧
    bestInitialActionWith divDouble harshGame harshSession = .ok ⟨0, 0⟩ := by
  refine ⟨by decide!, by decide!, by decide!⟩

/-- C8 (amended) on `playedSession`: the kept link is link 1, with quotient 0. -/
theorem cleanUp_keeps_best_action_witness :
    ∃ a : gameAction, playedRoot.availableActions[1]? = some a ∧
      bestInitialActionWith divDouble sampleGame playedSession = .ok a ∧
      ∀ g1 : currentGame gameState gameAction,
        cleanUpWith divDouble (deleteNodeWith linkAt sampleGame) playedSession = .ok g1 →
        ∃ newRoot : node gameState gameAction, g1.rootNode = .ok newRoot ∧
          sampleGame.getNextState playedRoot.gameState a = .ok newRoot.gameState :=
  cleanUp_keeps_best_action divDouble linkAt playedSession playedRoot 1
    { parentState := .addr 0, nextState := .addr 2, totReward := 0, nTotal := 1 }
    (Reachable.good sampleGame_contract validState_openState playedSession_reachable).shape
    (Reachable.good sampleGame_contract validState_openState playedSession_reachable).stats
    (Reachable.good sampleGame_contract validState_openState playedSession_reachable).states
    playedRoot_eq (by decide!) (by decide!) (by decide!) (by decide!)

end TicTacToe

end MCTS
